import Mathlib

/-!
# Bloom filter / counting bloom filter: embedding and verified properties

Shallow embedding of `src/src/bloom_filter.hpp` and `src/src/murmur3.hpp`.

* Unsigned 64-bit words (`std::uint64_t`, `std::size_t`, `unsigned long long`) are natural
  numbers, every wrapping operation is written with an explicit `% 2 ^ 64`.
* A `std::bitset<W>` used as a counter is the natural number it denotes; constructing it from
  an `unsigned long long` keeps the low `W` bits (`% 2 ^ W`).
* `std::array<std::bitset<W>, M>` and `std::bitset<M>` are functions on `Fin M`: the size is
  part of the type, as it is in the source.
* `double` computations (the sizing policies and the cardinality estimate) are embedded over
  a double arithmetic `FloatOps` constrained by the IEEE-754 laws `FloatOps.Standard`; these
  embeddings live in the namespace `f64`, and `static_cast<std::size_t>` is `to_size_t`.
* The definitions of the same functions under `detail`, and `approx_formula`, read the same
  expressions in exact real arithmetic (no rounding, truncation is `Nat.floor`); they are
  the values of the formulas before rounding.
-/

set_option autoImplicit false

/-! ## Machine words -/

/-- Wrap a natural number to an unsigned 64-bit word. -/
def u64 (n : Nat) : Nat := n % 2 ^ 64

/-- Value of `std::bitset<W>(v)` for an `unsigned long long` `v`: the low `W` bits of `v`. -/
def bitset_of (W : Nat) (v : Nat) : Nat := v % 2 ^ W

/-! ## `murmur3.hpp` -/

/-- Modelled from the spec: `_lrotl` comes from `<x86intrin.h>`, which is not part of the
repository; the spec calls the steps using it "rotate-multiply-add" on 64-bit accumulators, so
it is the left rotation of a 64-bit word by `r` bits (`0 < r < 64`). -/
def _lrotl (x r : Nat) : Nat := u64 ((x <<< r) ||| (x >>> (64 - r)))

/-- Source: `fmix64`. -/
def fmix64 (k : Nat) : Nat :=
  let k := k ^^^ (k >>> 33)
  let k := u64 (k * 0xff51afd7ed558ccd)
  let k := k ^^^ (k >>> 33)
  let k := u64 (k * 0xc4ceb9fe1a85ec53)
  let k := k ^^^ (k >>> 33)
  k

namespace murmur3

/-- Constant `c1` of `murmur3_64bit`. -/
def c1 : Nat := 0x87c37b91114253d5

/-- Constant `c2` of `murmur3_64bit`. -/
def c2 : Nat := 0x4cf5ad432745937f

/-- Byte `data[i]` of the key (bytes are naturals below 256). -/
def byteAt (data : List Nat) (i : Nat) : Nat := data.getD i 0

/-- Little-endian 64-bit load `blocks[k]` with `blocks = (uint64_t const*) data`. -/
def load64 (data : List Nat) (k : Nat) : Nat :=
  (List.range 8).foldl (fun acc b => acc ||| (byteAt data (8 * k + b) <<< (8 * b))) 0

/-- One iteration of the block loop, on the pair `(h1, h2)`. -/
def body_step (data : List Nat) (h : Nat × Nat) (i : Nat) : Nat × Nat :=
  let h1 := h.1
  let h2 := h.2
  let k1 := load64 data (i * 2 + 0)
  let k2 := load64 data (i * 2 + 1)
  let k1 := u64 (k1 * c1)
  let k1 := _lrotl k1 31
  let k1 := u64 (k1 * c2)
  let h1 := h1 ^^^ k1
  let h1 := _lrotl h1 27
  let h1 := u64 (h1 + h2)
  let h1 := u64 (h1 * 5 + 0x52dce729)
  let k2 := u64 (k2 * c2)
  let k2 := _lrotl k2 33
  let k2 := u64 (k2 * c1)
  let h2 := h2 ^^^ k2
  let h2 := _lrotl h2 31
  let h2 := u64 (h2 + h1)
  let h2 := u64 (h2 * 5 + 0x38495ab5)
  (h1, h2)

end murmur3

open murmur3 in
/-- Source: `murmur3_64bit(key, len, seed)`; `key` lists the bytes the pointer addresses, the
returned `std::array<std::size_t, 2>` is listed left to right.  The `switch` on `len & 15`
falls through, so the statement of `case c` runs exactly when `len & 15 >= c`. -/
def murmur3_64bit (key : List Nat) (len : Nat) (seed : Nat) : List Nat :=
  let nblocks := len / 16
  let h := (List.range nblocks).foldl (body_step key) (seed, seed)
  let h1 := h.1
  let h2 := h.2
  let tail := fun i => byteAt key (nblocks * 16 + i)
  let r := len &&& 15
  let k1 := 0
  let k2 := 0
  let k2 := if r ≥ 15 then k2 ^^^ (tail 14 <<< 48) else k2
  let k2 := if r ≥ 14 then k2 ^^^ (tail 13 <<< 40) else k2
  let k2 := if r ≥ 13 then k2 ^^^ (tail 12 <<< 32) else k2
  let k2 := if r ≥ 12 then k2 ^^^ (tail 11 <<< 24) else k2
  let k2 := if r ≥ 11 then k2 ^^^ (tail 10 <<< 16) else k2
  let k2 := if r ≥ 10 then k2 ^^^ (tail 9 <<< 8) else k2
  let k2 := if r ≥ 9 then k2 ^^^ (tail 8 <<< 0) else k2
  let k2 := if r ≥ 9 then u64 (k2 * c2) else k2
  let k2 := if r ≥ 9 then _lrotl k2 33 else k2
  let k2 := if r ≥ 9 then u64 (k2 * c1) else k2
  let h2 := if r ≥ 9 then h2 ^^^ k2 else h2
  let k1 := if r ≥ 8 then k1 ^^^ (tail 7 <<< 56) else k1
  let k1 := if r ≥ 7 then k1 ^^^ (tail 6 <<< 48) else k1
  let k1 := if r ≥ 6 then k1 ^^^ (tail 5 <<< 40) else k1
  let k1 := if r ≥ 5 then k1 ^^^ (tail 4 <<< 32) else k1
  let k1 := if r ≥ 4 then k1 ^^^ (tail 3 <<< 24) else k1
  let k1 := if r ≥ 3 then k1 ^^^ (tail 2 <<< 16) else k1
  let k1 := if r ≥ 2 then k1 ^^^ (tail 1 <<< 8) else k1
  let k1 := if r ≥ 1 then k1 ^^^ (tail 0 <<< 0) else k1
  let k1 := if r ≥ 1 then u64 (k1 * c1) else k1
  let k1 := if r ≥ 1 then _lrotl k1 31 else k1
  let k1 := if r ≥ 1 then u64 (k1 * c2) else k1
  let h1 := if r ≥ 1 then h1 ^^^ k1 else h1
  let h1 := h1 ^^^ len
  let h2 := h2 ^^^ len
  let h1 := u64 (h1 + h2)
  let h2 := u64 (h2 + h1)
  let h1 := fmix64 h1
  let h2 := fmix64 h2
  let h1 := u64 (h1 + h2)
  let _h2 := u64 (h2 + h1)
  [h1, h1]

/-- Object representation of an `int` (`sizeof(int) = 4`, two's complement, little endian as
on the x86 targets `<x86intrin.h>` exists for). -/
def int_bytes (t : Int) : List Nat :=
  let u := (t % 2 ^ 32).toNat
  [u % 256, u / 256 % 256, u / 65536 % 256, u / 16777216 % 256]

/-- Source: `default_bloom_filter_hash<int>::operator()`:
`murmur3_64bit(addressof(t), sizeof(T), 5342357u)`. -/
def default_bloom_filter_hash (t : Int) : List Nat :=
  murmur3_64bit (int_bytes t) 4 5342357

/-! ## `detail::fast_mod` and the sizing policies -/

namespace detail

/-- Source: `return input >= ceil ? input % ceil : input;` -/
def fast_mod (input ceil : Nat) : Nat :=
  if input ≥ ceil then input % ceil else input

namespace bloom_filter_false_positive_policy

/-- The exact ratio `Num / Denom` that `false_positive_probability()` approximates
(`static_cast<double>(Num) / static_cast<double>(Denom)` without rounding). -/
noncomputable def false_positive_probability (Num Denom : Int) : ℝ :=
  (Num : ℝ) / (Denom : ℝ)

/-- The expression of `num_buckets()`,
`static_cast<std::size_t>(-((double(Expected) * std::log(false_positive_probability()))
/ (std::pow(std::log(2), 2))))`, read in exact real arithmetic (no rounding); the conversion
to `std::size_t` drops the fractional part.  The double evaluation is
`f64.bloom_filter_false_positive_policy.num_buckets`. -/
noncomputable def num_buckets (Expected : Nat) (Num Denom : Int) : Nat :=
  Nat.floor (-(((Expected : ℝ) * Real.log (false_positive_probability Num Denom)) /
    (Real.log 2) ^ 2))

/-- The condition of the policy's `static_assert(false_positive_probability() > 0. &&
false_positive_probability() < 1., ...)` on the exact ratio. -/
def accepted (Num Denom : Int) : Prop :=
  false_positive_probability Num Denom > 0 ∧ false_positive_probability Num Denom < 1

end bloom_filter_false_positive_policy

namespace bloom_filter_size_policy

/-- Source: `return NumBuckets;` -/
def num_buckets (NumBuckets : Nat) : Nat := NumBuckets

/-- Source: `std::tuple_size_v<Tpl>` for the adapter's result tuple, here the arity `K`. -/
def num_hashes (K : Nat) : Nat := K

/-- The body `double x = 1. - (1. / double(NumBuckets));
x = 1. - std::pow(x, double(num_hashes()) * double(Expected));
return std::pow(x, double(num_hashes()));` read in exact real arithmetic (no rounding,
`std::pow` is the real power function).  The double evaluation is
`f64.bloom_filter_size_policy.false_positive_probability`. -/
noncomputable def false_positive_probability (Expected NumBuckets K : Nat) : ℝ :=
  let x : ℝ := 1 - (1 / (NumBuckets : ℝ))
  let x : ℝ := 1 - Real.rpow x (((num_hashes K : Nat) : ℝ) * (Expected : ℝ))
  Real.rpow x ((num_hashes K : Nat) : ℝ)

end bloom_filter_size_policy

end detail

/-! ## Policies as seen by the filter engine -/

/-- What `counting_bloom_filter` reads off its `Policy` template argument: the hash adapter
(`hash_type{}(val)`, a tuple of `num_hashes` unsigned integers, listed left to right) and
`num_buckets()`.  A filter with zero buckets has no addressable slot (every operation would
reduce modulo zero), so a usable policy carries `0 < num_buckets`. -/
structure Policy (α : Type) where
  hash : α → List Nat
  num_hashes : Nat
  hash_arity : ∀ a, (hash a).length = num_hashes
  num_buckets : Nat
  num_buckets_pos : 0 < num_buckets

variable {α : Type}

/-- Slot addressed by a raw probe index: `detail::fast_mod(idx, num_buckets())`. -/
def Policy.slot (P : Policy α) (idx : Nat) : Fin P.num_buckets :=
  ⟨detail.fast_mod idx P.num_buckets, by
    unfold detail.fast_mod
    have := P.num_buckets_pos
    split
    · exact Nat.mod_lt _ this
    · omega⟩

/-- Cardinality estimate shared by both storages: the expression
`static_cast<std::size_t>(-((double(num_buckets()) / double(num_hashes())) *
(std::log(1. - (double(set) / double(num_buckets()))))))` read in exact real arithmetic (no
rounding).  The double evaluation is `f64.approx_formula`. -/
noncomputable def approx_formula (P : Policy α) (set : Nat) : Nat :=
  Nat.floor (-(((P.num_buckets : ℝ) / (P.num_hashes : ℝ)) *
    Real.log (1 - ((set : ℝ) / (P.num_buckets : ℝ)))))

/-! ## Bit storage: `counting_bloom_filter<Policy, 0>` -/

namespace counting_bloom_filter_0

/-- The member `std::bitset<num_buckets()> bits_`. -/
abbrev State (P : Policy α) := Fin P.num_buckets → Bool

/-- Default-constructed filter: every bit clear. -/
def empty (P : Policy α) : State P := fun _ => false

/-- Source: `(bits_.set(detail::fast_mod(idx, num_buckets())), ...)` over the hash tuple. -/
def insert (P : Policy α) (bits_ : State P) (t : α) : State P :=
  (P.hash t).foldl (fun b idx => Function.update b (P.slot idx) true) bits_

/-- Source: `(bits_.test(detail::fast_mod(idx, num_buckets())) && ...)`. -/
def contains (P : Policy α) (bits_ : State P) (t : α) : Bool :=
  (P.hash t).all (fun idx => bits_ (P.slot idx))

/-- Source: `bits_.reset()`. -/
def reset (P : Policy α) (_bits : State P) : State P := fun _ => false

/-- Number of set bits, `bits_.count()`. -/
def count (P : Policy α) (bits_ : State P) : Nat :=
  (List.finRange P.num_buckets).countP (fun j => bits_ j)

/-- Source: `approx_inserted()` with `bits_set = bits_.count()`. -/
noncomputable def approx_inserted (P : Policy α) (bits_ : State P) : Nat :=
  approx_formula P (count P bits_)

/-- Source: `return 1;` -/
def max_bucket_value : Nat := 1

/-- Run a sequence of `insert` calls, left to right. -/
def insert_all (P : Policy α) (bits_ : State P) (vs : List α) : State P :=
  vs.foldl (insert P) bits_

end counting_bloom_filter_0

/-! ## Counter storage: `counting_bloom_filter<Policy, BitsPerBucket>`, `BitsPerBucket >= 1` -/

namespace counting_bloom_filter

/-- The member `std::array<std::bitset<BitsPerBucket>, num_buckets()> buckets_`; a slot holds
the number its bitset denotes (`to_ullong()`), which is below `2 ^ 64` whenever the slot was
zero-initialised or assigned, the only ways the source writes it. -/
abbrev State (P : Policy α) := Fin P.num_buckets → Nat

/-- Default-constructed filter: every counter zero. -/
def empty (P : Policy α) : State P := fun _ => 0

/-- Source: lambda `increment_bucket`: `bucket = bucket.to_ullong() + 1;` (64-bit addition,
then the bitset keeps `W` bits). -/
def increment_bucket (W : Nat) (P : Policy α) (buckets_ : State P) (i : Nat) : State P :=
  Function.update buckets_ (P.slot i) (bitset_of W (u64 (buckets_ (P.slot i) + 1)))

/-- Source: lambda `decrement_bucket`: `bucket = bucket.to_ullong() - 1;` (64-bit subtraction:
adding `2 ^ 64 - 1` modulo `2 ^ 64`, then the bitset keeps `W` bits). -/
def decrement_bucket (W : Nat) (P : Policy α) (buckets_ : State P) (i : Nat) : State P :=
  Function.update buckets_ (P.slot i) (bitset_of W (u64 (buckets_ (P.slot i) + (2 ^ 64 - 1))))

/-- Source: `insert`: `(increment_bucket(idx), ...)` over the hash tuple. -/
def insert (W : Nat) (P : Policy α) (buckets_ : State P) (val : α) : State P :=
  (P.hash val).foldl (increment_bucket W P) buckets_

/-- Source: `remove`: `(decrement_bucket(idx), ...)` over the hash tuple. -/
def remove (W : Nat) (P : Policy α) (buckets_ : State P) (val : α) : State P :=
  (P.hash val).foldl (decrement_bucket W P) buckets_

/-- Source: `((buckets_[fast_mod(idx, num_buckets())].to_ullong() > 0ull) && ...)`. -/
def contains (P : Policy α) (buckets_ : State P) (val : α) : Bool :=
  (P.hash val).all (fun idx => decide (buckets_ (P.slot idx) > 0))

/-- Source: `((buckets_[fast_mod(idx, num_buckets())].to_ullong() < count) && ...)`. -/
def contains_less_than (P : Policy α) (buckets_ : State P) (val : α) (count : Nat) : Bool :=
  (P.hash val).all (fun idx => decide (buckets_ (P.slot idx) < count))

/-- Source: `buckets_.fill(0)`. -/
def reset (P : Policy α) (_buckets : State P) : State P := fun _ => 0

/-- The loop of `approx_inserted`: number of slots with `to_ullong() > 0`. -/
def buckets_set (P : Policy α) (buckets_ : State P) : Nat :=
  (List.finRange P.num_buckets).countP (fun j => decide (buckets_ j > 0))

/-- Source: `approx_inserted()`. -/
noncomputable def approx_inserted (P : Policy α) (buckets_ : State P) : Nat :=
  approx_formula P (buckets_set P buckets_)

/-- Source: `std::bitset<BitsPerBucket>().set().to_ullong()`: all `W` bits set, converted to
`unsigned long long`; `to_ullong` has no result (`std::overflow_error`) when the value does
not fit 64 bits. -/
def max_bucket_value (W : Nat) : Option Nat :=
  if 2 ^ W - 1 < 2 ^ 64 then some (2 ^ W - 1) else none

/-- Run a sequence of `insert` calls, left to right. -/
def insert_all (W : Nat) (P : Policy α) (buckets_ : State P) (vs : List α) : State P :=
  vs.foldl (insert W P) buckets_

/-- All slots addressed by the values `L`, value by value and lane by lane. -/
def probes (P : Policy α) : List α → List (Fin P.num_buckets)
  | [] => []
  | x :: L => (P.hash x).map P.slot ++ probes P L

/-- An update of the filter: `insert(v)` or `remove(v)`. -/
inductive Op (α : Type) where
  | insert (v : α)
  | remove (v : α)
  deriving DecidableEq, Repr

/-- Effect of one update. -/
def apply (W : Nat) (P : Policy α) (s : State P) : Op α → State P
  | .insert v => insert W P s v
  | .remove v => remove W P s v

/-- Run a sequence of updates, left to right. -/
def run (W : Nat) (P : Policy α) (s : State P) (ops : List (Op α)) : State P :=
  ops.foldl (apply W P) s

/-- Values currently in the filter after a sequence of updates started with the values `L`
in it: inserted and not yet removed. -/
def live [DecidableEq α] : List α → List (Op α) → List α
  | L, [] => L
  | L, .insert v :: ops => live (v :: L) ops
  | L, .remove v :: ops => live (L.erase v) ops

/-- Every `remove(v)` of the sequence finds `v` among the values currently in the filter,
that is, it is paired with an earlier `insert(v)` not yet undone. -/
def paired [DecidableEq α] : List α → List (Op α) → Bool
  | _, [] => true
  | L, .insert v :: ops => paired (v :: L) ops
  | L, .remove v :: ops => decide (v ∈ L) && paired (L.erase v) ops

/-- Number of probe indices of the values `L`, with multiplicity, that reduce to slot `j`. -/
def hits (P : Policy α) (j : Fin P.num_buckets) (L : List α) : Nat :=
  (L.map (fun x => ((P.hash x).map P.slot).count j)).sum

/-- No counter can wrap during the sequence: at every moment of the run, starting with the
values `L` in the filter, the values currently in the filter put fewer than `2 ^ min W 64`
probe hits on each slot. -/
def no_wrap [DecidableEq α] (W : Nat) (P : Policy α) : List α → List (Op α) → Bool
  | L, [] => decide (∀ j, hits P j L < 2 ^ min W 64)
  | L, .insert v :: ops =>
    decide (∀ j, hits P j L < 2 ^ min W 64) && no_wrap W P (v :: L) ops
  | L, .remove v :: ops =>
    decide (∀ j, hits P j L < 2 ^ min W 64) && no_wrap W P (L.erase v) ops

/-- States reachable from the default-constructed filter by `insert`, `remove`, `reset`. -/
inductive Reachable (W : Nat) (P : Policy α) : State P → Prop where
  | empty : Reachable W P (empty P)
  | insert (s : State P) (v : α) : Reachable W P s → Reachable W P (insert W P s v)
  | remove (s : State P) (v : α) : Reachable W P s → Reachable W P (remove W P s v)
  | reset (s : State P) : Reachable W P s → Reachable W P (reset P s)

end counting_bloom_filter

/-! ## Example configurations used to instantiate the theorems -/

/-- A two-lane adapter on naturals over eight buckets: lanes `v` and `3 * v + 1`. -/
def demoPolicy : Policy Nat where
  hash := fun v => [v, 3 * v + 1]
  num_hashes := 2
  hash_arity := fun _ => rfl
  num_buckets := 8
  num_buckets_pos := by decide

/-- A one-lane adapter on naturals over four buckets: the lane is the value itself. -/
def onePolicy : Policy Nat where
  hash := fun v => [v]
  num_hashes := 1
  hash_arity := fun _ => rfl
  num_buckets := 4
  num_buckets_pos := by decide

/-- The policy of `test.cpp`: `make_bloom_filter<int, default_bloom_filter_hash<int>>
(expected<1000>, std::milli{})`, with the bucket count the probability-driven policy derives
for it (see `num_buckets_test`). -/
def testPolicy : Policy Int where
  hash := default_bloom_filter_hash
  num_hashes := 2
  hash_arity := fun _ => rfl
  num_buckets := 14377
  num_buckets_pos := by decide

/-! ## The default adapter for any scalar type -/

/-- Source: `default_bloom_filter_hash<T>::operator()` for any scalar `T`:
`murmur3_64bit(addressof(t), sizeof(T), 5342357u)`, where `repr t` lists the `size = sizeof(T)`
bytes of the object representation of `t`; `default_bloom_filter_hash` is the case of `int`. -/
def default_bloom_filter_hash_of (repr : α → List Nat) (size : Nat) (t : α) : List Nat :=
  murmur3_64bit (repr t) size 5342357

/-- The default adapter over any positive number of buckets `M`, as
`bloom_filter_minimal_policy<T, M, default_bloom_filter_hash<T>>` presents it. -/
def defaultPolicy (repr : α → List Nat) (size : Nat) (M : Nat) (hM : 0 < M) : Policy α where
  hash := default_bloom_filter_hash_of repr size
  num_hashes := 2
  hash_arity := fun _ => rfl
  num_buckets := M
  num_buckets_pos := hM

/-- A bit state over `demoPolicy`: only bit 1 is set. -/
def demoBits : counting_bloom_filter_0.State demoPolicy := fun j => decide (j.val = 1)

/-- A counter state over `demoPolicy`: slot 1 holds 3, every other slot 0. -/
def demoCounters : counting_bloom_filter.State demoPolicy := fun j => if j.val = 1 then 3 else 0

/-- A counter state over `demoPolicy`: slot 1 holds 1, every other slot 0. -/
def demoCountersLow : counting_bloom_filter.State demoPolicy :=
  fun j => if j.val = 1 then 1 else 0

/-! ## Inverse of `fmix64`, step by step -/

/-- The step `k ^= k >> 33` of `fmix64`. -/
def xorshift33 (k : Nat) : Nat := k ^^^ (k >>> 33)

/-- Undoes `fmix64` on 64-bit words: the xor-shifts are their own inverses, the two
multiplications are undone by multiplying with the inverses modulo `2 ^ 64` of the constants. -/
def fmix64_inv (k : Nat) : Nat :=
  let k := xorshift33 k
  let k := u64 (k * 0x9cb4b2f8129337db)
  let k := xorshift33 k
  let k := u64 (k * 0x4f74430c22a54005)
  let k := xorshift33 k
  k

/-! ## Double-precision arithmetic

The sizing policies and the cardinality estimate compute in `double`.  Every `double`
operation of the source is written out: `rnd` is applied after each `+ - * /` and after each
integer-to-`double` conversion, `std::log` and `std::pow` are `log` and `pow`.  The theorems
hold for every arithmetic obeying the laws `FloatOps.Standard`, which IEEE-754 binary64 in
round-to-nearest mode obeys with `u = 2 ^ (-53)` for the basic operations, and with
`u = 2 ^ (-52)` once `std::log` and `std::pow` are accurate to one unit in the last place. -/

/-- Smallest positive normal double, `2 ^ (-1022)`. -/
noncomputable def double_min : ℝ := (1 / 2) ^ 1022

/-- A power of two below the largest finite double, `2 ^ 1023`. -/
noncomputable def double_max : ℝ := 2 ^ 1023

/-- A double arithmetic: `rnd x` is the double that the exact result `x` of an operation
(or of a conversion from an integer) is rounded to, `log` and `pow` are `std::log` and
`std::pow` (only their values on doubles are ever used). -/
structure FloatOps where
  rnd : ℝ → ℝ
  log : ℝ → ℝ
  pow : ℝ → ℝ → ℝ

/-- Laws of IEEE-754 binary64 arithmetic in round-to-nearest mode with unit roundoff `u`:
relative error `u` in the normal range, integers up to `2 ^ 53` are exact, rounding is
monotone, the doubles next to `1` are `1 - 2 ^ (-53)` and `1` itself, `std::log` and
`std::pow` have relative error `u`, and `pow(x, 0) = 1`, `pow(0, y) = 0` for `y > 0`,
`pow(1, y) = 1` hold exactly. -/
structure FloatOps.Standard (F : FloatOps) (u : ℝ) : Prop where
  u_ge : (1 / 2) ^ 53 ≤ u
  rnd_err : ∀ x : ℝ, double_min ≤ |x| → |x| ≤ double_max → |F.rnd x - x| ≤ u * |x|
  rnd_int : ∀ n : ℤ, |n| ≤ 2 ^ 53 → F.rnd (n : ℝ) = (n : ℝ)
  rnd_mono : ∀ x y : ℝ, x ≤ y → F.rnd x ≤ F.rnd y
  rnd_near_one : ∀ x : ℝ, 1 - (1 / 2) ^ 54 < x → x ≤ 1 → F.rnd x = 1
  rnd_lt_one : ∀ x : ℝ, F.rnd x < 1 → F.rnd x ≤ 1 - (1 / 2) ^ 53
  log_err : ∀ x : ℝ, 0 < x → |F.log x - Real.log x| ≤ u * |Real.log x|
  pow_err : ∀ x y : ℝ, 0 < x → double_min ≤ x ^ y → x ^ y ≤ double_max →
    |F.pow x y - x ^ y| ≤ u * x ^ y
  pow_zero : ∀ x : ℝ, F.pow x 0 = 1
  zero_pow : ∀ y : ℝ, 0 < y → F.pow 0 y = 0
  one_pow : ∀ y : ℝ, F.pow 1 y = 1

/-- An arithmetic obeying the laws with `u = 2 ^ (-52)`: it rounds to nearest between the two
doubles next to `1`, and is exact elsewhere. -/
noncomputable def refOps : FloatOps where
  rnd := fun x =>
    if 1 - (1 / 2) ^ 54 < x ∧ x ≤ 1 then 1
    else if 1 - (1 / 2) ^ 53 < x ∧ x ≤ 1 - (1 / 2) ^ 54 then 1 - (1 / 2) ^ 53
    else x
  log := Real.log
  pow := fun x y => x ^ y

/-- The value `y` approximates `x` with relative error at most `a`. -/
def near (a x y : ℝ) : Prop := |y - x| ≤ a * |x|

/-- Source: `static_cast<std::size_t>(d)` for a double `d`: the fractional part is dropped;
the conversion is defined only if the truncated value fits in 64 bits. -/
noncomputable def to_size_t (d : ℝ) : Option Nat :=
  if -1 < d ∧ d < 2 ^ 64 then some ⌊d⌋₊ else none

namespace f64

namespace bloom_filter_false_positive_policy

/-- Source: `static_cast<double>(Num) / static_cast<double>(Denom)`. -/
noncomputable def false_positive_probability (F : FloatOps) (Num Denom : Int) : ℝ :=
  F.rnd (F.rnd (Num : ℝ) / F.rnd (Denom : ℝ))

/-- Source: `static_cast<std::size_t>(-((static_cast<double>(Expected) *
std::log(false_positive_probability())) / (std::pow(std::log(2), 2))))`. -/
noncomputable def num_buckets (F : FloatOps) (Expected : Nat) (Num Denom : Int) : Option Nat :=
  to_size_t (-(F.rnd (F.rnd (F.rnd (Expected : ℝ) *
    F.log (false_positive_probability F Num Denom)) / F.pow (F.log 2) 2)))

/-- The policy's `static_assert(false_positive_probability() > 0. &&
false_positive_probability() < 1., ...)`. -/
def accepted (F : FloatOps) (Num Denom : Int) : Prop :=
  false_positive_probability F Num Denom > 0 ∧ false_positive_probability F Num Denom < 1

end bloom_filter_false_positive_policy

namespace bloom_filter_size_policy

/-- Source: `double x = 1. - (1. / static_cast<double>(NumBuckets));
x = 1. - std::pow(x, (static_cast<double>(num_hashes()) * static_cast<double>(Expected)));
return std::pow(x, static_cast<double>(num_hashes()));` -/
noncomputable def false_positive_probability (F : FloatOps) (Expected NumBuckets K : Nat) : ℝ :=
  let x : ℝ := F.rnd (1 - F.rnd (1 / F.rnd (NumBuckets : ℝ)))
  let x : ℝ := F.rnd (1 - F.pow x (F.rnd (F.rnd (K : ℝ) * F.rnd (Expected : ℝ))))
  F.pow x (F.rnd (K : ℝ))

/-- The policy's `static_assert(false_positive_probability() > 0. &&
false_positive_probability() < 1., ...)`. -/
def accepted (F : FloatOps) (Expected NumBuckets K : Nat) : Prop :=
  false_positive_probability F Expected NumBuckets K > 0 ∧
    false_positive_probability F Expected NumBuckets K < 1

end bloom_filter_size_policy

end f64

/-- Cardinality estimate shared by both storages, in double arithmetic. Source:
`static_cast<std::size_t>(-((static_cast<double>(num_buckets()) /
static_cast<double>(num_hashes())) * (std::log(1. - (static_cast<double>(buckets_set) /
static_cast<double>(num_buckets()))))))`. -/
noncomputable def f64.approx_formula (F : FloatOps) (P : Policy α) (set : Nat) : Option Nat :=
  to_size_t (-(F.rnd (F.rnd (F.rnd (P.num_buckets : ℝ) / F.rnd (P.num_hashes : ℝ)) *
    F.log (F.rnd (1 - F.rnd (F.rnd (set : ℝ) / F.rnd (P.num_buckets : ℝ)))))))

/-- Source: `counting_bloom_filter<Policy, 0>::approx_inserted()` with
`bits_set = static_cast<double>(bits_.count())`. -/
noncomputable def f64.counting_bloom_filter_0.approx_inserted (F : FloatOps) (P : Policy α)
    (bits_ : counting_bloom_filter_0.State P) : Option Nat :=
  f64.approx_formula F P (counting_bloom_filter_0.count P bits_)

/-- Source: `counting_bloom_filter::approx_inserted()` with `buckets_set` the number of
slots whose counter is `> 0`. -/
noncomputable def f64.counting_bloom_filter.approx_inserted (F : FloatOps) (P : Policy α)
    (buckets_ : counting_bloom_filter.State P) : Option Nat :=
  f64.approx_formula F P (counting_bloom_filter.buckets_set P buckets_)

/-! ## The documented formulas as real numbers -/

/-- The real number the documented sizing formula denotes,
`-N ln(p) / (ln 2)^2` (before any ceiling or truncation). -/
noncomputable def spec_bucket_count (N : Nat) (p : ℝ) : ℝ :=
  -((N : ℝ) * Real.log p) / (Real.log 2) ^ 2

/-- The rounding error allowed for in the bucket count: `u (14 x + 28 N)` for the exact value
`x = spec_bucket_count N p`. -/
noncomputable def bucket_count_error (u : ℝ) (N : Nat) (p : ℝ) : ℝ :=
  u * (14 * spec_bucket_count N p + 28 * (N : ℝ))

/-- The real number the documented estimate formula denotes,
`-(M/K) ln(1 - s/M)` (before truncation). -/
noncomputable def spec_estimate (M K s : Nat) : ℝ :=
  -(((M : ℝ) / (K : ℝ)) * Real.log (1 - (s : ℝ) / (M : ℝ)))

/-- The rounding error allowed for in the cardinality estimate:
`u (5 x + 3 (M/K) (M/(M - s)))` for the exact value `x = spec_estimate M K s`. -/
noncomputable def estimate_error (u : ℝ) (M K s : Nat) : ℝ :=
  u * (5 * spec_estimate M K s + 3 * ((M : ℝ) / (K : ℝ)) * ((M : ℝ) / ((M : ℝ) - (s : ℝ))))

/-! ## A very large, sparsely filled filter -/

/-- A one-lane adapter on naturals over `2 ^ 55` buckets: the lane is the value itself. -/
def sparsePolicy : Policy Nat where
  hash := fun v => [v]
  num_hashes := 1
  hash_arity := fun _ => rfl
  num_buckets := 2 ^ 55
  num_buckets_pos := Nat.two_pow_pos 55

/-- The bit state over `sparsePolicy` after `insert(0)` on the empty filter. -/
def sparseBits : counting_bloom_filter_0.State sparsePolicy :=
  counting_bloom_filter_0.insert sparsePolicy (counting_bloom_filter_0.empty sparsePolicy) 0

/-! ## Lemmas: bit storage -/

section BitLemmas

open counting_bloom_filter_0

theorem bit_foldl_set_apply (P : Policy α) (l : List Nat) (b : State P)
    (j : Fin P.num_buckets) :
    l.foldl (fun b idx => Function.update b (P.slot idx) true) b j = true ↔
      b j = true ∨ ∃ idx ∈ l, P.slot idx = j := by
  induction l generalizing b with
  | nil => simp
  | cons i l ih =>
    rw [List.foldl_cons, ih]
    by_cases h : j = P.slot i
    · subst h
      simp
    · have h2 : ¬ P.slot i = j := fun e => h e.symm
      simp [Function.update_noteq h, h2]

theorem bit_insert_apply (P : Policy α) (b : State P) (t : α) (j : Fin P.num_buckets) :
    insert P b t j = true ↔ b j = true ∨ ∃ idx ∈ P.hash t, P.slot idx = j :=
  bit_foldl_set_apply P (P.hash t) b j

theorem bit_insert_all_apply (P : Policy α) (vs : List α) (b : State P)
    (j : Fin P.num_buckets) :
    insert_all P b vs j = true ↔
      b j = true ∨ ∃ v ∈ vs, ∃ idx ∈ P.hash v, P.slot idx = j := by
  induction vs generalizing b with
  | nil => simp [insert_all]
  | cons v vs ih =>
    have : insert_all P b (v :: vs) = insert_all P (insert P b v) vs := rfl
    rw [this, ih, bit_insert_apply]
    constructor
    · rintro ((h | ⟨idx, hi, he⟩) | ⟨w, hw, idx, hi, he⟩)
      · exact Or.inl h
      · exact Or.inr ⟨v, List.mem_cons_self _ _, idx, hi, he⟩
      · exact Or.inr ⟨w, List.mem_cons_of_mem _ hw, idx, hi, he⟩
    · rintro (h | ⟨w, hw, idx, hi, he⟩)
      · exact Or.inl (Or.inl h)
      · rcases List.mem_cons.mp hw with rfl | hw
        · exact Or.inl (Or.inr ⟨idx, hi, he⟩)
        · exact Or.inr ⟨w, hw, idx, hi, he⟩

theorem bit_contains_iff (P : Policy α) (b : State P) (t : α) :
    contains P b t = true ↔ ∀ idx ∈ P.hash t, b (P.slot idx) = true := by
  simp [contains, List.all_eq_true]

end BitLemmas

/-! ## Lemmas: counter storage -/

section CounterLemmas

open counting_bloom_filter

/-- The modulus a counter of width `W` effectively lives in: `2 ^ min W 64`. -/
theorem wrap_eq (W n : Nat) : bitset_of W (u64 n) = n % 2 ^ min W 64 := by
  unfold bitset_of u64
  rcases Nat.le_total W 64 with h | h
  · rw [Nat.min_eq_left h]
    exact Nat.mod_mod_of_dvd n (Nat.pow_dvd_pow 2 h)
  · rw [Nat.min_eq_right h]
    have h1 : n % 2 ^ 64 < 2 ^ 64 := Nat.mod_lt _ (by positivity)
    have h2 : 2 ^ 64 ≤ 2 ^ W := Nat.pow_le_pow_right (by decide) h
    exact Nat.mod_eq_of_lt (lt_of_lt_of_le h1 h2)

theorem modulus_dvd (W : Nat) : 2 ^ min W 64 ∣ 2 ^ 64 :=
  Nat.pow_dvd_pow 2 (Nat.min_le_right W 64)

theorem modulus_pos (W : Nat) : 0 < 2 ^ min W 64 := by positivity

/-- Folding a slot update `f` over raw indices applies `f` to slot `j` once per index that
reduces to `j`. -/
theorem foldl_update_apply (P : Policy α) (f : Nat → Nat) (l : List Nat) (s : State P)
    (j : Fin P.num_buckets) :
    l.foldl (fun b i => Function.update b (P.slot i) (f (b (P.slot i)))) s j =
      f^[(l.map P.slot).count j] (s j) := by
  induction l generalizing s with
  | nil => simp
  | cons i l ih =>
    rw [List.foldl_cons, ih, List.map_cons]
    by_cases h : P.slot i = j
    · subst h
      rw [List.count_cons_self, Function.iterate_succ_apply, Function.update_same]
    · rw [List.count_cons_of_ne (fun e => h e.symm),
        Function.update_noteq (fun e => h e.symm)]

theorem iterate_inc (m : Nat) (c v : Nat) :
    (fun x => (x + 1) % m)^[c] (v % m) = (v + c) % m := by
  induction c generalizing v with
  | zero => simp
  | succ c ih =>
    rw [Function.iterate_succ_apply]
    have : (v % m + 1) % m = (v + 1) % m := by simp [Nat.add_mod]
    rw [this, ih]
    congr 1
    omega

theorem iterate_dec (m d : Nat) (c v : Nat) :
    (fun x => (x + d) % m)^[c] (v % m) = (v + c * d) % m := by
  induction c generalizing v with
  | zero => simp
  | succ c ih =>
    rw [Function.iterate_succ_apply]
    have : (v % m + d) % m = (v + d) % m := by simp [Nat.add_mod]
    rw [this, ih]
    congr 1
    ring

/-- On a slot below the modulus, `insert` adds the number of probe indices of `x` that reduce
to it, modulo `2 ^ min W 64`. -/
theorem cnt_insert_apply (W : Nat) (P : Policy α) (s : State P) (x : α)
    (j : Fin P.num_buckets) (hs : s j < 2 ^ min W 64) :
    insert W P s x j = (s j + ((P.hash x).map P.slot).count j) % 2 ^ min W 64 := by
  have h := foldl_update_apply P (fun v => (v + 1) % 2 ^ min W 64) (P.hash x) s j
  have e : (fun (b : State P) i => Function.update b (P.slot i)
      ((fun v => (v + 1) % 2 ^ min W 64) (b (P.slot i)))) = increment_bucket W P := by
    funext b i
    simp only [increment_bucket, wrap_eq]
  rw [e] at h
  unfold counting_bloom_filter.insert
  rw [h]
  have := iterate_inc (2 ^ min W 64) (((P.hash x).map P.slot).count j) (s j)
  rwa [Nat.mod_eq_of_lt hs] at this

theorem cnt_remove_apply (W : Nat) (P : Policy α) (s : State P) (x : α)
    (j : Fin P.num_buckets) (hs : s j < 2 ^ min W 64) :
    remove W P s x j =
      (s j + ((P.hash x).map P.slot).count j * (2 ^ 64 - 1)) % 2 ^ min W 64 := by
  have h := foldl_update_apply P (fun v => (v + (2 ^ 64 - 1)) % 2 ^ min W 64) (P.hash x) s j
  have e : (fun (b : State P) i => Function.update b (P.slot i)
      ((fun v => (v + (2 ^ 64 - 1)) % 2 ^ min W 64) (b (P.slot i)))) =
        decrement_bucket W P := by
    funext b i
    simp only [decrement_bucket, wrap_eq]
  rw [e] at h
  unfold counting_bloom_filter.remove
  rw [h]
  have := iterate_dec (2 ^ min W 64) (2 ^ 64 - 1) (((P.hash x).map P.slot).count j) (s j)
  rwa [Nat.mod_eq_of_lt hs] at this

/-- Removing `c` hits from a counter holding at least `c` subtracts exactly `c`. -/
theorem sub_of_wrap (m c v : Nat) (hm : m ∣ 2 ^ 64) (hc : c ≤ v) (hv : v < m) :
    (v + c * (2 ^ 64 - 1)) % m = v - c := by
  obtain ⟨q, hq⟩ := hm
  have h1 : v + c * (2 ^ 64 - 1) = (v - c) + m * (c * q) := by
    have : c * (2 ^ 64 - 1) + c = c * 2 ^ 64 := by
      rw [← Nat.mul_succ]
      congr 1
    have h2 : m * (c * q) = c * 2 ^ 64 := by rw [hq]; ring
    omega
  rw [h1, Nat.add_mul_mod_self_left]
  exact Nat.mod_eq_of_lt (by omega)

end CounterLemmas

/-! ## Lemmas: counters track the live values while nothing wraps -/

section LiveLemmas

open counting_bloom_filter

theorem hits_cons (P : Policy α) (j : Fin P.num_buckets) (x : α) (L : List α) :
    hits P j (x :: L) = ((P.hash x).map P.slot).count j + hits P j L := by
  simp [hits]

theorem hits_erase [DecidableEq α] (P : Policy α) (j : Fin P.num_buckets) (x : α)
    (L : List α) (hx : x ∈ L) :
    hits P j L = ((P.hash x).map P.slot).count j + hits P j (L.erase x) := by
  rw [← hits_cons]
  unfold hits
  exact ((List.perm_cons_erase hx).map _).sum_eq

theorem no_wrap_head [DecidableEq α] (W : Nat) (P : Policy α) (L : List α)
    (ops : List (Op α)) (h : no_wrap W P L ops = true) :
    ∀ j, hits P j L < 2 ^ min W 64 := by
  cases ops with
  | nil => simpa [no_wrap] using h
  | cons op ops =>
    cases op with
    | insert v =>
      have h2 : (∀ j, hits P j L < 2 ^ min W 64) ∧ no_wrap W P (v :: L) ops = true := by
        simpa [no_wrap] using h
      exact h2.1
    | remove v =>
      have h2 : (∀ j, hits P j L < 2 ^ min W 64) ∧ no_wrap W P (L.erase v) ops = true := by
        simpa [no_wrap] using h
      exact h2.1

/-- While every remove is paired and no counter wraps, each slot holds exactly the number of
probe hits of the values currently in the filter. -/
theorem run_tracks_live [DecidableEq α] (W : Nat) (P : Policy α) (ops : List (Op α)) :
    ∀ (s : State P) (L : List α), (∀ j, s j = hits P j L) → paired L ops = true →
      no_wrap W P L ops = true →
      ∀ j, run W P s ops j = hits P j (live L ops) := by
  induction ops with
  | nil => intro s L hs _ _ j; exact hs j
  | cons op ops ih =>
    intro s L hs hp hb j
    have hlt : ∀ i, s i < 2 ^ min W 64 := by
      intro i
      rw [hs i]
      exact no_wrap_head W P L _ hb i
    cases op with
    | insert v =>
      have hrun : run W P s (Op.insert v :: ops) = run W P (insert W P s v) ops := rfl
      have hlive : live L (Op.insert v :: ops) = live (v :: L) ops := rfl
      have hb2 : (∀ j, hits P j L < 2 ^ min W 64) ∧ no_wrap W P (v :: L) ops = true := by
        simpa [no_wrap] using hb
      rw [hrun, hlive]
      refine ih (insert W P s v) (v :: L) ?_ hp hb2.2 j
      intro i
      rw [cnt_insert_apply W P s v i (hlt i), hs i, hits_cons, Nat.add_comm]
      apply Nat.mod_eq_of_lt
      have h1 := no_wrap_head W P (v :: L) ops hb2.2 i
      rwa [hits_cons] at h1
    | remove v =>
      have hrun : run W P s (Op.remove v :: ops) = run W P (remove W P s v) ops := rfl
      have hlive : live L (Op.remove v :: ops) = live (L.erase v) ops := rfl
      have hp2 : v ∈ L ∧ paired (L.erase v) ops = true := by
        simpa [paired] using hp
      have hb2 : (∀ j, hits P j L < 2 ^ min W 64) ∧ no_wrap W P (L.erase v) ops = true := by
        simpa [no_wrap] using hb
      rw [hrun, hlive]
      refine ih (remove W P s v) (L.erase v) ?_ hp2.2 hb2.2 j
      intro i
      have he := hits_erase P i v L hp2.1
      rw [cnt_remove_apply W P s v i (hlt i),
        sub_of_wrap _ _ _ (modulus_dvd W) (by rw [hs i, he]; omega) (hlt i), hs i, he]
      omega

/-- With paired removes, the live multiplicity of `v` is inserts minus removes. -/
theorem live_count [DecidableEq α] (ops : List (Op α)) (v : α) :
    ∀ L : List α, paired L ops = true →
      (live L ops).count v + ops.count (Op.remove v) = L.count v + ops.count (Op.insert v) := by
  induction ops with
  | nil => intro L _; simp [live]
  | cons op ops ih =>
    intro L hp
    cases op with
    | insert w =>
      have hlive : live L (Op.insert w :: ops) = live (w :: L) ops := rfl
      have h := ih (w :: L) hp
      rw [hlive]
      by_cases hw : w = v
      · subst hw
        rw [List.count_cons_self] at h
        rw [List.count_cons_self, List.count_cons_of_ne (by simp)]
        omega
      · have hvw : v ≠ w := fun e => hw e.symm
        rw [List.count_cons_of_ne hvw] at h
        rw [List.count_cons_of_ne (by simp), List.count_cons_of_ne (by simpa using hvw)]
        exact h
    | remove w =>
      have hlive : live L (Op.remove w :: ops) = live (L.erase w) ops := rfl
      have hp2 : w ∈ L ∧ paired (L.erase w) ops = true := by
        simpa [paired] using hp
      have h := ih (L.erase w) hp2.2
      rw [hlive]
      by_cases hw : w = v
      · subst hw
        rw [List.count_erase_self] at h
        have hpos : 0 < L.count w := List.count_pos_iff.mpr hp2.1
        rw [List.count_cons_self, List.count_cons_of_ne (by simp)]
        omega
      · have hvw : v ≠ w := fun e => hw e.symm
        rw [List.count_erase_of_ne hvw] at h
        rw [List.count_cons_of_ne (by simpa using hvw), List.count_cons_of_ne (by simp)]
        exact h

theorem cnt_contains_iff (P : Policy α) (s : State P) (t : α) :
    contains P s t = true ↔ ∀ idx ∈ P.hash t, 0 < s (P.slot idx) := by
  simp [contains, List.all_eq_true]

theorem hits_pos_of_mem (P : Policy α) (L : List α) (v : α) (hv : v ∈ L) (idx : Nat)
    (hidx : idx ∈ P.hash v) : 0 < hits P (P.slot idx) L := by
  induction L with
  | nil => cases hv
  | cons x L ih =>
    rw [hits_cons]
    rcases List.mem_cons.mp hv with rfl | h
    · have : 0 < ((P.hash v).map P.slot).count (P.slot idx) :=
        List.count_pos_iff.mpr (List.mem_map_of_mem _ hidx)
      omega
    · have := ih h
      omega

end LiveLemmas

/-! ## Lemmas: sequences of inserts -/

section InsertAllLemmas

open counting_bloom_filter

theorem hits_eq_count_probes (P : Policy α) (j : Fin P.num_buckets) (L : List α) :
    hits P j L = (probes P L).count j := by
  induction L with
  | nil => simp [hits, probes]
  | cons x L ih => rw [hits_cons, probes, List.count_append, ih]

theorem mem_probes (P : Policy α) (j : Fin P.num_buckets) (L : List α) :
    j ∈ probes P L ↔ ∃ v ∈ L, ∃ idx ∈ P.hash v, P.slot idx = j := by
  induction L with
  | nil => simp [probes]
  | cons x L ih =>
    rw [probes, List.mem_append, ih]
    simp [List.mem_map]

/-- From a state below the modulus, a run of inserts adds the hits modulo `2 ^ min W 64`. -/
theorem cnt_insert_all_apply (W : Nat) (P : Policy α) (vs : List α) :
    ∀ (s : State P) (j : Fin P.num_buckets), s j < 2 ^ min W 64 →
      counting_bloom_filter.insert_all W P s vs j = (s j + hits P j vs) % 2 ^ min W 64 := by
  induction vs with
  | nil =>
    intro s j hs
    simp [counting_bloom_filter.insert_all, hits, Nat.mod_eq_of_lt hs]
  | cons v vs ih =>
    intro s j hs
    have hrun : counting_bloom_filter.insert_all W P s (v :: vs) =
        counting_bloom_filter.insert_all W P (counting_bloom_filter.insert W P s v) vs := rfl
    have hlt : counting_bloom_filter.insert W P s v j < 2 ^ min W 64 := by
      rw [cnt_insert_apply W P s v j hs]
      exact Nat.mod_lt _ (modulus_pos W)
    rw [hrun, ih _ j hlt, cnt_insert_apply W P s v j hs, hits_cons, Nat.add_mod,
      Nat.mod_mod, ← Nat.add_mod, Nat.add_assoc]

end InsertAllLemmas

/-! ## Lemmas: the probability-driven bucket count -/

section SizingLemmas

open detail.bloom_filter_false_positive_policy

theorem log_128_125_bounds :
    (0.02355 : ℝ) < Real.log (128 / 125) ∧ Real.log (128 / 125) < 0.02387 := by
  constructor
  · have hy : (0 : ℝ) < 1.01192 := by norm_num
    have h1 : Real.log ((1.01192 : ℝ) ^ 2) ≤ Real.log (128 / 125) :=
      Real.log_le_log (by positivity) (by norm_num)
    rw [Real.log_pow] at h1
    have h2 := Real.one_sub_inv_le_log_of_pos hy
    norm_num at h1 h2 ⊢
    linarith
  · have hy : (0 : ℝ) < 1.01193 := by norm_num
    have h1 : Real.log (128 / 125) ≤ Real.log ((1.01193 : ℝ) ^ 2) :=
      Real.log_le_log (by positivity) (by norm_num)
    rw [Real.log_pow] at h1
    have h2 := Real.log_le_sub_one_of_pos hy
    norm_num at h1 h2 ⊢
    linarith

theorem log_one_thousandth :
    Real.log (1 / 1000) = Real.log (128 / 125) - 10 * Real.log 2 := by
  have h : (1 / 1000 : ℝ) = (128 / 125) / 2 ^ 10 := by norm_num
  rw [h, Real.log_div (by norm_num) (by positivity), Real.log_pow]
  norm_num

end SizingLemmas

/-! ## Lemmas: reachable counter states stay inside the counter range -/

section RangeLemmas

open counting_bloom_filter

theorem reachable_lt_modulus (W : Nat) (P : Policy α) (s : State P)
    (hs : Reachable W P s) : ∀ j, s j < 2 ^ min W 64 := by
  induction hs with
  | empty => intro j; simp [counting_bloom_filter.empty]
  | insert s v _ ih =>
    intro j
    rw [cnt_insert_apply W P s v j (ih j)]
    exact Nat.mod_lt _ (modulus_pos W)
  | remove s v _ ih =>
    intro j
    rw [cnt_remove_apply W P s v j (ih j)]
    exact Nat.mod_lt _ (modulus_pos W)
  | reset s _ _ => intro j; simp [counting_bloom_filter.reset]

end RangeLemmas

/-! ## Lemmas: double arithmetic -/

section ReferenceArithmetic

theorem double_min_pos : 0 < double_min := by unfold double_min; positivity

theorem double_min_le (k : Nat) (hk : k ≤ 1022) : double_min ≤ (1 / 2) ^ k := by
  unfold double_min
  exact pow_le_pow_of_le_one (by norm_num) (by norm_num) hk

theorem le_double_max (k : Nat) (hk : k ≤ 1023) : (2 : ℝ) ^ k ≤ double_max := by
  unfold double_max
  exact pow_le_pow_right₀ (by norm_num) hk

theorem refOps_rnd_cases (x : ℝ) :
    (1 - (1 / 2) ^ 54 < x ∧ x ≤ 1 ∧ refOps.rnd x = 1) ∨
    (1 - (1 / 2) ^ 53 < x ∧ x ≤ 1 - (1 / 2) ^ 54 ∧ refOps.rnd x = 1 - (1 / 2) ^ 53) ∨
    ((x ≤ 1 - (1 / 2) ^ 53 ∨ 1 < x) ∧ refOps.rnd x = x) := by
  simp only [refOps]
  by_cases h1 : 1 - (1 / 2) ^ 54 < x ∧ x ≤ 1
  · left
    rw [if_pos h1]
    exact ⟨h1.1, h1.2, rfl⟩
  · rw [if_neg h1]
    by_cases h2 : 1 - (1 / 2) ^ 53 < x ∧ x ≤ 1 - (1 / 2) ^ 54
    · right; left
      rw [if_pos h2]
      exact ⟨h2.1, h2.2, rfl⟩
    · right; right
      rw [if_neg h2]
      refine ⟨?_, rfl⟩
      by_contra hc
      push_neg at hc
      by_cases h54 : x ≤ 1 - (1 / 2) ^ 54
      · exact h2 ⟨hc.1, h54⟩
      · push_neg at h54
        exact h1 ⟨h54, hc.2⟩

theorem refOps_standard : refOps.Standard ((1 / 2) ^ 52) where
  u_ge := pow_le_pow_of_le_one (by norm_num) (by norm_num) (by norm_num)
  rnd_err := by
    intro x _ _
    have e54 : ((1 : ℝ) / 2) ^ 54 = (1 / 2) ^ 52 * (1 / 4) := by norm_num
    have e53 : ((1 : ℝ) / 2) ^ 53 = (1 / 2) ^ 52 * (1 / 2) := by norm_num
    have p52 : (0 : ℝ) < (1 / 2) ^ 52 := by positivity
    have l52 : ((1 : ℝ) / 2) ^ 52 ≤ 1 / 4 := by
      have : ((1 : ℝ) / 2) ^ 52 ≤ (1 / 2) ^ 2 :=
        pow_le_pow_of_le_one (by norm_num) (by norm_num) (by norm_num)
      have h4 : ((1 : ℝ) / 2) ^ 2 = 1 / 4 := by norm_num
      rw [h4] at this
      exact this
    rcases refOps_rnd_cases x with ⟨h1, h2, h⟩ | ⟨h1, h2, h⟩ | ⟨_, h⟩
    · rw [h]
      rw [e54] at h1
      generalize ((1 : ℝ) / 2) ^ 52 = v at h1 p52 l52 ⊢
      have hx78 : 7 / 8 ≤ x := by linarith only [h1, l52]
      have hx : |x| = x := abs_of_pos (by linarith only [hx78])
      have hv : v * (7 / 8) ≤ v * x := mul_le_mul_of_nonneg_left hx78 p52.le
      rw [hx, abs_of_nonneg (by linarith only [h2])]
      linarith only [h1, hv, p52]
    · rw [h]
      rw [e53] at h1 ⊢
      rw [e54] at h2
      generalize ((1 : ℝ) / 2) ^ 52 = v at h1 h2 p52 l52 ⊢
      have hx78 : 7 / 8 ≤ x := by linarith only [h1, l52]
      have hx : |x| = x := abs_of_pos (by linarith only [hx78])
      have hv : v * (7 / 8) ≤ v * x := mul_le_mul_of_nonneg_left hx78 p52.le
      rw [hx, abs_of_nonpos (by linarith only [h1])]
      linarith only [h2, hv, p52]
    · rw [h, sub_self, abs_zero]
      exact mul_nonneg p52.le (abs_nonneg x)
  rnd_int := by
    intro n _
    have p54 : (0 : ℝ) < (1 / 2) ^ 54 := by positivity
    have l53 : ((1 : ℝ) / 2) ^ 53 ≤ 1 / 2 := by
      have : ((1 : ℝ) / 2) ^ 53 ≤ (1 / 2) ^ 1 :=
        pow_le_pow_of_le_one (by norm_num) (by norm_num) (by norm_num)
      rw [pow_one] at this
      exact this
    rcases refOps_rnd_cases (n : ℝ) with ⟨h1, h2, h⟩ | ⟨h1, h2, h⟩ | ⟨_, h⟩
    · rw [h]
      have l54 : ((1 : ℝ) / 2) ^ 54 ≤ (1 / 2) ^ 53 :=
        pow_le_pow_of_le_one (by norm_num) (by norm_num) (by norm_num)
      have h0 : (0 : ℝ) < n := by linarith only [h1, l54, l53]
      have h0' : (0 : ℤ) < n := by exact_mod_cast h0
      have h1' : n ≤ 1 := by exact_mod_cast h2
      have : n = 1 := by omega
      rw [this]; norm_num
    · exfalso
      have h0 : (0 : ℝ) < n := by linarith only [h1, l53]
      have h0' : (0 : ℤ) < n := by exact_mod_cast h0
      have hlt : (n : ℝ) < 1 := by linarith only [h2, p54]
      have h1' : n < 1 := by exact_mod_cast hlt
      omega
    · exact h
  rnd_mono := by
    intro x y hxy
    have p54 : (0 : ℝ) < (1 / 2) ^ 54 := by positivity
    have l54 : ((1 : ℝ) / 2) ^ 54 < (1 / 2) ^ 53 :=
      pow_lt_pow_right_of_lt_one₀ (by norm_num) (by norm_num) (by norm_num)
    rcases refOps_rnd_cases x with ⟨a1, a2, a⟩ | ⟨a1, a2, a⟩ | ⟨a1, a⟩
    · rcases refOps_rnd_cases y with ⟨b1, b2, b⟩ | ⟨b1, b2, b⟩ | ⟨b1, b⟩
      · rw [a, b]
      · linarith only [hxy, a1, b2]
      · rw [a, b]
        rcases b1 with b1 | b1
        · linarith only [hxy, a1, b1, l54]
        · exact b1.le
    · rcases refOps_rnd_cases y with ⟨b1, b2, b⟩ | ⟨b1, b2, b⟩ | ⟨b1, b⟩
      · rw [a, b]
        linarith only [p54, l54]
      · rw [a, b]
      · rw [a, b]
        rcases b1 with b1 | b1
        · linarith only [hxy, a1, b1]
        · linarith only [b1, p54, l54]
    · rcases refOps_rnd_cases y with ⟨b1, b2, b⟩ | ⟨b1, b2, b⟩ | ⟨b1, b⟩
      · rw [a, b]
        exact le_trans hxy b2
      · rw [a, b]
        rcases a1 with a1 | a1
        · exact a1
        · linarith only [hxy, a1, b2, p54]
      · rw [a, b]
        exact hxy
  rnd_near_one := by
    intro x h1 h2
    simp only [refOps]
    rw [if_pos ⟨h1, h2⟩]
  rnd_lt_one := by
    intro x hlt
    have p54 : (0 : ℝ) < (1 / 2) ^ 54 := by positivity
    rcases refOps_rnd_cases x with ⟨_, _, h⟩ | ⟨_, _, h⟩ | ⟨h1, h⟩
    · rw [h] at hlt; exact absurd hlt (lt_irrefl _)
    · rw [h]
    · rw [h] at hlt ⊢
      rcases h1 with h1 | h1
      · exact h1
      · linarith only [h1, hlt]
  log_err := by
    intro x _
    simp only [refOps, sub_self, abs_zero]
    positivity
  pow_err := by
    intro x y hx _ _
    simp only [refOps, sub_self, abs_zero]
    have := Real.rpow_pos_of_pos hx y
    positivity
  pow_zero := by intro x; simp [refOps]
  zero_pow := by
    intro y hy
    simp only [refOps]
    exact Real.zero_rpow hy.ne'
  one_pow := by intro y; simp [refOps]

theorem near_mono {a b x y : ℝ} (h : near a x y) (hab : a ≤ b) : near b x y := by
  unfold near at h ⊢
  exact le_trans h (mul_le_mul_of_nonneg_right hab (abs_nonneg x))

theorem near_abs_le {a x y : ℝ} (h : near a x y) : |y| ≤ (1 + a) * |x| := by
  unfold near at h
  have h1 : |y| ≤ |y - x| + |x| := by
    have := abs_add (y - x) x
    simpa using this
  linarith only [h, h1]

theorem near_abs_ge {a x y : ℝ} (h : near a x y) : (1 - a) * |x| ≤ |y| := by
  unfold near at h
  have h1 : |x| ≤ |y - x| + |y| := by
    have := abs_add (x - y) y
    rw [abs_sub_comm] at this
    simpa using this
  linarith only [h, h1]

theorem near_pos {a x y : ℝ} (h : near a x y) (hx : 0 < x) :
    (1 - a) * x ≤ y ∧ y ≤ (1 + a) * x := by
  unfold near at h
  rw [abs_of_pos hx] at h
  have := abs_le.mp h
  constructor <;> linarith only [this.1, this.2]

theorem near_neg {a x y : ℝ} (h : near a x y) (hx : x < 0) :
    (1 + a) * x ≤ y ∧ y ≤ (1 - a) * x := by
  unfold near at h
  rw [abs_of_neg hx] at h
  have := abs_le.mp h
  constructor <;> linarith only [this.1, this.2]

theorem near_mul {a b x y p q : ℝ} (hx : near a x p) (hy : near b y q) :
    near (a + b + a * b) (x * y) (p * q) := by
  have ha : 0 ≤ |p - x| := abs_nonneg _
  have hb : 0 ≤ |q - y| := abs_nonneg _
  unfold near at hx hy ⊢
  have e : p * q - x * y = (p - x) * y + x * (q - y) + (p - x) * (q - y) := by ring
  rw [e, abs_mul x y]
  have h1 : |(p - x) * y + x * (q - y) + (p - x) * (q - y)| ≤
      |p - x| * |y| + |x| * |q - y| + |p - x| * |q - y| := by
    calc _ ≤ |(p - x) * y + x * (q - y)| + |(p - x) * (q - y)| := abs_add _ _
      _ ≤ |(p - x) * y| + |x * (q - y)| + |(p - x) * (q - y)| := by
          linarith only [abs_add ((p - x) * y) (x * (q - y))]
      _ = _ := by rw [abs_mul, abs_mul, abs_mul]
  have hxn := abs_nonneg x
  have hyn := abs_nonneg y
  have p1 : |p - x| * |y| ≤ a * |x| * |y| := mul_le_mul_of_nonneg_right hx hyn
  have p2 : |x| * |q - y| ≤ |x| * (b * |y|) := mul_le_mul_of_nonneg_left hy hxn
  have p3 : |p - x| * |q - y| ≤ (a * |x|) * (b * |y|) :=
    mul_le_mul hx hy hb (le_trans ha hx)
  linarith only [h1, p1, p2, p3]

theorem near_trans {a b x y z : ℝ} (hxy : near a x y) (hyz : near b y z) (hb : 0 ≤ b) :
    near (a + b + a * b) x z := by
  have hy := near_abs_le hxy
  unfold near at hxy hyz ⊢
  have h1 : |z - x| ≤ |z - y| + |y - x| := by
    have := abs_add (z - y) (y - x)
    simpa using this
  have h2 : b * |y| ≤ b * ((1 + a) * |x|) := mul_le_mul_of_nonneg_left hy hb
  linarith only [h1, hyz, h2, hxy]

theorem near_inv {b y q : ℝ} (hy : near b y q) (hb : b < 1) (hy0 : y ≠ 0) :
    near (b / (1 - b)) (1 / y) (1 / q) := by
  have hge := near_abs_ge hy
  have hypos : 0 < |y| := abs_pos.mpr hy0
  have h1b : 0 < 1 - b := by linarith only [hb]
  have hqpos : 0 < |q| := lt_of_lt_of_le (mul_pos h1b hypos) hge
  have hq0 : q ≠ 0 := abs_pos.mp hqpos
  unfold near at hy ⊢
  have e : 1 / q - 1 / y = (y - q) / (y * q) := by
    rw [div_sub_div _ _ hq0 hy0]
    congr 1 <;> ring
  rw [e, abs_div, abs_mul, abs_sub_comm, abs_div, abs_one, div_le_iff₀ (mul_pos hypos hqpos)]
  have : b / (1 - b) * (1 / |y|) * (|y| * |q|) = b / (1 - b) * |q| := by
    field_simp
    ring
  rw [this, div_mul_eq_mul_div, le_div_iff₀ h1b]
  have hbn : 0 ≤ b := by
    by_contra hneg
    push_neg at hneg
    have : b * |y| < 0 := mul_neg_of_neg_of_pos hneg hypos
    linarith only [abs_nonneg (q - y), this, hy]
  have k1 : |q - y| * (1 - b) ≤ b * |y| * (1 - b) := mul_le_mul_of_nonneg_right hy h1b.le
  have k2 : b * ((1 - b) * |y|) ≤ b * |q| := mul_le_mul_of_nonneg_left hge hbn
  linarith only [k1, k2]

theorem near_div {a b x y p q : ℝ} (hx : near a x p) (hy : near b y q) (hb : b < 1)
    (hy0 : y ≠ 0) :
    near (a + b / (1 - b) + a * (b / (1 - b))) (x / y) (p / q) := by
  have h := near_mul hx (near_inv hy hb hy0)
  have e1 : x / y = x * (1 / y) := by ring
  have e2 : p / q = p * (1 / q) := by ring
  rw [e1, e2]
  exact h

/-- A relative perturbation `c <= 1/2` of a positive argument moves the logarithm by at most
`2 c`. -/
theorem log_near {c p q : ℝ} (h : near c p q) (hp : 0 < p) (hc0 : 0 ≤ c) (hc : c ≤ 1 / 2) :
    0 < q ∧ |Real.log q - Real.log p| ≤ 2 * c := by
  obtain ⟨h1, h2⟩ := near_pos h hp
  have hq : 0 < q := lt_of_lt_of_le (mul_pos (by linarith only [hc]) hp) h1
  refine ⟨hq, ?_⟩
  have hr : 0 < q / p := div_pos hq hp
  rw [← Real.log_div hq.ne' hp.ne', abs_le]
  have hlo : 1 - c ≤ q / p := by rw [le_div_iff₀ hp]; exact h1
  have hhi : q / p ≤ 1 + c := by rw [div_le_iff₀ hp]; exact h2
  constructor
  · have := Real.one_sub_inv_le_log_of_pos hr
    have hinv : (q / p)⁻¹ ≤ (1 - c)⁻¹ := inv_anti₀ (by linarith only [hc]) hlo
    have h3 : (1 - c)⁻¹ ≤ 1 + 2 * c := by
      rw [inv_le_iff_one_le_mul₀ (by linarith only [hc])]
      have := mul_nonneg hc0 (show 0 ≤ 1 - 2 * c by linarith only [hc])
      linarith only [this]
    linarith only [this, hinv, h3]
  · have := Real.log_le_sub_one_of_pos hr
    linarith only [this, hhi, hc0]

end ReferenceArithmetic

section FloatLemmas

variable {F : FloatOps} {u : ℝ}

theorem std_u_pos (hF : F.Standard u) : 0 < u :=
  lt_of_lt_of_le (by positivity) hF.u_ge

theorem rnd_zero (hF : F.Standard u) : F.rnd 0 = 0 := by
  have := hF.rnd_int 0 (by norm_num)
  simpa using this

theorem rnd_one (hF : F.Standard u) : F.rnd 1 = 1 := by
  have := hF.rnd_int 1 (by norm_num)
  simpa using this

theorem rnd_nat_exact (hF : F.Standard u) (n : Nat) (hn : n ≤ 2 ^ 53) :
    F.rnd (n : ℝ) = (n : ℝ) := by
  have := hF.rnd_int (n : ℤ) (by
    rw [abs_of_nonneg (by positivity)]
    exact_mod_cast hn)
  simpa using this

/-- Rounding a positive value of the normal range keeps it within relative error `u`. -/
theorem rnd_near (hF : F.Standard u) (x : ℝ) (hx : 0 < x) (h1 : double_min ≤ x)
    (h2 : x ≤ double_max) : near u x (F.rnd x) :=
  hF.rnd_err x (by rwa [abs_of_pos hx]) (by rwa [abs_of_pos hx])

theorem rnd_bounds (hF : F.Standard u) (x : ℝ) (hx : 0 < x) (h1 : double_min ≤ x)
    (h2 : x ≤ double_max) : (1 - u) * x ≤ F.rnd x ∧ F.rnd x ≤ (1 + u) * x :=
  near_pos (rnd_near hF x hx h1 h2) hx

/-- Rounding a value between `2 ^ (-k)` and `2 ^ m`. -/
theorem rnd_near_of_pow (hF : F.Standard u) (x : ℝ) (k m : Nat) (hk : k ≤ 1022)
    (hm : m ≤ 1023) (h1 : (1 / 2) ^ k ≤ x) (h2 : x ≤ 2 ^ m) : near u x (F.rnd x) :=
  rnd_near hF x (lt_of_lt_of_le (by positivity) h1) (le_trans (double_min_le k hk) h1)
    (le_trans h2 (le_double_max m hm))

theorem rnd_nat_near (hF : F.Standard u) (n : Nat) (h1 : 1 ≤ n) (h2 : n < 2 ^ 64) :
    near u (n : ℝ) (F.rnd (n : ℝ)) := by
  apply rnd_near_of_pow hF _ 0 64 (by norm_num) (by norm_num)
  · rw [pow_zero]; exact_mod_cast h1
  · exact_mod_cast h2.le

theorem rnd_nat_pos (hF : F.Standard u) (hu : u < 1) (n : Nat) (h1 : 1 ≤ n)
    (h2 : n < 2 ^ 64) : 0 < F.rnd (n : ℝ) := by
  have hn : (1 : ℝ) ≤ (n : ℝ) := Nat.one_le_cast.mpr h1
  have hpos : (0 : ℝ) < (n : ℝ) := lt_of_lt_of_le one_pos hn
  have := (near_pos (rnd_nat_near hF n h1 h2) hpos).1
  exact lt_of_lt_of_le (mul_pos (sub_pos.mpr hu) hpos) this

theorem rnd_nat_bounds (hF : F.Standard u) (hu : u ≤ 1 / 2) (n : Nat) (h1 : 1 ≤ n)
    (h2 : n < 2 ^ 64) : 1 / 2 ≤ F.rnd (n : ℝ) ∧ F.rnd (n : ℝ) ≤ 2 ^ 65 := by
  have hn : (1 : ℝ) ≤ (n : ℝ) := Nat.one_le_cast.mpr h1
  have hn2 : (n : ℝ) ≤ 2 ^ 64 := by exact_mod_cast h2.le
  have hu0 := (std_u_pos hF).le
  have hpos : (0 : ℝ) < (n : ℝ) := lt_of_lt_of_le one_pos hn
  obtain ⟨a, b⟩ := near_pos (rnd_nat_near hF n h1 h2) hpos
  have e : (2 : ℝ) ^ 65 = 2 * 2 ^ 64 := by norm_num
  rw [e]
  have k1 : 1 / 2 * 1 ≤ (1 - u) * (n : ℝ) :=
    mul_le_mul (by linarith only [hu]) hn zero_le_one (by linarith only [hu])
  have k2 : (1 + u) * (n : ℝ) ≤ 2 * 2 ^ 64 :=
    mul_le_mul (by linarith only [hu]) hn2 hpos.le (by norm_num)
  constructor
  · linarith only [k1, a]
  · exact le_trans b k2

theorem rnd_one_sub_small (hF : F.Standard u) (t : ℝ) (h0 : 0 ≤ t) (h1 : t < (1 / 2) ^ 54) :
    F.rnd (1 - t) = 1 := by
  have a : 1 - (1 / 2) ^ 54 < 1 - t := by linarith only [h1]
  have b : 1 - t ≤ 1 := by linarith only [h0]
  exact hF.rnd_near_one (1 - t) a b

theorem rnd_le_one (hF : F.Standard u) (x : ℝ) (hx : x ≤ 1) : F.rnd x ≤ 1 := by
  have := hF.rnd_mono x 1 hx
  rwa [rnd_one hF] at this

theorem rnd_nonneg (hF : F.Standard u) (x : ℝ) (hx : 0 ≤ x) : 0 ≤ F.rnd x := by
  have := hF.rnd_mono 0 x hx
  rwa [rnd_zero hF] at this

theorem rnd_nonpos (hF : F.Standard u) (x : ℝ) (hx : x ≤ 0) : F.rnd x ≤ 0 := by
  have := hF.rnd_mono x 0 hx
  rwa [rnd_zero hF] at this

end FloatLemmas

/-! ## Lemmas: the capacity-driven probability in double arithmetic -/

section SizePolicyDouble

open f64.bloom_filter_size_policy

variable {F : FloatOps} {u : ℝ}

/-- With expected cardinality 0 the double probability is exactly 0. -/
theorem size_policy_double_zero_expected (hF : F.Standard u) (hu : u < 1) (M K : Nat)
    (hK1 : 1 ≤ K) (hK2 : K < 2 ^ 64) : false_positive_probability F 0 M K = 0 := by
  unfold false_positive_probability
  simp only [Nat.cast_zero, rnd_zero hF, mul_zero, hF.pow_zero, sub_self]
  exact hF.zero_pow _ (rnd_nat_pos hF hu K hK1 hK2)

/-- With one bucket and a positive expected cardinality the double probability is exactly 1. -/
theorem size_policy_double_one_bucket (hF : F.Standard u) (hu : u ≤ 1 / 2) (N K : Nat)
    (hN1 : 1 ≤ N) (hN2 : N < 2 ^ 64) (hK1 : 1 ≤ K) (hK2 : K < 2 ^ 64) :
    false_positive_probability F N 1 K = 1 := by
  have hu1 : u < 1 := lt_of_le_of_lt hu (by norm_num)
  obtain ⟨hK, hKle⟩ := rnd_nat_bounds hF hu K hK1 hK2
  obtain ⟨hN, hNle⟩ := rnd_nat_bounds hF hu N hN1 hN2
  have hprod : 0 < F.rnd (F.rnd (K : ℝ) * F.rnd (N : ℝ)) := by
    have hnear := rnd_near_of_pow hF (F.rnd (K : ℝ) * F.rnd (N : ℝ)) 2 130 (by norm_num)
      (by norm_num) (by
        have e : ((1 : ℝ) / 2) ^ 2 = 1 / 2 * (1 / 2) := by norm_num
        rw [e]
        exact mul_le_mul hK hN (by norm_num) (le_trans (by norm_num) hK)) (by
        have e : (2 : ℝ) ^ 130 = 2 ^ 65 * 2 ^ 65 := by rw [← pow_add]
        rw [e]
        exact mul_le_mul hKle hNle (le_trans (by norm_num) hN) (by positivity))
    have hpos : 0 < F.rnd (K : ℝ) * F.rnd (N : ℝ) :=
      mul_pos (lt_of_lt_of_le (by norm_num) hK) (lt_of_lt_of_le (by norm_num) hN)
    have := (near_pos hnear hpos).1
    exact lt_of_lt_of_le (mul_pos (sub_pos.mpr hu1) hpos) this
  unfold false_positive_probability
  simp only [Nat.cast_one, rnd_one hF, div_one, sub_self, rnd_zero hF, hF.zero_pow _ hprod,
    sub_zero, hF.one_pow]

theorem pow_2000_bounds (x : ℝ) (hlo : 87 / 100 ≤ x) (hhi : x ≤ 88 / 100) :
    (1 / 2) ^ 1000 ≤ x ^ 2000 ∧ x ^ 2000 ≤ (1 / 2) ^ 333 := by
  have hpos : 0 < x := lt_of_lt_of_le (by norm_num) hlo
  constructor
  · have e : x ^ 2000 = (x ^ 2) ^ 1000 := by rw [← pow_mul]
    have hsq : (1 : ℝ) / 2 ≤ x ^ 2 := by
      have := mul_le_mul hlo hlo (by norm_num) hpos.le
      rw [pow_two]
      linarith only [this]
    rw [e]
    exact pow_le_pow_left₀ (by norm_num) hsq 1000
  · have e : x ^ 2000 = (x ^ 6) ^ 333 * x ^ 2 := by rw [← pow_mul, ← pow_add]
    have h6a : x ^ 6 ≤ (88 / 100 : ℝ) ^ 6 := pow_le_pow_left₀ hpos.le hhi 6
    have h6 : x ^ 6 ≤ 1 / 2 := by
      have : (88 / 100 : ℝ) ^ 6 ≤ 1 / 2 := by norm_num
      exact le_trans h6a this
    have h6p : (0 : ℝ) ≤ x ^ 6 := by positivity
    have h333 : (x ^ 6) ^ 333 ≤ ((1 : ℝ) / 2) ^ 333 := pow_le_pow_left₀ h6p h6 333
    have hsq1 : x ^ 2 ≤ 1 := pow_le_one₀ hpos.le (le_trans hhi (by norm_num))
    have hsq0 : (0 : ℝ) ≤ x ^ 2 := by positivity
    have hp : (0 : ℝ) ≤ ((1 : ℝ) / 2) ^ 333 := by positivity
    rw [e]
    calc (x ^ 6) ^ 333 * x ^ 2 ≤ ((1 : ℝ) / 2) ^ 333 * 1 := mul_le_mul h333 hsq1 hsq0 hp
      _ = (1 / 2) ^ 333 := by ring

theorem overloaded_core (hF : F.Standard u) (hu : u ≤ 1 / 1024) (x : ℝ) (hlo : 87 / 100 ≤ x)
    (hhi : x ≤ 88 / 100) : F.rnd (1 - F.pow x 2000) = 1 := by
  have hu0 := (std_u_pos hF).le
  have hpos : 0 < x := lt_of_lt_of_le (by norm_num) hlo
  obtain ⟨hXlo, hXhi⟩ := pow_2000_bounds x hlo hhi
  have hcast : (2000 : ℝ) = ((2000 : ℕ) : ℝ) := by norm_num
  have hX : x ^ (2000 : ℝ) = x ^ 2000 := by rw [hcast, Real.rpow_natCast]
  have hXpos : (0 : ℝ) < x ^ 2000 := by positivity
  have h333 : ((1 : ℝ) / 2) ^ 333 ≤ (2 : ℝ) ^ 0 := by
    rw [pow_zero]; exact pow_le_one₀ (by norm_num) (by norm_num)
  have hpow := hF.pow_err x 2000 hpos
    (by rw [hX]; exact le_trans (double_min_le 1000 (by norm_num)) hXlo)
    (by rw [hX]; exact le_trans (le_trans hXhi h333) (le_double_max 0 (by norm_num)))
  rw [hX] at hpow
  have hpb := abs_le.mp hpow
  have h54 : ((1 : ℝ) / 2) ^ 333 = (1 / 2) ^ 54 * (1 / 2) ^ 279 := by rw [← pow_add]
  have h279 : ((1 : ℝ) / 2) ^ 279 ≤ (1 / 2) ^ 2 :=
    pow_le_pow_of_le_one (by norm_num) (by norm_num) (by norm_num)
  have h4 : ((1 : ℝ) / 2) ^ 2 = 1 / 4 := by norm_num
  rw [h4] at h279
  rw [h54] at hXhi
  have hp54 : (0 : ℝ) < (1 / 2) ^ 54 := by positivity
  clear hXlo h333 h54 hpow hX hcast
  generalize x ^ 2000 = X at hXpos hXhi hpb
  generalize F.pow x 2000 = t at hpb ⊢
  have htpos : 0 ≤ t := by
    have := mul_nonneg (show 0 ≤ 1 - u by linarith only [hu]) hXpos.le
    linarith only [hpb.1, this]
  have htsmall : t < (1 / 2) ^ 54 := by
    generalize ((1 : ℝ) / 2) ^ 279 = c at h279 hXhi
    generalize ((1 : ℝ) / 2) ^ 54 = e at hp54 hXhi ⊢
    have k1 : e * c ≤ e * (1 / 4) := mul_le_mul_of_nonneg_left h279 hp54.le
    have k2 : u * X ≤ 1 / 1024 * X := mul_le_mul_of_nonneg_right hu hXpos.le
    linarith only [hpb.2, hXhi, k1, k2, hp54]
  exact rnd_one_sub_small hF t htpos htsmall

/-- An overloaded filter: with 1000 expected values over 8 buckets and two probes the double
probability is exactly 1. -/
theorem size_policy_double_overloaded (hF : F.Standard u) (hu : u ≤ 1 / 1024) :
    false_positive_probability F 1000 8 2 = 1 := by
  have hu0 := (std_u_pos hF).le
  have h8 : F.rnd ((8 : ℕ) : ℝ) = 8 := by
    have := rnd_nat_exact hF 8 (by norm_num)
    simpa using this
  have h2 : F.rnd ((2 : ℕ) : ℝ) = 2 := by
    have := rnd_nat_exact hF 2 (by norm_num)
    simpa using this
  have h1000 : F.rnd ((1000 : ℕ) : ℝ) = 1000 := by
    have := rnd_nat_exact hF 1000 (by norm_num)
    simpa using this
  have h2000 : F.rnd ((2 : ℝ) * 1000) = 2000 := by
    have := rnd_nat_exact hF 2000 (by norm_num)
    have e : ((2000 : ℕ) : ℝ) = 2 * 1000 := by norm_num
    rw [e] at this
    rw [this]; norm_num
  obtain ⟨i1, i2⟩ := near_pos (rnd_near_of_pow hF (1 / 8) 3 0 (by norm_num) (by norm_num)
    (by norm_num) (by norm_num)) (by norm_num)
  have hy1 : 1 / 2 ≤ 1 - F.rnd (1 / 8) := by linarith only [i2, hu]
  obtain ⟨x1a, x1b⟩ := near_pos (rnd_near_of_pow hF (1 - F.rnd (1 / 8)) 1 0 (by norm_num)
    (by norm_num) (by rw [pow_one]; exact hy1) (by rw [pow_zero]; linarith only [i1, hu]))
    (lt_of_lt_of_le (by norm_num) hy1)
  have hur : 0 ≤ u * F.rnd (1 / 8) := mul_nonneg hu0 (by linarith only [i1, hu])
  have hlo : (87 : ℝ) / 100 ≤ F.rnd (1 - F.rnd (1 / 8)) := by
    linarith only [x1a, hur, i2, hu]
  have hhi : F.rnd (1 - F.rnd (1 / 8)) ≤ 88 / 100 := by
    linarith only [x1b, hur, i1, hu]
  have hx2 := overloaded_core hF hu _ hlo hhi
  show F.pow (F.rnd (1 - F.pow (F.rnd (1 - F.rnd (1 / F.rnd ((8 : ℕ) : ℝ))))
    (F.rnd (F.rnd ((2 : ℕ) : ℝ) * F.rnd ((1000 : ℕ) : ℝ))))) (F.rnd ((2 : ℕ) : ℝ)) = 1
  rw [h8, h2, h1000, h2000, hx2, hF.one_pow]

end SizePolicyDouble

section SizePolicyDouble3

open f64.bloom_filter_size_policy

variable {F : FloatOps} {u : ℝ}

theorem base_arith (u im i x : ℝ) (hu0 : 0 < u) (hu : u ≤ 1 / 1024) (h1 : 0 < im)
    (h2 : im ≤ 1 / 2) (h3 : 8 * u ≤ im) (i1 : (1 - u) * im ≤ i) (i2 : i ≤ (1 + u) * im)
    (a : (1 - u) * (1 - i) ≤ x) (b : x ≤ (1 + u) * (1 - i)) :
    (1 - im) * (1 - 3 * u) ≤ x ∧ x ≤ 1 - 5 / 8 * im := by
  have k1 : (1 - u) * i ≤ (1 - u) * ((1 + u) * im) :=
    mul_le_mul_of_nonneg_left i2 (by linarith only [hu])
  have k2 : u * im ≤ u * (1 / 2) := mul_le_mul_of_nonneg_left h2 hu0.le
  have k3 : 0 ≤ u * u * im := mul_nonneg (mul_nonneg hu0.le hu0.le) h1.le
  have k5 : u * im ≤ 1 / 1024 * im := mul_le_mul_of_nonneg_right hu h1.le
  have k6 : u * (u * im) ≤ 1 / 1024 * (u * im) :=
    mul_le_mul_of_nonneg_right hu (mul_nonneg hu0.le h1.le)
  have k7 : (1 + u) * ((1 - u) * im) ≤ (1 + u) * i :=
    mul_le_mul_of_nonneg_left i1 (by linarith only [hu0])
  constructor
  · linarith only [a, k1, k2, k3, hu0]
  · linarith only [b, k7, k5, k6, h3, h1]

/-- The first rounded base `x = 1 - 1/M` of the capacity-driven probability. -/
theorem size_policy_base_bounds (hF : F.Standard u) (hu : u ≤ 1 / 1024) (M : Nat)
    (hM2 : 2 ≤ M) (hM53 : M ≤ 2 ^ 53) (hMu : 8 * u * (M : ℝ) ≤ 1) :
    (1 - 1 / (M : ℝ)) * (1 - 3 * u) ≤ F.rnd (1 - F.rnd (1 / F.rnd (M : ℝ))) ∧
    F.rnd (1 - F.rnd (1 / F.rnd (M : ℝ))) ≤ 1 - 5 / 8 * (1 / (M : ℝ)) := by
  have hu0 := std_u_pos hF
  rw [rnd_nat_exact hF M hM53]
  have hm2 : (2 : ℝ) ≤ (M : ℝ) := by exact_mod_cast hM2
  have hm53 : (M : ℝ) ≤ 2 ^ 53 := by exact_mod_cast hM53
  have hmpos : (0 : ℝ) < (M : ℝ) := lt_of_lt_of_le (by norm_num) hm2
  have him_lo : ((1 : ℝ) / 2) ^ 53 ≤ 1 / (M : ℝ) := by
    rw [one_div_pow, one_div, one_div]
    exact inv_anti₀ hmpos hm53
  have him_hi : 1 / (M : ℝ) ≤ 1 / 2 := one_div_le_one_div_of_le (by norm_num) hm2
  have hu_im : 8 * u ≤ 1 / (M : ℝ) := by
    rw [le_div_iff₀ hmpos]
    exact hMu
  have him_pos : 0 < 1 / (M : ℝ) := by positivity
  obtain ⟨i1, i2⟩ := near_pos (rnd_near_of_pow hF (1 / (M : ℝ)) 53 0 (by norm_num)
    (by norm_num) him_lo (by rw [pow_zero]; linarith only [him_hi])) him_pos
  have k : u * (1 / (M : ℝ)) ≤ 1 / 1024 * (1 / (M : ℝ)) :=
    mul_le_mul_of_nonneg_right hu him_pos.le
  have hy1 : (1 / 2) ^ 2 ≤ 1 - F.rnd (1 / (M : ℝ)) := by
    have e : ((1 : ℝ) / 2) ^ 2 = 1 / 4 := by norm_num
    rw [e]
    linarith only [i2, k, him_hi]
  have hy1' : 1 - F.rnd (1 / (M : ℝ)) ≤ 2 ^ 0 := by
    rw [pow_zero]
    linarith only [i1, k, him_pos]
  obtain ⟨a, b⟩ := near_pos (rnd_near_of_pow hF (1 - F.rnd (1 / (M : ℝ))) 2 0 (by norm_num)
    (by norm_num) hy1 hy1') (lt_of_lt_of_le (by positivity) hy1)
  exact base_arith u _ _ _ hu0 hu him_pos him_hi hu_im i1 i2 a b

theorem pow_le_self_of_le_one (x : ℝ) (n : Nat) (h0 : 0 ≤ x) (h1 : x ≤ 1) (hn : 1 ≤ n) :
    x ^ n ≤ x := by
  have := pow_le_pow_of_le_one h0 h1 hn
  rwa [pow_one] at this

theorem inner_arith (u im x T t : ℝ) (hu0 : 0 < u) (h3 : 8 * u ≤ im) (xhi : x ≤ 1 - 5 / 8 * im) (hTle : T ≤ x) (hTge : 4 * u ≤ T)
    (hpb : |t - T| ≤ u * T) : 3 * u ≤ t ∧ t ≤ 1 - 1 / 2 * im := by
  obtain ⟨p1, p2⟩ := abs_le.mp hpb
  have hT1 : T ≤ 1 := by linarith only [hTle, xhi, h3, hu0]
  have hu4 : u ≤ 1 / 4 := by linarith only [hTle, xhi, h3, hTge]
  have k1 : 4 * u * (1 - u) ≤ T * (1 - u) :=
    mul_le_mul_of_nonneg_right hTge (by linarith only [hu4])
  have k2 : u * u ≤ u * (1 / 4) := mul_le_mul_of_nonneg_left hu4 hu0.le
  have k3 : u * T ≤ u := mul_le_of_le_one_right hu0.le hT1
  constructor
  · linarith only [p1, k1, k2]
  · linarith only [p2, k3, hTle, xhi, h3]

theorem outer_arith (u im c t x : ℝ) (hu0 : 0 < u) (hu : u ≤ 1 / 1024) (hc : 0 ≤ c)
    (hcim : 4 * c ≤ im) (t1 : 3 * u ≤ t) (t2 : t ≤ 1 - 1 / 2 * im)
    (a : (1 - u) * (1 - t) ≤ x) (b : x ≤ (1 + u) * (1 - t)) :
    c ≤ x ∧ x ≤ 1 - 2 * u := by
  have him : 0 ≤ im := by linarith only [hc, hcim]
  have k1 : (1 - u) * (1 / 2 * im) ≤ (1 - u) * (1 - t) :=
    mul_le_mul_of_nonneg_left (by linarith only [t2]) (by linarith only [hu])
  have k2 : u * im ≤ 1 / 1024 * im := mul_le_mul_of_nonneg_right hu him
  have k3 : (1 + u) * (1 - t) ≤ (1 + u) * (1 - 3 * u) :=
    mul_le_mul_of_nonneg_left (by linarith only [t1]) (by linarith only [hu0])
  have k4 : 0 ≤ u * u := mul_nonneg hu0.le hu0.le
  constructor
  · linarith only [a, k1, k2, hcim, him]
  · linarith only [b, k3, k4]

theorem final_arith (u x X f : ℝ) (hu0 : 0 < u) (hu : u ≤ 1 / 1024) (hX : 0 < X)
    (hXle : X ≤ x) (hx : x ≤ 1 - 2 * u) (hf : |f - X| ≤ u * X) : 0 < f ∧ f < 1 := by
  obtain ⟨p1, p2⟩ := abs_le.mp hf
  have k1 : 0 < (1 - u) * X := mul_pos (by linarith only [hu]) hX
  have k2 : (1 + u) * X ≤ (1 + u) * (1 - 2 * u) :=
    mul_le_mul_of_nonneg_left (le_trans hXle hx) (by linarith only [hu0])
  have k3 : 0 ≤ u * u := mul_nonneg hu0.le hu0.le
  constructor
  · linarith only [p1, k1]
  · linarith only [p2, k2, k3, hu0]

theorem load_arith (u B C T : ℝ) (hu0 : 0 < u) (hB : 8 * u ≤ B) (hC : 1 / 2 ≤ C)
    (h : B * C ≤ T) : 4 * u ≤ T := by
  have hB0 : 0 ≤ B := le_trans (mul_nonneg (by norm_num) hu0.le) hB
  have k : 8 * u * (1 / 2) ≤ B * C := mul_le_mul hB hC (by norm_num) hB0
  linarith only [k, h]

/-- A filter that is neither overloaded nor too large for double precision passes the
static check of the capacity-driven policy. -/
theorem size_policy_double_accepted (hF : F.Standard u) (hu : u ≤ 1 / 1024) (N M K : Nat)
    (hM2 : 2 ≤ M) (hN : 1 ≤ N) (hK1 : 1 ≤ K) (hK16 : K ≤ 16) (hM53 : M ≤ 2 ^ 53)
    (hKN : K * N ≤ 2 ^ 53) (hMu : 8 * u * (M : ℝ) ≤ 1)
    (hKNu : 6 * u * ((K * N : ℕ) : ℝ) ≤ 1)
    (hload : 8 * u ≤ (1 - 1 / (M : ℝ)) ^ (K * N)) :
    accepted F N M K := by
  have hu0 := std_u_pos hF
  have huge := hF.u_ge
  obtain ⟨xlo, xhi⟩ := size_policy_base_bounds hF hu M hM2 hM53 hMu
  have hm2 : (2 : ℝ) ≤ (M : ℝ) := by exact_mod_cast hM2
  have hm53 : (M : ℝ) ≤ 2 ^ 53 := by exact_mod_cast hM53
  have hmpos : (0 : ℝ) < (M : ℝ) := lt_of_lt_of_le (by norm_num) hm2
  have him_pos : 0 < 1 / (M : ℝ) := by positivity
  have him_lo : ((1 : ℝ) / 2) ^ 53 ≤ 1 / (M : ℝ) := by
    rw [one_div_pow, one_div, one_div]
    exact inv_anti₀ hmpos hm53
  have him_hi : 1 / (M : ℝ) ≤ 1 / 2 := one_div_le_one_div_of_le (by norm_num) hm2
  have hu_im : 8 * u ≤ 1 / (M : ℝ) := by
    rw [le_div_iff₀ hmpos]
    exact hMu
  have hN53 : N ≤ 2 ^ 53 := le_trans (Nat.le_mul_of_pos_left N (by omega)) hKN
  have hK53 : K ≤ 2 ^ 53 := le_trans hK16 (by norm_num)
  have he1 : 1 ≤ K * N := Nat.mul_pos (by omega) (by omega)
  have hprod : F.rnd (F.rnd (K : ℝ) * F.rnd (N : ℝ)) = ((K * N : ℕ) : ℝ) := by
    rw [rnd_nat_exact hF K hK53, rnd_nat_exact hF N hN53, ← Nat.cast_mul,
      rnd_nat_exact hF (K * N) hKN]
  unfold accepted false_positive_probability
  dsimp only
  rw [hprod, rnd_nat_exact hF K hK53]
  generalize F.rnd (1 - F.rnd (1 / F.rnd (M : ℝ))) = x1 at xlo xhi ⊢
  -- the inner power
  have hx1pos : 0 < x1 :=
    lt_of_lt_of_le (mul_pos (by linarith only [him_hi]) (by linarith only [hu])) xlo
  have hx1le : x1 ≤ 1 := by linarith only [xhi, him_pos]
  have hTle : x1 ^ (K * N) ≤ x1 := pow_le_self_of_le_one x1 (K * N) hx1pos.le hx1le he1
  have hbern : 1 + ((K * N : ℕ) : ℝ) * (-(3 * u)) ≤ (1 + -(3 * u)) ^ (K * N) :=
    one_add_mul_le_pow (by linarith only [hu]) (K * N)
  have hhalf : (1 : ℝ) / 2 ≤ (1 - 3 * u) ^ (K * N) := by
    have e : (1 : ℝ) + -(3 * u) = 1 - 3 * u := by ring
    rw [e] at hbern
    linarith only [hbern, hKNu]
  have hTge : 4 * u ≤ x1 ^ (K * N) := by
    have h1 : ((1 - 1 / (M : ℝ)) * (1 - 3 * u)) ^ (K * N) ≤ x1 ^ (K * N) :=
      pow_le_pow_left₀
        (mul_nonneg (by linarith only [him_hi]) (by linarith only [hu])) xlo _
    rw [mul_pow] at h1
    exact load_arith u _ _ _ hu0 hload hhalf h1
  have hT_min : double_min ≤ x1 ^ (K * N) := by
    have h51 : ((1 : ℝ) / 2) ^ 51 = 4 * (1 / 2) ^ 53 := by norm_num
    have := double_min_le 51 (by norm_num)
    rw [h51] at this
    linarith only [this, huge, hTge]
  have hT_max : x1 ^ (K * N) ≤ double_max := by
    have := le_double_max 0 (by norm_num)
    rw [pow_zero] at this
    linarith only [this, hTle, hx1le]
  have hpe := hF.pow_err x1 ((K * N : ℕ) : ℝ) hx1pos
    (by rw [Real.rpow_natCast]; exact hT_min) (by rw [Real.rpow_natCast]; exact hT_max)
  rw [Real.rpow_natCast] at hpe
  obtain ⟨ht_lo, ht_hi⟩ := inner_arith u _ x1 _ _ hu0 hu_im xhi hTle hTge hpe
  generalize F.pow x1 ((K * N : ℕ) : ℝ) = t at ht_lo ht_hi ⊢
  -- the outer rounding
  have hy2_lo : ((1 : ℝ) / 2) ^ 54 ≤ 1 - t := by
    have e : ((1 : ℝ) / 2) ^ 54 = 1 / 2 * (1 / 2) ^ 53 := by norm_num
    rw [e]
    linarith only [ht_hi, him_lo]
  obtain ⟨x2a, x2b⟩ := near_pos (rnd_near_of_pow hF (1 - t) 54 0 (by norm_num) (by norm_num)
    hy2_lo (by rw [pow_zero]; linarith only [ht_lo, hu0]))
    (lt_of_lt_of_le (by positivity) hy2_lo)
  have h55 : 4 * ((1 : ℝ) / 2) ^ 55 ≤ 1 / (M : ℝ) := by
    have e : 4 * ((1 : ℝ) / 2) ^ 55 = (1 / 2) ^ 53 := by norm_num
    rw [e]
    exact him_lo
  obtain ⟨hx2_lo, hx2_hi⟩ := outer_arith u _ (((1 : ℝ) / 2) ^ 55) t _ hu0 hu (by positivity)
    h55 ht_lo ht_hi x2a x2b
  generalize F.rnd (1 - t) = x2 at hx2_lo hx2_hi ⊢
  have hx2pos : 0 < x2 := lt_of_lt_of_le (by positivity) hx2_lo
  have hXle : x2 ^ K ≤ x2 :=
    pow_le_self_of_le_one x2 K hx2pos.le (by linarith only [hx2_hi, hu0]) hK1
  have hXge : ((1 : ℝ) / 2) ^ 880 ≤ x2 ^ K := by
    have h1 : (((1 : ℝ) / 2) ^ 55) ^ K ≤ x2 ^ K := pow_le_pow_left₀ (by positivity) hx2_lo K
    have h2 : (((1 : ℝ) / 2) ^ 55) ^ 16 ≤ (((1 : ℝ) / 2) ^ 55) ^ K :=
      pow_le_pow_of_le_one (by positivity) (pow_le_one₀ (by norm_num) (by norm_num)) hK16
    have e : (((1 : ℝ) / 2) ^ 55) ^ 16 = (1 / 2) ^ 880 := by rw [← pow_mul]
    rw [e] at h2
    exact le_trans h2 h1
  have hX_min : double_min ≤ x2 ^ K := le_trans (double_min_le 880 (by norm_num)) hXge
  have hX_max : x2 ^ K ≤ double_max := by
    have := le_double_max 0 (by norm_num)
    rw [pow_zero] at this
    linarith only [this, hXle, hx2_hi, hu0]
  have hXpos : 0 < x2 ^ K := by positivity
  have hfe := hF.pow_err x2 (K : ℝ) hx2pos
    (by rw [Real.rpow_natCast]; exact hX_min) (by rw [Real.rpow_natCast]; exact hX_max)
  rw [Real.rpow_natCast] at hfe
  exact final_arith u x2 _ _ hu0 hu hXpos hXle hx2_hi hfe

end SizePolicyDouble3

/-! ## Lemmas: the probability-driven bucket count in double arithmetic -/

section ProbabilityPolicyDouble

open f64.bloom_filter_false_positive_policy

variable {F : FloatOps} {u : ℝ}

theorem rnd_near_abs (hF : F.Standard u) (x : ℝ) (k m : Nat) (hk : k ≤ 1022)
    (hm : m ≤ 1023) (h1 : (1 / 2) ^ k ≤ |x|) (h2 : |x| ≤ 2 ^ m) : near u x (F.rnd x) :=
  hF.rnd_err x (le_trans (double_min_le k hk) h1) (le_trans h2 (le_double_max m hm))

theorem int_cast_abs_bounds (n : Int) (h0 : n ≠ 0) (h : |n| < 2 ^ 63) :
    (1 / 2 : ℝ) ^ 0 ≤ |(n : ℝ)| ∧ |(n : ℝ)| ≤ 2 ^ 63 := by
  have h1 : (1 : ℤ) ≤ |n| := Int.one_le_abs h0
  have h1r : (1 : ℝ) ≤ |(n : ℝ)| := by exact_mod_cast h1
  have h2r : |(n : ℝ)| ≤ 2 ^ 63 := by exact_mod_cast h.le
  rw [pow_zero]
  exact ⟨h1r, h2r⟩

theorem relax_div (u : ℝ) (hu0 : 0 < u) (hu : u ≤ 1 / 4) :
    u + u / (1 - u) + u * (u / (1 - u)) ≤ 4 * u := by
  have h1 : 0 < 1 - u := by linarith only [hu]
  have k : u * u ≤ u * (1 / 4) := mul_le_mul_of_nonneg_left hu hu0.le
  have hw : u / (1 - u) ≤ 2 * u := by
    rw [div_le_iff₀ h1]
    linarith only [k, hu0]
  have hw0 : 0 ≤ u / (1 - u) := div_nonneg hu0.le h1.le
  have k2 : u * (u / (1 - u)) ≤ 1 / 4 * (u / (1 - u)) := mul_le_mul_of_nonneg_right hu hw0
  linarith only [hw, k2, hw0, hu0]

/-- The double value of `Num / Denom` is within relative error `6 u` of the exact ratio. -/
theorem fpp_double_near (hF : F.Standard u) (hu : u ≤ 1 / 1024) (Num Denom : Int)
    (hNum : |Num| < 2 ^ 63) (hDen : |Denom| < 2 ^ 63)
    (hp0 : 0 < (Num : ℝ) / (Denom : ℝ)) :
    near (6 * u) ((Num : ℝ) / (Denom : ℝ)) (false_positive_probability F Num Denom) ∧
    (1 / 2 : ℝ) ^ 63 ≤ (Num : ℝ) / (Denom : ℝ) ∧ (Num : ℝ) / (Denom : ℝ) ≤ 2 ^ 63 := by
  have hu0 := std_u_pos hF
  have hN0 : Num ≠ 0 := by
    rintro rfl
    simp at hp0
  have hD0 : Denom ≠ 0 := by
    rintro rfl
    simp at hp0
  obtain ⟨n1, n2⟩ := int_cast_abs_bounds Num hN0 hNum
  obtain ⟨d1, d2⟩ := int_cast_abs_bounds Denom hD0 hDen
  have hDr : (Denom : ℝ) ≠ 0 := by exact_mod_cast hD0
  have hn := rnd_near_abs hF (Num : ℝ) 0 63 (by norm_num) (by norm_num) n1 n2
  have hd := rnd_near_abs hF (Denom : ℝ) 0 63 (by norm_num) (by norm_num) d1 d2
  have hq := near_mono (near_div hn hd (by linarith only [hu]) hDr)
    (relax_div u hu0 (by linarith only [hu]))
  rw [pow_zero] at n1 d1
  have hpabs : |(Num : ℝ) / (Denom : ℝ)| = (Num : ℝ) / (Denom : ℝ) := abs_of_pos hp0
  have hplo : (1 / 2 : ℝ) ^ 63 ≤ (Num : ℝ) / (Denom : ℝ) := by
    rw [← hpabs, abs_div, one_div_pow, le_div_iff₀ (lt_of_lt_of_le one_pos d1)]
    have : 1 / (2 : ℝ) ^ 63 * |(Denom : ℝ)| ≤ 1 := by
      rw [div_mul_eq_mul_div, one_mul, div_le_one (by positivity)]
      exact d2
    exact le_trans this n1
  have hphi : (Num : ℝ) / (Denom : ℝ) ≤ 2 ^ 63 := by
    rw [← hpabs, abs_div, div_le_iff₀ (lt_of_lt_of_le one_pos d1)]
    have : (2 : ℝ) ^ 63 * 1 ≤ 2 ^ 63 * |(Denom : ℝ)| :=
      mul_le_mul_of_nonneg_left d1 (by positivity)
    rw [mul_one] at this
    exact le_trans n2 this
  refine ⟨?_, hplo, hphi⟩
  generalize (Num : ℝ) / (Denom : ℝ) = p at hp0 hq hplo hphi ⊢
  obtain ⟨q1, q2⟩ := near_pos hq hp0
  have k1 : 1 / 2 * p ≤ (1 - 4 * u) * p :=
    mul_le_mul_of_nonneg_right (by linarith only [hu]) hp0.le
  have k2 : (1 + 4 * u) * p ≤ 2 * p :=
    mul_le_mul_of_nonneg_right (by linarith only [hu]) hp0.le
  have hr := rnd_near_of_pow hF (F.rnd (Num : ℝ) / F.rnd (Denom : ℝ)) 64 64 (by norm_num)
    (by norm_num) (by
      have e : ((1 : ℝ) / 2) ^ 64 = 1 / 2 * (1 / 2) ^ 63 := by norm_num
      rw [e]
      generalize ((1 : ℝ) / 2) ^ 63 = c at hplo ⊢
      linarith only [k1, q1, hplo]) (by
      have e : (2 : ℝ) ^ 64 = 2 * 2 ^ 63 := by norm_num
      rw [e]
      generalize (2 : ℝ) ^ 63 = c at hphi ⊢
      linarith only [k2, q2, hphi])
  have ht := near_trans hq hr hu0.le
  unfold false_positive_probability
  apply near_mono ht
  have k3 : u * u ≤ u * (1 / 1024) := mul_le_mul_of_nonneg_left hu hu0.le
  linarith only [k3, hu0]

end ProbabilityPolicyDouble

section ScaledLog

variable {F : FloatOps} {u : ℝ}

theorem log_one_double (hF : F.Standard u) : F.log 1 = 0 := by
  have := hF.log_err 1 (by norm_num)
  rw [Real.log_one, abs_zero, mul_zero, sub_zero] at this
  exact abs_eq_zero.mp (le_antisymm this (abs_nonneg _))

theorem near_zero_left {a y : ℝ} (h : near a 0 y) : y = 0 := by
  unfold near at h
  rw [abs_zero, mul_zero, sub_zero] at h
  exact abs_eq_zero.mp (le_antisymm h (abs_nonneg _))

theorem near_of_eq_zero (a : ℝ) : near a 0 0 := by
  unfold near
  simp

/-- Bounds on the logarithm of a double `w` below 1 that is at least `2 ^ (-70)`. -/
theorem log_double_bounds (w : ℝ) (hw0 : (1 / 2) ^ 70 ≤ w) (hw1 : w ≤ 1 - (1 / 2) ^ 53) :
    Real.log w < 0 ∧ (1 / 2) ^ 53 ≤ |Real.log w| ∧ |Real.log w| ≤ 2 ^ 70 := by
  have hwpos : 0 < w := lt_of_lt_of_le (by positivity) hw0
  have p53 : (0 : ℝ) < (1 / 2) ^ 53 := by positivity
  have h1 := Real.log_le_sub_one_of_pos hwpos
  have h2 := Real.one_sub_inv_le_log_of_pos hwpos
  have hneg : Real.log w < 0 := by linarith only [h1, hw1, p53]
  have hinv : w⁻¹ ≤ 2 ^ 70 := by
    rw [inv_le_comm₀ hwpos (by positivity)]
    have e : ((2 : ℝ) ^ 70)⁻¹ = (1 / 2) ^ 70 := by rw [one_div_pow, one_div]
    rw [e]
    exact hw0
  rw [abs_of_neg hneg]
  exact ⟨hneg, by linarith only [h1, hw1], by linarith only [h2, hinv]⟩

theorem scale_arith (s l : ℝ) (a b c d : ℝ) (ha : 0 < a) (hc : 0 < c)
    (s1 : a ≤ s) (s2 : s ≤ b) (l1 : c ≤ |l|) (l2 : |l| ≤ d) :
    a * c ≤ |s * l| ∧ |s * l| ≤ b * d := by
  have hs : 0 < s := lt_of_lt_of_le ha s1
  rw [abs_mul, abs_of_pos hs]
  constructor
  · exact mul_le_mul s1 l1 hc.le hs.le
  · exact mul_le_mul s2 l2 (abs_nonneg _) (le_trans hs.le s2)

theorem relax5 (u : ℝ) (hu0 : 0 < u) (hu : u ≤ 1 / 1024) :
    (u + u + u * u) + u + (u + u + u * u) * u ≤ 5 * u := by
  have k1 : u * u ≤ u * (1 / 1024) := mul_le_mul_of_nonneg_left hu hu0.le
  have k2 : u * u * u ≤ u * u * (1 / 1024) :=
    mul_le_mul_of_nonneg_left hu (mul_nonneg hu0.le hu0.le)
  linarith only [k1, k2, hu0]

/-- The rounded product of a rounded scale and the double logarithm of a double in `(0, 1]`
is within relative error `5 u` of the exact product. -/
theorem scaled_log_double (hF : F.Standard u) (hu : u ≤ 1 / 1024) (S S' w : ℝ)
    (hS : near u S S') (hS' : S' = 0 ∨ ((1 / 2) ^ 60 ≤ S' ∧ S' ≤ 2 ^ 70))
    (hw0 : (1 / 2) ^ 70 ≤ w) (hw1 : w = 1 ∨ w ≤ 1 - (1 / 2) ^ 53) :
    near (5 * u) (S * Real.log w) (F.rnd (S' * F.log w)) ∧
    (F.rnd (S' * F.log w) = 0 ∨
      ((1 / 2) ^ 116 ≤ |F.rnd (S' * F.log w)| ∧ |F.rnd (S' * F.log w)| ≤ 2 ^ 143)) := by
  have hu0 := std_u_pos hF
  rcases hw1 with rfl | hw1
  · rw [log_one_double hF, Real.log_one, mul_zero, mul_zero, rnd_zero hF]
    exact ⟨near_of_eq_zero _, Or.inl rfl⟩
  rcases hS' with h0 | ⟨s1, s2⟩
  · rw [h0] at hS ⊢
    have hS0 : S = 0 := by
      unfold near at hS
      rw [zero_sub, abs_neg] at hS
      by_contra hne
      have : 0 < |S| := abs_pos.mpr hne
      have k : u * |S| ≤ 1 / 1024 * |S| := mul_le_mul_of_nonneg_right hu this.le
      linarith only [hS, k, this]
    rw [hS0, zero_mul, zero_mul, rnd_zero hF]
    exact ⟨near_of_eq_zero _, Or.inl rfl⟩
  obtain ⟨hneg, lg1, lg2⟩ := log_double_bounds w hw0 hw1
  have hwpos : 0 < w := lt_of_lt_of_le (by positivity) hw0
  have hl : near u (Real.log w) (F.log w) := hF.log_err w hwpos
  have hla := near_abs_ge hl
  have hlb := near_abs_le hl
  have l1 : (1 / 2) ^ 54 ≤ |F.log w| := by
    have e : ((1 : ℝ) / 2) ^ 54 = 1 / 2 * (1 / 2) ^ 53 := by norm_num
    rw [e]
    have p53 : (0 : ℝ) < (1 / 2) ^ 53 := by positivity
    have k : 1 / 2 * |Real.log w| ≤ (1 - u) * |Real.log w| :=
      mul_le_mul_of_nonneg_right (by linarith only [hu]) (abs_nonneg _)
    generalize ((1 : ℝ) / 2) ^ 53 = c at lg1 p53 ⊢
    linarith only [k, hla, lg1]
  have l2 : |F.log w| ≤ 2 ^ 71 := by
    have e : (2 : ℝ) ^ 71 = 2 * 2 ^ 70 := by norm_num
    rw [e]
    have k : (1 + u) * |Real.log w| ≤ 2 * |Real.log w| :=
      mul_le_mul_of_nonneg_right (by linarith only [hu]) (abs_nonneg _)
    generalize (2 : ℝ) ^ 70 = c at lg2 ⊢
    linarith only [k, hlb, lg2]
  obtain ⟨m1, m2⟩ := scale_arith S' (F.log w) ((1 / 2) ^ 60) (2 ^ 70) ((1 / 2) ^ 54) (2 ^ 71)
    (by positivity) (by positivity) s1 s2 l1 l2
  rw [← pow_add] at m1 m2
  have hr := rnd_near_abs hF (S' * F.log w) (60 + 54) (70 + 71) (by norm_num) (by norm_num)
    m1 m2
  have ht := near_mono (near_trans (near_mul hS hl) hr hu0.le) (relax5 u hu0 hu)
  refine ⟨ht, Or.inr ⟨?_, ?_⟩⟩
  · have h := near_abs_ge hr
    have e : ((1 : ℝ) / 2) ^ 116 = 1 / 4 * (1 / 2) ^ (60 + 54) := by norm_num
    rw [e]
    have p : (0 : ℝ) < (1 / 2) ^ (60 + 54) := by positivity
    generalize ((1 : ℝ) / 2) ^ (60 + 54) = c at m1 p ⊢
    generalize |S' * F.log w| = M at m1 h
    generalize |F.rnd (S' * F.log w)| = V at h ⊢
    have k : 1 / 4 * M ≤ (1 - u) * M :=
      mul_le_mul_of_nonneg_right (by linarith only [hu]) (le_trans p.le m1)
    linarith only [k, h, m1]
  · have h := near_abs_le hr
    have e : (2 : ℝ) ^ 143 = 4 * 2 ^ (70 + 71) := by norm_num
    rw [e]
    have p : (0 : ℝ) < 2 ^ (70 + 71) := by positivity
    generalize (2 : ℝ) ^ (70 + 71) = c at m2 p ⊢
    have hM : 0 ≤ |S' * F.log w| := abs_nonneg _
    generalize |S' * F.log w| = M at m2 h hM
    generalize |F.rnd (S' * F.log w)| = V at h ⊢
    have k : (1 + u) * M ≤ 4 * M :=
      mul_le_mul_of_nonneg_right (by linarith only [hu]) hM
    linarith only [k, h, m2]

end ScaledLog

section ProbabilityPolicyDouble2

open f64.bloom_filter_false_positive_policy

variable {F : FloatOps} {u : ℝ}

theorem log_two_bounds : (69 : ℝ) / 100 < Real.log 2 ∧ Real.log 2 < 7 / 10 := by
  have h1 := Real.log_two_gt_d9
  have h2 := Real.log_two_lt_d9
  norm_num at h1 h2 ⊢
  exact ⟨by linarith only [h1], by linarith only [h2]⟩

theorem log_two_sq_bounds : (47 : ℝ) / 100 ≤ Real.log 2 * Real.log 2 := by
  obtain ⟨h1, -⟩ := log_two_bounds
  have k := mul_le_mul h1.le h1.le (by norm_num) (le_trans (by norm_num) h1.le)
  linarith only [k]

/-- The double value of `pow(log(2), 2)`. -/
theorem log_two_sq_double (hF : F.Standard u) (hu : u ≤ 1 / 1024) :
    near (5 * u) (Real.log 2 * Real.log 2) (F.pow (F.log 2) 2) ∧
    2 / 5 ≤ F.pow (F.log 2) 2 ∧ F.pow (F.log 2) 2 ≤ 3 / 5 := by
  have hu0 := std_u_pos hF
  obtain ⟨hL0, hL1⟩ := log_two_bounds
  have hLpos : (0 : ℝ) < Real.log 2 := lt_trans (by norm_num) hL0
  have hl : near u (Real.log 2) (F.log 2) := hF.log_err 2 (by norm_num)
  obtain ⟨a, b⟩ := near_pos hl hLpos
  have kL : u * Real.log 2 ≤ 1 / 1024 * Real.log 2 := mul_le_mul_of_nonneg_right hu hLpos.le
  have hlo : (68 : ℝ) / 100 ≤ F.log 2 := by linarith only [a, kL, hL0]
  have hhi : F.log 2 ≤ 71 / 100 := by linarith only [b, kL, hL1]
  have hpos : 0 < F.log 2 := lt_of_lt_of_le (by norm_num) hlo
  have hcast : (2 : ℝ) = ((2 : ℕ) : ℝ) := by norm_num
  have hX : F.log 2 ^ (2 : ℝ) = F.log 2 * F.log 2 := by
    rw [hcast, Real.rpow_natCast, pow_two]
  have hsq_lo : (46 : ℝ) / 100 ≤ F.log 2 * F.log 2 := by
    have k := mul_le_mul hlo hlo (by norm_num) hpos.le
    linarith only [k]
  have hsq_hi : F.log 2 * F.log 2 ≤ 51 / 100 := by
    have k := mul_le_mul hhi hhi hpos.le (by norm_num)
    linarith only [k]
  have hsqpos : 0 < F.log 2 * F.log 2 := lt_of_lt_of_le (by norm_num) hsq_lo
  have hpe := hF.pow_err (F.log 2) 2 hpos
    (by rw [hX]
        have := double_min_le 2 (by norm_num)
        norm_num at this ⊢
        linarith only [this, hsq_lo])
    (by rw [hX]
        have := le_double_max 0 (by norm_num)
        rw [pow_zero] at this
        linarith only [this, hsq_hi])
  rw [hX] at hpe
  have hq : near u (F.log 2 * F.log 2) (F.pow (F.log 2) 2) := by
    unfold near
    rw [abs_of_pos hsqpos]
    exact hpe
  have ht := near_mono (near_trans (near_mul hl hl) hq hu0.le) (relax5 u hu0 hu)
  obtain ⟨c, d⟩ := near_pos hq hsqpos
  have kq : u * (F.log 2 * F.log 2) ≤ 1 / 1024 * (F.log 2 * F.log 2) :=
    mul_le_mul_of_nonneg_right hu hsqpos.le
  exact ⟨ht, by linarith only [c, kq, hsq_lo], by linarith only [d, kq, hsq_hi]⟩

theorem relax12 (u : ℝ) (hu0 : 0 < u) (hu : u ≤ 1 / 1024) :
    5 * u + 5 * u / (1 - 5 * u) + 5 * u * (5 * u / (1 - 5 * u)) ≤ 12 * u := by
  have h1 : 0 < 1 - 5 * u := by linarith only [hu]
  have k : u * u ≤ u * (1 / 1024) := mul_le_mul_of_nonneg_left hu hu0.le
  have hw : 5 * u / (1 - 5 * u) ≤ 6 * u := by
    rw [div_le_iff₀ h1]
    linarith only [k, hu0]
  have hw0 : 0 ≤ 5 * u / (1 - 5 * u) := div_nonneg (mul_nonneg (by norm_num) hu0.le) h1.le
  have k2 : 5 * u * (5 * u / (1 - 5 * u)) ≤ 5 / 1024 * (5 * u / (1 - 5 * u)) :=
    mul_le_mul_of_nonneg_right (by linarith only [hu]) hw0
  linarith only [hw, k2, hw0, hu0]

theorem relax14 (u : ℝ) (hu0 : 0 < u) (hu : u ≤ 1 / 1024) :
    12 * u + u + 12 * u * u ≤ 14 * u := by
  have k : u * u ≤ u * (1 / 1024) := mul_le_mul_of_nonneg_left hu hu0.le
  linarith only [k, hu0]

/-- Dividing the rounded numerator by the double `pow(log(2), 2)` and rounding. -/
theorem quotient_double (hF : F.Standard u) (hu : u ≤ 1 / 1024) (T m : ℝ)
    (hm : near (5 * u) T m)
    (hrange : m = 0 ∨ ((1 / 2) ^ 116 ≤ |m| ∧ |m| ≤ 2 ^ 143)) :
    near (14 * u) (T / (Real.log 2 * Real.log 2)) (F.rnd (m / F.pow (F.log 2) 2)) := by
  have hu0 := std_u_pos hF
  obtain ⟨hq, q1, q2⟩ := log_two_sq_double hF hu
  have hL0 : (0 : ℝ) < Real.log 2 := Real.log_pos (by norm_num)
  have hQ : Real.log 2 * Real.log 2 ≠ 0 := by positivity
  have hd := near_mono (near_div hm hq (by linarith only [hu]) hQ) (relax12 u hu0 hu)
  rcases hrange with h0 | ⟨r1, r2⟩
  · rw [h0] at hm ⊢
    have hT : T = 0 := by
      unfold near at hm
      rw [zero_sub, abs_neg] at hm
      by_contra hne
      have : 0 < |T| := abs_pos.mpr hne
      have k : 5 * u * |T| ≤ 5 / 1024 * |T| :=
        mul_le_mul_of_nonneg_right (by linarith only [hu]) this.le
      linarith only [hm, k, this]
    rw [hT, zero_div, zero_div, rnd_zero hF]
    exact near_of_eq_zero _
  · have hqpos : 0 < F.pow (F.log 2) 2 := lt_of_lt_of_le (by norm_num) q1
    have hr := rnd_near_abs hF (m / F.pow (F.log 2) 2) 116 145 (by norm_num) (by norm_num)
      (by
        rw [abs_div, abs_of_pos hqpos, le_div_iff₀ hqpos]
        have p : (0 : ℝ) < (1 / 2) ^ 116 := by positivity
        generalize ((1 : ℝ) / 2) ^ 116 = c at r1 p ⊢
        have k : c * F.pow (F.log 2) 2 ≤ c * (3 / 5) := mul_le_mul_of_nonneg_left q2 p.le
        linarith only [k, r1, p])
      (by
        rw [abs_div, abs_of_pos hqpos, div_le_iff₀ hqpos]
        have e : (2 : ℝ) ^ 145 = 4 * 2 ^ 143 := by norm_num
        rw [e]
        have p : (0 : ℝ) < 2 ^ 143 := by positivity
        generalize (2 : ℝ) ^ 143 = c at r2 p ⊢
        have k : 4 * c * (2 / 5) ≤ 4 * c * F.pow (F.log 2) 2 :=
          mul_le_mul_of_nonneg_left q1 (by linarith only [p])
        linarith only [k, r2, p])
    exact near_mono (near_trans hd hr hu0.le) (relax14 u hu0 hu)

theorem final_error_arith (u n x Y Y' d Li Q : ℝ) (hu0 : 0 < u) (hu : u ≤ 1 / 1024)
    (hn : 0 ≤ n) (hQ : 47 / 100 ≤ Q)
    (hY : Y' - Y = n * Li / Q) (hLi : |Li| ≤ 12 * u)
    (hx : |Y| = x) (hd : |d - Y'| ≤ 14 * u * |Y'|) :
    |d - Y| ≤ u * (14 * x + 28 * n) := by
  have hQpos : 0 < Q := lt_of_lt_of_le (by norm_num) hQ
  have hun : 0 ≤ u * n := mul_nonneg hu0.le hn
  have h1 : |Y' - Y| ≤ 26 * u * n := by
    rw [hY, abs_div, abs_mul, abs_of_nonneg hn, abs_of_pos hQpos, div_le_iff₀ hQpos]
    have k1 : n * |Li| ≤ n * (12 * u) := mul_le_mul_of_nonneg_left hLi hn
    have k2 : u * n * (47 / 100) ≤ u * n * Q := mul_le_mul_of_nonneg_left hQ hun
    linarith only [k1, k2, hun]
  have h2 : |Y'| ≤ x + 26 * u * n := by
    have := abs_add (Y' - Y) Y
    rw [sub_add_cancel] at this
    linarith only [this, h1, hx]
  have h3 : |d - Y| ≤ |d - Y'| + |Y' - Y| := by
    have := abs_add (d - Y') (Y' - Y)
    rw [sub_add_sub_cancel] at this
    exact this
  have hx0 : 0 ≤ x := by rw [← hx]; exact abs_nonneg _
  have h4 : 14 * u * |Y'| ≤ 14 * u * (x + 26 * u * n) :=
    mul_le_mul_of_nonneg_left h2 (mul_nonneg (by norm_num) hu0.le)
  have k3 : u * (u * n) ≤ 1 / 1024 * (u * n) := mul_le_mul_of_nonneg_right hu hun
  linarith only [h3, hd, h4, h1, k3, hun]

/-- The double the probability-driven policy truncates, against the exact real value. -/
theorem num_buckets_double_error (hF : F.Standard u) (hu : u ≤ 1 / 1024) (N : Nat)
    (Num Denom : Int) (hN : N < 2 ^ 64) (hNum : |Num| < 2 ^ 63) (hDen : |Denom| < 2 ^ 63)
    (hp0 : 0 < (Num : ℝ) / (Denom : ℝ)) (hp1 : (Num : ℝ) / (Denom : ℝ) < 1)
    (hacc : accepted F Num Denom) :
    0 ≤ -(F.rnd (F.rnd (F.rnd (N : ℝ) * F.log (false_positive_probability F Num Denom)) /
        F.pow (F.log 2) 2)) ∧
    |-(F.rnd (F.rnd (F.rnd (N : ℝ) * F.log (false_positive_probability F Num Denom)) /
        F.pow (F.log 2) 2)) -
      -((N : ℝ) * Real.log ((Num : ℝ) / (Denom : ℝ))) / (Real.log 2) ^ 2| ≤
      u * (14 * (-((N : ℝ) * Real.log ((Num : ℝ) / (Denom : ℝ))) / (Real.log 2) ^ 2) +
        28 * (N : ℝ)) := by
  have hu0 := std_u_pos hF
  obtain ⟨hpn, hplo, hphi⟩ := fpp_double_near hF hu Num Denom hNum hDen hp0
  obtain ⟨hacc0, hacc1⟩ := hacc
  have hp'1 : false_positive_probability F Num Denom ≤ 1 - (1 / 2) ^ 53 :=
    hF.rnd_lt_one _ hacc1
  have hp'0 : (1 / 2) ^ 70 ≤ false_positive_probability F Num Denom := by
    have h := (near_pos hpn hp0).1
    have e : ((1 : ℝ) / 2) ^ 70 = (1 / 2) ^ 7 * (1 / 2) ^ 63 := by rw [← pow_add]
    have e7 : ((1 : ℝ) / 2) ^ 7 = 1 / 128 := by norm_num
    rw [e, e7]
    have p : (0 : ℝ) < (1 / 2) ^ 63 := by positivity
    have k : 1 / 128 * ((Num : ℝ) / (Denom : ℝ)) ≤ (1 - 6 * u) * ((Num : ℝ) / (Denom : ℝ)) :=
      mul_le_mul_of_nonneg_right (by linarith only [hu]) hp0.le
    generalize ((1 : ℝ) / 2) ^ 63 = c at hplo p ⊢
    linarith only [k, h, hplo]
  obtain ⟨hlogpert_pos, hlogpert⟩ := log_near hpn hp0 (by linarith only [hu0])
    (by linarith only [hu])
  clear hplo hphi hNum hDen
  generalize false_positive_probability F Num Denom = p' at *
  -- the scale
  have hS : near u (N : ℝ) (F.rnd (N : ℝ)) ∧
      (F.rnd (N : ℝ) = 0 ∨ ((1 / 2) ^ 60 ≤ F.rnd (N : ℝ) ∧ F.rnd (N : ℝ) ≤ 2 ^ 70)) := by
    rcases Nat.eq_zero_or_pos N with h0 | hpos
    · subst h0
      rw [Nat.cast_zero, rnd_zero hF]
      exact ⟨near_of_eq_zero _, Or.inl rfl⟩
    · obtain ⟨b1, b2⟩ := rnd_nat_bounds hF (by linarith only [hu]) N hpos hN
      refine ⟨rnd_nat_near hF N hpos hN, Or.inr ⟨?_, ?_⟩⟩
      · have : ((1 : ℝ) / 2) ^ 60 ≤ (1 / 2) ^ 1 :=
          pow_le_pow_of_le_one (by norm_num) (by norm_num) (by norm_num)
        rw [pow_one] at this
        exact le_trans this b1
      · have : (2 : ℝ) ^ 65 ≤ 2 ^ 70 := pow_le_pow_right₀ (by norm_num) (by norm_num)
        exact le_trans b2 this
  obtain ⟨hm, hmrange⟩ := scaled_log_double hF hu (N : ℝ) (F.rnd (N : ℝ)) p' hS.1 hS.2 hp'0
    (Or.inr hp'1)
  have hd := quotient_double hF hu _ _ hm hmrange
  generalize F.rnd (F.rnd (F.rnd (N : ℝ) * F.log p') / F.pow (F.log 2) 2) = d at hd ⊢
  have hQ := log_two_sq_bounds
  have hQpos : 0 < Real.log 2 * Real.log 2 := lt_of_lt_of_le (by norm_num) hQ
  have hsq : (Real.log 2) ^ 2 = Real.log 2 * Real.log 2 := pow_two _
  rw [hsq]
  have hlogp : Real.log ((Num : ℝ) / (Denom : ℝ)) < 0 := Real.log_neg hp0 hp1
  have hlogp' : Real.log p' < 0 := Real.log_neg hlogpert_pos hacc1
  have hn : (0 : ℝ) ≤ (N : ℝ) := Nat.cast_nonneg N
  generalize Real.log ((Num : ℝ) / (Denom : ℝ)) = L at hlogp hlogpert ⊢
  generalize Real.log p' = L' at hlogp' hlogpert hd hm
  generalize Real.log 2 * Real.log 2 = Q at hQ hQpos hd ⊢
  generalize (N : ℝ) = n at hn hd ⊢
  have hY'nonpos : n * L' / Q ≤ 0 := by
    apply div_nonpos_of_nonpos_of_nonneg _ hQpos.le
    exact mul_nonpos_of_nonneg_of_nonpos hn hlogp'.le
  have hYnonpos : n * L / Q ≤ 0 := by
    apply div_nonpos_of_nonpos_of_nonneg _ hQpos.le
    exact mul_nonpos_of_nonneg_of_nonpos hn hlogp.le
  constructor
  · -- sign
    unfold near at hd
    rw [abs_of_nonpos hY'nonpos] at hd
    have h2 := (abs_le.mp hd).2
    have h3 : 0 ≤ (1 - 14 * u) * -(n * L' / Q) :=
      mul_nonneg (by linarith only [hu]) (neg_nonneg.mpr hY'nonpos)
    linarith only [h2, h3]
  · have e1 : -d - -(n * L) / Q = -(d - n * L / Q) := by ring
    have e2 : -(n * L) / Q = |n * L / Q| := by
      rw [abs_of_nonpos hYnonpos]; ring
    rw [e1, abs_neg, e2]
    apply final_error_arith u n _ (n * L / Q) (n * L' / Q) d (L' - L) Q hu0 hu hn hQ
      (by ring) (by linarith only [hlogpert]) rfl
    unfold near at hd
    exact hd

end ProbabilityPolicyDouble2

section ProbabilityPolicyDouble3

open f64.bloom_filter_false_positive_policy

variable {F : FloatOps} {u : ℝ}

/-- A ratio whose double passes the policy's static check lies in (0,1) exactly. -/
theorem accepted_double_exact (hF : F.Standard u) (Num Denom : Int)
    (hacc : accepted F Num Denom) :
    0 < (Num : ℝ) / (Denom : ℝ) ∧ (Num : ℝ) / (Denom : ℝ) < 1 := by
  obtain ⟨h0, h1⟩ := hacc
  unfold false_positive_probability at h0 h1
  have hq0 : 0 < F.rnd (Num : ℝ) / F.rnd (Denom : ℝ) := by
    by_contra h
    push_neg at h
    exact absurd (rnd_nonpos hF _ h) (not_le.mpr h0)
  have hq1 : F.rnd (Num : ℝ) / F.rnd (Denom : ℝ) < 1 := by
    by_contra h
    push_neg at h
    have := hF.rnd_mono _ _ h
    rw [rnd_one hF] at this
    exact absurd h1 (not_lt.mpr this)
  have hm1 : F.rnd (-1 : ℝ) = -1 := by
    have := hF.rnd_int (-1) (by norm_num)
    simpa using this
  rcases lt_trichotomy Denom 0 with hD | hD | hD
  · have hD1 : (Denom : ℝ) ≤ -1 := by
      have : Denom ≤ -1 := by omega
      exact_mod_cast this
    have hrD : F.rnd (Denom : ℝ) ≤ -1 := by
      have := hF.rnd_mono _ _ hD1
      rwa [hm1] at this
    have hrD0 : F.rnd (Denom : ℝ) < 0 := lt_of_le_of_lt hrD (by norm_num)
    have hrN : F.rnd (Num : ℝ) < 0 := by
      rcases div_pos_iff.mp hq0 with ⟨_, b⟩ | ⟨a, _⟩
      · exact absurd b (not_lt.mpr hrD0.le)
      · exact a
    have hN : (Num : ℝ) < 0 := by
      by_contra h
      push_neg at h
      exact absurd (rnd_nonneg hF _ h) (not_le.mpr hrN)
    have hDr : (Denom : ℝ) < 0 := lt_of_le_of_lt hD1 (by norm_num)
    refine ⟨div_pos_of_neg_of_neg hN hDr, ?_⟩
    by_contra h
    push_neg at h
    have hle : (Num : ℝ) ≤ (Denom : ℝ) := by
      rw [le_div_iff_of_neg hDr, one_mul] at h
      exact h
    have hmono := hF.rnd_mono _ _ hle
    have : 1 ≤ F.rnd (Num : ℝ) / F.rnd (Denom : ℝ) := by
      rw [le_div_iff_of_neg hrD0, one_mul]
      exact hmono
    exact absurd hq1 (not_lt.mpr this)
  · subst hD
    rw [Int.cast_zero, rnd_zero hF, div_zero] at hq0
    exact absurd hq0 (lt_irrefl _)
  · have hD1 : (1 : ℝ) ≤ (Denom : ℝ) := by
      have : (1 : ℤ) ≤ Denom := by omega
      exact_mod_cast this
    have hrD : 1 ≤ F.rnd (Denom : ℝ) := by
      have := hF.rnd_mono _ _ hD1
      rwa [rnd_one hF] at this
    have hrD0 : 0 < F.rnd (Denom : ℝ) := lt_of_lt_of_le one_pos hrD
    have hrN : 0 < F.rnd (Num : ℝ) := by
      rcases div_pos_iff.mp hq0 with ⟨a, _⟩ | ⟨_, b⟩
      · exact a
      · exact absurd b (not_lt.mpr hrD0.le)
    have hN : 0 < (Num : ℝ) := by
      by_contra h
      push_neg at h
      exact absurd (rnd_nonpos hF _ h) (not_le.mpr hrN)
    have hDr : 0 < (Denom : ℝ) := lt_of_lt_of_le one_pos hD1
    refine ⟨div_pos hN hDr, ?_⟩
    by_contra h
    push_neg at h
    have hle : (Denom : ℝ) ≤ (Num : ℝ) := by
      rw [le_div_iff₀ hDr, one_mul] at h
      exact h
    have hmono := hF.rnd_mono _ _ hle
    have : 1 ≤ F.rnd (Num : ℝ) / F.rnd (Denom : ℝ) := by
      rw [le_div_iff₀ hrD0, one_mul]
      exact hmono
    exact absurd hq1 (not_lt.mpr this)

/-- Converting a non-negative double that is within `e` of `x` to `std::size_t`. -/
theorem to_size_t_near (y x e : ℝ) (hy : 0 ≤ y) (h : |y - x| ≤ e) (hx : x + e < 2 ^ 64) :
    ∃ m : Nat, to_size_t y = some m ∧ x - e - 1 < (m : ℝ) ∧ (m : ℝ) ≤ x + e ∧
      ∀ k : Nat, (k : ℝ) + e ≤ x → x + e < (k : ℝ) + 1 → m = k := by
  obtain ⟨a, b⟩ := abs_le.mp h
  refine ⟨⌊y⌋₊, ?_, ?_, ?_, ?_⟩
  · unfold to_size_t
    rw [if_pos]
    constructor
    · linarith only [hy]
    · generalize (2 : ℝ) ^ 64 = c at hx ⊢
      linarith only [b, hx]
  · have := Nat.lt_floor_add_one y
    linarith only [this, a]
  · have := Nat.floor_le hy
    linarith only [this, b]
  · intro k h1 h2
    rw [Nat.floor_eq_iff hy]
    constructor
    · linarith only [h1, a]
    · linarith only [h2, b]

/-- The bucket count the probability-driven policy derives in double arithmetic, against the
exact real value of the sizing formula. -/
theorem num_buckets_double_near (hF : F.Standard u) (hu : u ≤ 1 / 1024) (N : Nat)
    (Num Denom : Int) (hN : N < 2 ^ 64) (hNum : |Num| < 2 ^ 63) (hDen : |Denom| < 2 ^ 63)
    (hacc : accepted F Num Denom)
    (hx : spec_bucket_count N ((Num : ℝ) / (Denom : ℝ)) +
      u * (14 * spec_bucket_count N ((Num : ℝ) / (Denom : ℝ)) + 28 * (N : ℝ)) < 2 ^ 64) :
    ∃ m : Nat, num_buckets F N Num Denom = some m ∧
      spec_bucket_count N ((Num : ℝ) / (Denom : ℝ)) -
        u * (14 * spec_bucket_count N ((Num : ℝ) / (Denom : ℝ)) + 28 * (N : ℝ)) - 1 < (m : ℝ) ∧
      (m : ℝ) ≤ spec_bucket_count N ((Num : ℝ) / (Denom : ℝ)) +
        u * (14 * spec_bucket_count N ((Num : ℝ) / (Denom : ℝ)) + 28 * (N : ℝ)) ∧
      ∀ k : Nat,
        (k : ℝ) + u * (14 * spec_bucket_count N ((Num : ℝ) / (Denom : ℝ)) + 28 * (N : ℝ)) ≤
          spec_bucket_count N ((Num : ℝ) / (Denom : ℝ)) →
        spec_bucket_count N ((Num : ℝ) / (Denom : ℝ)) +
          u * (14 * spec_bucket_count N ((Num : ℝ) / (Denom : ℝ)) + 28 * (N : ℝ)) <
            (k : ℝ) + 1 →
        m = k := by
  obtain ⟨hp0, hp1⟩ := accepted_double_exact hF Num Denom hacc
  obtain ⟨hsign, herr⟩ := num_buckets_double_error hF hu N Num Denom hN hNum hDen hp0 hp1 hacc
  unfold num_buckets
  unfold spec_bucket_count at hx ⊢
  exact to_size_t_near _ _ _ hsign herr hx

theorem inv_log_two_bounds :
    (144 : ℝ) / 100 ≤ spec_bucket_count 1 (((1 : Int) : ℝ) / ((2 : Int) : ℝ)) ∧
    spec_bucket_count 1 (((1 : Int) : ℝ) / ((2 : Int) : ℝ)) ≤ 145 / 100 := by
  have hL0 : (69 : ℝ) / 100 < Real.log 2 := log_two_bounds.1
  have hL1 : Real.log 2 < 694 / 1000 := by
    have := Real.log_two_lt_d9
    norm_num at this ⊢
    linarith only [this]
  have hLpos : (0 : ℝ) < Real.log 2 := lt_trans (by norm_num) hL0
  have hx : spec_bucket_count 1 (((1 : Int) : ℝ) / ((2 : Int) : ℝ)) = 1 / Real.log 2 := by
    unfold spec_bucket_count
    have : Real.log (((1 : Int) : ℝ) / ((2 : Int) : ℝ)) = -Real.log 2 := by
      push_cast
      rw [one_div, Real.log_inv]
    rw [this]
    field_simp
    ring
  rw [hx]
  constructor
  · rw [le_div_iff₀ hLpos]
    linarith only [hL1]
  · rw [div_le_iff₀ hLpos]
    linarith only [hL0]

/-- Expected cardinality 1 with p = 1/2 passes the static check and derives one bucket. -/
theorem num_buckets_double_one_half (hF : F.Standard u) (hu : u ≤ 1 / 1024) :
    accepted F 1 2 ∧ num_buckets F 1 1 2 = some 1 := by
  have hu0 := std_u_pos hF
  have hacc : accepted F 1 2 := by
    unfold accepted false_positive_probability
    have h2 : F.rnd ((2 : Int) : ℝ) = 2 := by
      have := hF.rnd_int 2 (by norm_num)
      simpa using this
    rw [h2, Int.cast_one, rnd_one hF]
    obtain ⟨a, b⟩ := rnd_bounds hF (1 / 2) (by norm_num)
      (by have := double_min_le 1 (by norm_num); simpa using this)
      (by have := le_double_max 0 (by norm_num); rw [pow_zero] at this; linarith only [this])
    constructor
    · linarith only [a, hu]
    · linarith only [b, hu]
  refine ⟨hacc, ?_⟩
  obtain ⟨b1, b2⟩ := inv_log_two_bounds
  have he : u * (14 * spec_bucket_count 1 (((1 : Int) : ℝ) / ((2 : Int) : ℝ)) +
      28 * ((1 : Nat) : ℝ)) ≤ 1 / 20 := by
    rw [Nat.cast_one]
    have k := mul_le_mul hu (show 14 * spec_bucket_count 1 (((1 : Int) : ℝ) / ((2 : Int) : ℝ))
      + 28 * 1 ≤ 49 by linarith only [b2]) (by linarith only [b1]) (by norm_num)
    linarith only [k]
  have he0 : 0 ≤ u * (14 * spec_bucket_count 1 (((1 : Int) : ℝ) / ((2 : Int) : ℝ)) +
      28 * ((1 : Nat) : ℝ)) := by
    rw [Nat.cast_one]
    apply mul_nonneg hu0.le
    linarith only [b1]
  obtain ⟨m, hm, -, -, hk⟩ := num_buckets_double_near hF hu 1 1 2 (by norm_num) (by norm_num)
    (by norm_num) hacc (by
      have : (2 : ℝ) ≤ 2 ^ 64 := by norm_num
      linarith only [this, b2, he])
  rw [hm, hk 1 (by rw [Nat.cast_one]; linarith only [b1, he])
    (by rw [Nat.cast_one]; linarith only [b2, he])]

theorem spec_ceil_one_half :
    Nat.ceil (spec_bucket_count 1 (((1 : Int) : ℝ) / ((2 : Int) : ℝ))) = 2 := by
  obtain ⟨b1, b2⟩ := inv_log_two_bounds
  rw [Nat.ceil_eq_iff (by decide)]
  constructor
  · push_cast
    linarith only [b1]
  · push_cast
    linarith only [b2]

end ProbabilityPolicyDouble3

/-! ## Lemmas: the cardinality estimate in double arithmetic -/

section EstimateDouble

variable {F : FloatOps} {u : ℝ}

/-- The double `1. - q'` for a fill ratio `q` of a filter that is not full. -/
theorem ratio_complement_double (hF : F.Standard u) (hu : u ≤ 1 / 1024) (q im : ℝ)
    (him : 8 * u ≤ im) (hq0 : q = 0 ∨ im ≤ q) (hq1 : q ≤ 1 - im) :
    near (u * (q / (1 - q)) + u + u * (q / (1 - q)) * u) (1 - q) (F.rnd (1 - F.rnd q)) ∧
    (1 / 2) ^ 70 ≤ F.rnd (1 - F.rnd q) ∧
    (F.rnd (1 - F.rnd q) = 1 ∨ F.rnd (1 - F.rnd q) ≤ 1 - (1 / 2) ^ 53) := by
  have hu0 := std_u_pos hF
  have hu53 := hF.u_ge
  have e50 : ((1 : ℝ) / 2) ^ 50 = 8 * (1 / 2) ^ 53 := by norm_num
  have e51 : ((1 : ℝ) / 2) ^ 51 = 4 * (1 / 2) ^ 53 := by norm_num
  have e70 : ((1 : ℝ) / 2) ^ 70 ≤ (1 / 2) ^ 53 :=
    pow_le_pow_of_le_one (by norm_num) (by norm_num) (by norm_num)
  have hu1 : u ≤ 1 := le_trans hu (by norm_num)
  have hqnn : 0 ≤ q := by
    rcases hq0 with h | h
    · rw [h]
    · linarith only [h, him, hu0]
  have ht : near u q (F.rnd q) := by
    rcases hq0 with h | h
    · rw [h, rnd_zero hF]
      exact near_of_eq_zero _
    · apply rnd_near_of_pow hF q 50 0 (by norm_num) (by norm_num)
      · rw [e50]; linarith only [h, him, hu53]
      · rw [pow_zero]; linarith only [hq1, him, hu0]
  have hc53 : (0 : ℝ) < (1 / 2) ^ 53 := by positivity
  have hlt := hF.rnd_lt_one (1 - F.rnd q)
  generalize ((1 : ℝ) / 2) ^ 53 = c53 at hu53 e50 e51 e70 hc53 hlt ⊢
  have htb : |F.rnd q - q| ≤ u * q := by
    have := ht
    unfold near at this
    rwa [abs_of_nonneg hqnn] at this
  obtain ⟨tb1, tb2⟩ := abs_le.mp htb
  have h1q : 0 < 1 - q := by linarith only [hq1, him, hu0]
  have hv : near (u * (q / (1 - q))) (1 - q) (1 - F.rnd q) := by
    unfold near
    rw [abs_of_pos h1q]
    have e1 : 1 - F.rnd q - (1 - q) = -(F.rnd q - q) := by ring
    have e2 : u * (q / (1 - q)) * (1 - q) = u * q := by
      field_simp
    rw [e1, abs_neg, e2]
    exact htb
  have huq : u * q ≤ u := mul_le_of_le_one_right hu0.le (by linarith only [hq1, him, hu0])
  have huq2 : u * q ≤ q := mul_le_of_le_one_left hqnn hu1
  have hvlo : 7 * u ≤ 1 - F.rnd q := by linarith only [tb2, huq, hq1, him]
  have hvhi : 1 - F.rnd q ≤ 1 := by linarith only [tb1, huq2]
  have hw : near u (1 - F.rnd q) (F.rnd (1 - F.rnd q)) := by
    apply rnd_near_of_pow hF _ 51 0 (by norm_num) (by norm_num)
    · rw [e51]; linarith only [hvlo, hu53, hu0]
    · rw [pow_zero]; exact hvhi
  refine ⟨near_trans hv hw hu0.le, ?_, ?_⟩
  · obtain ⟨a, -⟩ := near_pos hw (lt_of_lt_of_le (mul_pos (by norm_num) hu0) hvlo)
    have a' : (1 - u) * (7 * u) ≤ (1 - u) * (1 - F.rnd q) :=
      mul_le_mul_of_nonneg_left hvlo (by linarith only [hu1])
    have h7 : u * u ≤ u * (1 / 1024) := mul_le_mul_of_nonneg_left hu hu0.le
    linarith only [a, a', h7, hu0, hu53, e70]
  · have hle := rnd_le_one hF _ hvhi
    by_cases h : F.rnd (1 - F.rnd q) < 1
    · exact Or.inr (hlt h)
    · exact Or.inl (le_antisymm hle (not_lt.mp h))

theorem estimate_error_arith (u S x Y Y' d Li c R ρ : ℝ) (hu0 : 0 < u) (hu : u ≤ 1 / 1024)
    (hS : 0 ≤ S) (hρ : 0 ≤ ρ) (hR : R = ρ + 1) (hc : c = u * ρ + u + u * ρ * u)
    (hY : Y' - Y = S * Li) (hLi : |Li| ≤ 2 * c)
    (hx : |Y| = x) (hd : |d - Y'| ≤ 5 * u * |Y'|) :
    |d - Y| ≤ u * (5 * x + 3 * S * R) := by
  have hR0 : 0 ≤ R := by linarith only [hR, hρ]
  have hB : 0 ≤ u * (S * R) := mul_nonneg hu0.le (mul_nonneg hS hR0)
  have hcR : c ≤ u * R * (1 + u) := by
    have huu : 0 ≤ u * u := mul_nonneg hu0.le hu0.le
    rw [hc, hR]
    linarith only [huu]
  have h1 : |Y' - Y| ≤ 2 * (1 + u) * (u * (S * R)) := by
    rw [hY, abs_mul, abs_of_nonneg hS]
    have a1 : S * |Li| ≤ S * (2 * c) := mul_le_mul_of_nonneg_left hLi hS
    have a2 : S * c ≤ S * (u * R * (1 + u)) := mul_le_mul_of_nonneg_left hcR hS
    linarith only [a1, a2]
  have h2 : |Y'| ≤ x + 2 * (1 + u) * (u * (S * R)) := by
    have := abs_add (Y' - Y) Y
    rw [sub_add_cancel] at this
    linarith only [this, h1, hx]
  have h3 : |d - Y| ≤ |d - Y'| + |Y' - Y| := by
    have := abs_add (d - Y') (Y' - Y)
    rw [sub_add_sub_cancel] at this
    exact this
  have hx0 : 0 ≤ x := by rw [← hx]; exact abs_nonneg _
  have h4 : 5 * u * |Y'| ≤ 5 * u * (x + 2 * (1 + u) * (u * (S * R))) :=
    mul_le_mul_of_nonneg_left h2 (mul_nonneg (by norm_num) hu0.le)
  have e : u * (5 * x + 3 * S * R) = 5 * u * x + 3 * (u * (S * R)) := by ring
  rw [e]
  generalize u * (S * R) = B at hB h1 h2 h4 ⊢
  have hBu : 0 ≤ u * B := mul_nonneg hu0.le hB
  have hBuu : 0 ≤ u * (u * B) := mul_nonneg hu0.le hBu
  have hBu1 : u * B ≤ 1 / 1024 * B := mul_le_mul_of_nonneg_right hu hB
  have hBuu1 : u * (u * B) ≤ 1 / 1024 * (u * B) := mul_le_mul_of_nonneg_right hu hBu
  have h5 : |d - Y| ≤ 5 * u * (x + 2 * (1 + u) * B) + 2 * (1 + u) * B := by
    linarith only [h3, hd, h4, h1]
  have e2 : 5 * u * (x + 2 * (1 + u) * B) + 2 * (1 + u) * B =
      5 * u * x + 2 * B + 12 * (u * B) + 10 * (u * (u * B)) := by ring
  rw [e2] at h5
  linarith only [h5, hBu1, hBuu1, hB, hBu, hBuu]

theorem estimate_assemble (u S d L L' R ρ : ℝ) (hu0 : 0 < u) (hu : u ≤ 1 / 1024)
    (hS : 0 < S) (hρ0 : 0 ≤ ρ) (hR : R = ρ + 1) (hL' : L' ≤ 0) (hL : L ≤ 0)
    (hlog : |L' - L| ≤ 2 * (u * ρ + u + u * ρ * u)) (hm : near (5 * u) (S * L') d) :
    0 ≤ -d ∧ |-d - -(S * L)| ≤ u * (5 * -(S * L) + 3 * S * R) := by
  have hY' : S * L' ≤ 0 := mul_nonpos_of_nonneg_of_nonpos hS.le hL'
  have hY : S * L ≤ 0 := mul_nonpos_of_nonneg_of_nonpos hS.le hL
  unfold near at hm
  constructor
  · rw [abs_of_nonpos hY'] at hm
    have h2 := (abs_le.mp hm).2
    have h3 : 0 ≤ (1 - 5 * u) * -(S * L') :=
      mul_nonneg (by linarith only [hu]) (neg_nonneg.mpr hY')
    linarith only [h2, h3]
  · have e1 : -d - -(S * L) = -(d - S * L) := by ring
    have e2 : -(S * L) = |S * L| := by rw [abs_of_nonpos hY]
    rw [e1, abs_neg, e2]
    exact estimate_error_arith u S _ (S * L) (S * L') d (L' - L) _ R ρ hu0 hu hS.le hρ0 hR rfl
      (by ring) hlog rfl hm

theorem scale_range (u S r : ℝ) (hu0 : 0 < u) (hu : u ≤ 1 / 1024) (hS0 : (1 / 2) ^ 53 ≤ S)
    (hS1 : S ≤ 2 ^ 53) (h : near u S r) : (1 / 2) ^ 60 ≤ r ∧ r ≤ 2 ^ 70 := by
  have p : (0 : ℝ) < (1 / 2) ^ 53 := by positivity
  have hSpos : 0 < S := lt_of_lt_of_le p hS0
  obtain ⟨a, b⟩ := near_pos h hSpos
  have e60 : ((1 : ℝ) / 2) ^ 60 = 1 / 128 * (1 / 2) ^ 53 := by norm_num
  have e70 : (2 : ℝ) ^ 70 = 131072 * 2 ^ 53 := by norm_num
  have q : (0 : ℝ) < 2 ^ 53 := by positivity
  rw [e60, e70]
  have h1 : u * S ≤ 1 / 1024 * S := mul_le_mul_of_nonneg_right hu hSpos.le
  have h2 : 0 ≤ u * S := mul_nonneg hu0.le hSpos.le
  generalize ((1 : ℝ) / 2) ^ 53 = c at hS0 p ⊢
  generalize (2 : ℝ) ^ 53 = C at hS1 q ⊢
  constructor
  · linarith only [a, h1, hS0, p]
  · linarith only [b, h1, hS1, q, h2]

theorem nat_le_of_load (u : ℝ) (M : Nat) (hu53 : (1 / 2 : ℝ) ^ 53 ≤ u)
    (hMu : 8 * u * (M : ℝ) ≤ 1) : (M : ℝ) ≤ 2 ^ 50 := by
  have hM0 : (0 : ℝ) ≤ (M : ℝ) := Nat.cast_nonneg M
  have e : ((1 : ℝ) / 2) ^ 53 * 2 ^ 50 = 1 / 8 := by norm_num
  have p : (0 : ℝ) < (1 / 2) ^ 53 := by positivity
  have h1 : (1 / 2 : ℝ) ^ 53 * (M : ℝ) ≤ u * (M : ℝ) := mul_le_mul_of_nonneg_right hu53 hM0
  generalize ((1 : ℝ) / 2) ^ 53 = c at *
  generalize (2 : ℝ) ^ 50 = C at *
  generalize (M : ℝ) = m at *
  have h2 : c * m ≤ c * C := by linarith only [h1, hMu, e]
  exact le_of_mul_le_mul_left h2 p

/-- The double the estimator truncates, against the exact real value of the formula. -/
theorem approx_double_error (hF : F.Standard u) (hu : u ≤ 1 / 1024) (M K s : Nat)
    (hK : 1 ≤ K) (hK53 : K ≤ 2 ^ 53) (hs : s < M) (hMu : 8 * u * (M : ℝ) ≤ 1) :
    0 ≤ -(F.rnd (F.rnd (F.rnd (M : ℝ) / F.rnd (K : ℝ)) *
        F.log (F.rnd (1 - F.rnd (F.rnd (s : ℝ) / F.rnd (M : ℝ)))))) ∧
    |-(F.rnd (F.rnd (F.rnd (M : ℝ) / F.rnd (K : ℝ)) *
        F.log (F.rnd (1 - F.rnd (F.rnd (s : ℝ) / F.rnd (M : ℝ)))))) - spec_estimate M K s| ≤
      u * (5 * spec_estimate M K s +
        3 * ((M : ℝ) / (K : ℝ)) * ((M : ℝ) / ((M : ℝ) - (s : ℝ)))) := by
  have hu0 := std_u_pos hF
  have hu53 := hF.u_ge
  have hM50 := nat_le_of_load u M hu53 hMu
  have hM53n : M ≤ 2 ^ 53 := by
    have : (M : ℝ) ≤ 2 ^ 53 := le_trans hM50 (pow_le_pow_right₀ (by norm_num) (by norm_num))
    exact_mod_cast this
  have hs53n : s ≤ 2 ^ 53 := le_trans hs.le hM53n
  rw [rnd_nat_exact hF M hM53n, rnd_nat_exact hF K hK53, rnd_nat_exact hF s hs53n]
  unfold spec_estimate
  have hM1 : (1 : ℝ) ≤ (M : ℝ) :=
    Nat.one_le_cast.mpr (Nat.succ_le_of_lt (Nat.lt_of_le_of_lt (Nat.zero_le s) hs))
  have hK1 : (1 : ℝ) ≤ (K : ℝ) := Nat.one_le_cast.mpr hK
  have hKhi : (K : ℝ) ≤ 2 ^ 53 := by exact_mod_cast hK53
  have hMhi : (M : ℝ) ≤ 2 ^ 53 := by exact_mod_cast hM53n
  have hsM : (s : ℝ) + 1 ≤ (M : ℝ) := by exact_mod_cast hs
  have hs0 : (0 : ℝ) ≤ (s : ℝ) := Nat.cast_nonneg s
  have hMpos : (0 : ℝ) < (M : ℝ) := lt_of_lt_of_le one_pos hM1
  have hKpos : (0 : ℝ) < (K : ℝ) := lt_of_lt_of_le one_pos hK1
  clear hM53n hs53n hK53 hM50
  -- the scale M / K
  have hS0 : ((1 : ℝ) / 2) ^ 53 ≤ (M : ℝ) / (K : ℝ) := by
    rw [le_div_iff₀ hKpos]
    have e : ((1 : ℝ) / 2) ^ 53 * 2 ^ 53 = 1 := by norm_num
    have p : (0 : ℝ) < (1 / 2) ^ 53 := by positivity
    have : (1 / 2 : ℝ) ^ 53 * (K : ℝ) ≤ (1 / 2) ^ 53 * 2 ^ 53 :=
      mul_le_mul_of_nonneg_left hKhi p.le
    exact le_trans (le_trans this (le_of_eq e)) hM1
  have hS1 : (M : ℝ) / (K : ℝ) ≤ 2 ^ 53 := by
    rw [div_le_iff₀ hKpos]
    have q : (0 : ℝ) < 2 ^ 53 := by positivity
    exact le_trans hMhi (le_mul_of_one_le_right q.le hK1)
  have hSpos : (0 : ℝ) < (M : ℝ) / (K : ℝ) := div_pos hMpos hKpos
  have hS : near u ((M : ℝ) / (K : ℝ)) (F.rnd ((M : ℝ) / (K : ℝ))) :=
    rnd_near_of_pow hF _ 53 53 (by norm_num) (by norm_num) hS0 hS1
  have hSr := scale_range u _ _ hu0 hu hS0 hS1 hS
  clear hS0 hS1 hKhi hMhi hu53
  -- the fill ratio
  have him : 8 * u ≤ 1 / (M : ℝ) := by
    rw [le_div_iff₀ hMpos]
    exact hMu
  have hq0 : (s : ℝ) / (M : ℝ) = 0 ∨ 1 / (M : ℝ) ≤ (s : ℝ) / (M : ℝ) := by
    rcases Nat.eq_zero_or_pos s with h | h
    · left
      rw [h, Nat.cast_zero, zero_div]
    · right
      exact div_le_div_of_nonneg_right (Nat.one_le_cast.mpr h) hMpos.le
  have hq1 : (s : ℝ) / (M : ℝ) ≤ 1 - 1 / (M : ℝ) := by
    have e : 1 - 1 / (M : ℝ) = ((M : ℝ) - 1) / (M : ℝ) := by
      field_simp
    rw [e]
    exact div_le_div_of_nonneg_right (by linarith only [hsM]) hMpos.le
  obtain ⟨hw, hw0, hw1⟩ := ratio_complement_double hF hu _ _ him hq0 hq1
  have hqnn : (0 : ℝ) ≤ (s : ℝ) / (M : ℝ) := div_nonneg hs0 hMpos.le
  have hqlt : (s : ℝ) / (M : ℝ) < 1 := by
    rw [div_lt_one hMpos]
    linarith only [hsM]
  have hv0pos : (0 : ℝ) < 1 - (s : ℝ) / (M : ℝ) := sub_pos.mpr hqlt
  have hMs : (1 : ℝ) ≤ (M : ℝ) - (s : ℝ) := by linarith only [hsM]
  have hMs0 : (M : ℝ) - (s : ℝ) ≠ 0 := (lt_of_lt_of_le one_pos hMs).ne'
  have hρ : (s : ℝ) / (M : ℝ) / (1 - (s : ℝ) / (M : ℝ)) = (s : ℝ) / ((M : ℝ) - (s : ℝ)) := by
    field_simp
  have hR : (M : ℝ) / ((M : ℝ) - (s : ℝ)) = (s : ℝ) / ((M : ℝ) - (s : ℝ)) + 1 := by
    field_simp
  rw [hρ] at hw
  have hρ0 : (0 : ℝ) ≤ (s : ℝ) / ((M : ℝ) - (s : ℝ)) :=
    div_nonneg hs0 (le_trans zero_le_one hMs)
  have hρM : u * ((s : ℝ) / ((M : ℝ) - (s : ℝ))) ≤ 1 / 8 := by
    have h1 : (s : ℝ) / ((M : ℝ) - (s : ℝ)) ≤ (M : ℝ) := by
      rw [div_le_iff₀ (lt_of_lt_of_le one_pos hMs)]
      exact le_trans (by linarith only [hsM]) (le_mul_of_one_le_right hMpos.le hMs)
    have := mul_le_mul_of_nonneg_left h1 hu0.le
    linarith only [this, hMu]
  have hc0 : 0 ≤ u * ((s : ℝ) / ((M : ℝ) - (s : ℝ))) + u +
      u * ((s : ℝ) / ((M : ℝ) - (s : ℝ))) * u :=
    add_nonneg (add_nonneg (mul_nonneg hu0.le hρ0) hu0.le)
      (mul_nonneg (mul_nonneg hu0.le hρ0) hu0.le)
  have hc1 : u * ((s : ℝ) / ((M : ℝ) - (s : ℝ))) + u +
      u * ((s : ℝ) / ((M : ℝ) - (s : ℝ))) * u ≤ 1 / 2 := by
    have ha : 0 ≤ u * ((s : ℝ) / ((M : ℝ) - (s : ℝ))) := mul_nonneg hu0.le hρ0
    have : u * ((s : ℝ) / ((M : ℝ) - (s : ℝ))) * u ≤
        u * ((s : ℝ) / ((M : ℝ) - (s : ℝ))) * (1 / 1024) := mul_le_mul_of_nonneg_left hu ha
    linarith only [this, hρM, hu]
  obtain ⟨hwpos, hlog⟩ := log_near hw hv0pos hc0 hc1
  obtain ⟨hm, -⟩ := scaled_log_double hF hu _ _ _ hS (Or.inr hSr) hw0 hw1
  have hwle : F.rnd (1 - F.rnd ((s : ℝ) / (M : ℝ))) ≤ 1 := by
    rcases hw1 with h | h
    · rw [h]
    · have : (0 : ℝ) < (1 / 2) ^ 53 := by positivity
      linarith only [h, this]
  have hL' : Real.log (F.rnd (1 - F.rnd ((s : ℝ) / (M : ℝ)))) ≤ 0 :=
    Real.log_nonpos hwpos.le hwle
  have hL : Real.log (1 - (s : ℝ) / (M : ℝ)) ≤ 0 :=
    Real.log_nonpos hv0pos.le (sub_le_self _ hqnn)
  exact estimate_assemble u _ _ _ _ _ _ hu0 hu hSpos hρ0 hR hL' hL hlog hm

/-- With no slot set the double expression is exactly zero. -/
theorem approx_double_zero (hF : F.Standard u) (M K : Nat) :
    to_size_t (-(F.rnd (F.rnd (F.rnd (M : ℝ) / F.rnd (K : ℝ)) *
        F.log (F.rnd (1 - F.rnd (F.rnd ((0 : Nat) : ℝ) / F.rnd (M : ℝ))))))) = some 0 := by
  rw [Nat.cast_zero, rnd_zero hF, zero_div, rnd_zero hF, sub_zero, rnd_one hF,
    log_one_double hF, mul_zero, rnd_zero hF, neg_zero]
  unfold to_size_t
  rw [if_pos (by constructor <;> norm_num)]
  simp

theorem sparse_arith (u c r q t : ℝ) (hu0 : 0 < u) (hu : u ≤ 1 / 1024) (hc : 0 < c)
    (hr : (1 - u) * c ≤ r) (hq : q * r = 1) (ht : t ≤ (1 + u) * q) (hq0 : 0 < q) :
    t * c < 2 := by
  have h1 : q * ((1 - u) * c) ≤ q * r := mul_le_mul_of_nonneg_left hr hq0.le
  have h2 : t * c ≤ (1 + u) * q * c := mul_le_mul_of_nonneg_right ht hc.le
  have h3 : 0 < q * c := mul_pos hq0 hc
  have h4 : u * (q * c) ≤ 1 / 1024 * (q * c) := mul_le_mul_of_nonneg_right hu h3.le
  have h5 : 0 ≤ u * (q * c) := mul_nonneg hu0.le h3.le
  have e1 : q * ((1 - u) * c) = q * c - u * (q * c) := by ring
  have e2 : (1 + u) * q * c = q * c + u * (q * c) := by ring
  rw [e1, hq] at h1
  rw [e2] at h2
  linarith only [h1, h2, h4, h5]

/-- One set slot out of at least `2 ^ 55`: the complement of the fill ratio rounds to `1.`,
so the double expression is exactly zero. -/
theorem approx_double_sparse (hF : F.Standard u) (hu : u ≤ 1 / 1024) (M K : Nat)
    (hM : 2 ^ 55 ≤ M) (hM64 : M < 2 ^ 64) :
    to_size_t (-(F.rnd (F.rnd (F.rnd (M : ℝ) / F.rnd (K : ℝ)) *
        F.log (F.rnd (1 - F.rnd (F.rnd ((1 : Nat) : ℝ) / F.rnd (M : ℝ))))))) = some 0 := by
  have hu0 := std_u_pos hF
  have hM1 : 1 ≤ M := le_trans (by norm_num) hM
  obtain ⟨a, b⟩ := near_pos (rnd_nat_near hF M hM1 hM64)
    (lt_of_lt_of_le one_pos (Nat.one_le_cast.mpr hM1))
  have hMr : (2 : ℝ) ^ 55 ≤ (M : ℝ) := by exact_mod_cast hM
  have hMr64 : (M : ℝ) ≤ 2 ^ 64 := by exact_mod_cast hM64.le
  have p55 : (0 : ℝ) < 2 ^ 55 := by positivity
  have hr55 : (1 - u) * 2 ^ 55 ≤ F.rnd (M : ℝ) :=
    le_trans (mul_le_mul_of_nonneg_left hMr (by linarith only [hu])) a
  have hr65 : F.rnd (M : ℝ) ≤ 2 ^ 65 := by
    have e : (2 : ℝ) ^ 65 = 2 * 2 ^ 64 := by norm_num
    rw [e]
    have p : (0 : ℝ) < 2 ^ 64 := by positivity
    have h1 : (1 + u) * (M : ℝ) ≤ (1 + u) * 2 ^ 64 :=
      mul_le_mul_of_nonneg_left hMr64 (by linarith only [hu0])
    have h2 : (1 + u) * 2 ^ 64 ≤ 2 * 2 ^ 64 :=
      mul_le_mul_of_nonneg_right (by linarith only [hu]) p.le
    exact le_trans b (le_trans h1 h2)
  have hrpos : (0 : ℝ) < F.rnd (M : ℝ) :=
    lt_of_lt_of_le (mul_pos (by linarith only [hu]) p55) hr55
  clear a b hMr hMr64 hM hM64
  rw [Nat.cast_one, rnd_one hF]
  have hq0 : (0 : ℝ) < 1 / F.rnd (M : ℝ) := by positivity
  have hqr : 1 / F.rnd (M : ℝ) * F.rnd (M : ℝ) = 1 := by
    field_simp
  have hdm : double_min ≤ 1 / F.rnd (M : ℝ) := by
    have h1 : (1 / 2 : ℝ) ^ 65 ≤ 1 / F.rnd (M : ℝ) := by
      rw [one_div_pow]
      exact one_div_le_one_div_of_le hrpos hr65
    exact le_trans (double_min_le 65 (by norm_num)) h1
  have hdM : 1 / F.rnd (M : ℝ) ≤ double_max := by
    have h0 := le_double_max 0 (by norm_num)
    rw [pow_zero] at h0
    have h1 : (1 : ℝ) ≤ F.rnd (M : ℝ) := by
      have : (1 : ℝ) ≤ (1 - u) * 2 ^ 55 := by
        have e : (2 : ℝ) ^ 55 = 36028797018963968 := by norm_num
        rw [e]
        linarith only [hu]
      exact le_trans this hr55
    have : 1 / F.rnd (M : ℝ) ≤ 1 := by
      rw [div_le_iff₀ hrpos, one_mul]
      exact h1
    exact le_trans this h0
  obtain ⟨-, d⟩ := rnd_bounds hF _ hq0 hdm hdM
  have htc := sparse_arith u _ _ _ _ hu0 hu p55 hr55 hqr d hq0
  have ht0 : 0 ≤ F.rnd (1 / F.rnd (M : ℝ)) := rnd_nonneg hF _ hq0.le
  have ht : F.rnd (1 / F.rnd (M : ℝ)) < (1 / 2) ^ 54 := by
    have e : ((1 : ℝ) / 2) ^ 54 * 2 ^ 55 = 2 := by norm_num
    have p : (0 : ℝ) < (1 / 2) ^ 54 := by positivity
    generalize ((1 : ℝ) / 2) ^ 54 = c54 at e p ⊢
    generalize (2 : ℝ) ^ 55 = c at e htc p55
    by_contra h
    push_neg at h
    have : c54 * c ≤ F.rnd (1 / F.rnd (M : ℝ)) * c := mul_le_mul_of_nonneg_right h p55.le
    linarith only [this, e, htc]
  rw [rnd_one_sub_small hF _ ht0 ht, log_one_double hF, mul_zero, rnd_zero hF, neg_zero]
  unfold to_size_t
  rw [if_pos (by constructor <;> norm_num)]
  simp

end EstimateDouble

section DoubleLinks

open f64.bloom_filter_false_positive_policy

variable {F : FloatOps} {u : ℝ}

/-- A ratio of small positive integers that is at most 9/10 passes the static check in
double arithmetic. -/
theorem accepted_double_of_ratio (hF : F.Standard u) (hu : u ≤ 1 / 1024) (Num Denom : Int)
    (h0 : 0 < Num) (h9 : 10 * Num ≤ 9 * Denom) (hD : Denom ≤ 2 ^ 53) :
    accepted F Num Denom := by
  have hu0 := std_u_pos hF
  have hN53 : |Num| ≤ 2 ^ 53 := by
    rw [abs_of_pos h0]
    omega
  have hD0 : 0 < Denom := by omega
  have hD53 : |Denom| ≤ 2 ^ 53 := by
    rw [abs_of_pos hD0]
    exact hD
  unfold accepted false_positive_probability
  rw [hF.rnd_int Num hN53, hF.rnd_int Denom hD53]
  have hNr : (1 : ℝ) ≤ (Num : ℝ) := by
    have : (1 : ℤ) ≤ Num := h0
    exact_mod_cast this
  have hDr : (Denom : ℝ) ≤ 2 ^ 53 := by exact_mod_cast hD
  have h9r : 10 * (Num : ℝ) ≤ 9 * (Denom : ℝ) := by exact_mod_cast h9
  have hDpos : (0 : ℝ) < (Denom : ℝ) := by linarith only [hNr, h9r]
  have hp9 : (Num : ℝ) / (Denom : ℝ) ≤ 9 / 10 := by
    rw [div_le_iff₀ hDpos]
    linarith only [h9r]
  have hp53 : ((1 : ℝ) / 2) ^ 53 ≤ (Num : ℝ) / (Denom : ℝ) := by
    rw [le_div_iff₀ hDpos]
    have e : ((1 : ℝ) / 2) ^ 53 * 2 ^ 53 = 1 := by norm_num
    have p : (0 : ℝ) < (1 / 2) ^ 53 := by positivity
    have : (1 / 2 : ℝ) ^ 53 * (Denom : ℝ) ≤ (1 / 2) ^ 53 * 2 ^ 53 :=
      mul_le_mul_of_nonneg_left hDr p.le
    exact le_trans (le_trans this (le_of_eq e)) hNr
  have hppos : (0 : ℝ) < (Num : ℝ) / (Denom : ℝ) :=
    div_pos (lt_of_lt_of_le one_pos hNr) hDpos
  obtain ⟨a, b⟩ := near_pos (rnd_near_of_pow hF _ 53 0 (by norm_num) (by norm_num) hp53
    (by rw [pow_zero]; linarith only [hp9])) hppos
  generalize (Num : ℝ) / (Denom : ℝ) = p at hp9 hppos a b ⊢
  have k1 : 0 < (1 - u) * p := mul_pos (by linarith only [hu]) hppos
  have k2 : u * p ≤ 1 / 1024 * p := mul_le_mul_of_nonneg_right hu hppos.le
  constructor
  · exact lt_of_lt_of_le k1 a
  · linarith only [b, k2, hp9]

theorem spec_bucket_count_test_bounds :
    (143772 : ℝ) / 10 ≤ spec_bucket_count 1000 (((1 : Int) : ℝ) / ((1000 : Int) : ℝ)) ∧
    spec_bucket_count 1000 (((1 : Int) : ℝ) / ((1000 : Int) : ℝ)) ≤ 1437795 / 100 := by
  have hL0 := Real.log_two_gt_d9
  have hL1 := Real.log_two_lt_d9
  obtain ⟨he0, he1⟩ := log_128_125_bounds
  have hLpos : (0 : ℝ) < Real.log 2 := Real.log_pos (by norm_num)
  have hsq0 : (0.6931471803 : ℝ) ^ 2 ≤ (Real.log 2) ^ 2 :=
    pow_le_pow_left₀ (by norm_num) hL0.le 2
  have hsq1 : (Real.log 2) ^ 2 ≤ (0.6931471808 : ℝ) ^ 2 :=
    pow_le_pow_left₀ hLpos.le hL1.le 2
  have hsqpos : (0 : ℝ) < (Real.log 2) ^ 2 := by positivity
  have hx : spec_bucket_count 1000 (((1 : Int) : ℝ) / ((1000 : Int) : ℝ)) =
      (1000 * (10 * Real.log 2 - Real.log (128 / 125))) / (Real.log 2) ^ 2 := by
    unfold spec_bucket_count
    have := log_one_thousandth
    push_cast
    rw [this]
    ring
  rw [hx]
  constructor
  · rw [le_div_iff₀ hsqpos]
    norm_num at hsq1 hL0 he1 ⊢
    linarith only [hsq1, hL0, he1]
  · rw [div_le_iff₀ hsqpos]
    norm_num at hsq0 hL1 he0 ⊢
    linarith only [hsq0, hL1, he0]

/-- The configuration of `test.cpp` in double arithmetic: the static check passes and the
derived bucket count is 14377. -/
theorem num_buckets_double_test (hF : F.Standard u) (hu : u ≤ (1 / 2) ^ 30) :
    accepted F 1 1000 ∧ num_buckets F 1000 1 1000 = some 14377 := by
  have hu0 := std_u_pos hF
  have hu30 : u ≤ 1 / 1000000000 := by
    have : ((1 : ℝ) / 2) ^ 30 ≤ 1 / 1000000000 := by norm_num
    exact le_trans hu this
  have hu10 : u ≤ 1 / 1024 := le_trans hu30 (by norm_num)
  have hacc : accepted F 1 1000 :=
    accepted_double_of_ratio hF hu10 1 1000 (by norm_num) (by norm_num) (by norm_num)
  refine ⟨hacc, ?_⟩
  obtain ⟨b1, b2⟩ := spec_bucket_count_test_bounds
  have he : u * (14 * spec_bucket_count 1000 (((1 : Int) : ℝ) / ((1000 : Int) : ℝ)) +
      28 * ((1000 : Nat) : ℝ)) ≤ 1 / 1000 := by
    push_cast
    have k := mul_le_mul hu30 (show 14 * spec_bucket_count 1000 (1 / 1000) + 28 * 1000 ≤ 230000
      by push_cast at b2; linarith only [b2]) (by push_cast at b1; linarith only [b1])
      (by norm_num)
    linarith only [k]
  have he0 : 0 ≤ u * (14 * spec_bucket_count 1000 (((1 : Int) : ℝ) / ((1000 : Int) : ℝ)) +
      28 * ((1000 : Nat) : ℝ)) := by
    push_cast
    apply mul_nonneg hu0.le
    push_cast at b1
    linarith only [b1]
  obtain ⟨m, hm, -, -, hk⟩ := num_buckets_double_near hF hu10 1000 1 1000 (by norm_num)
    (by norm_num) (by norm_num) hacc (by
      have : (20000 : ℝ) ≤ 2 ^ 64 := by norm_num
      linarith only [this, b2, he])
  rw [hm, hk 14377 (by push_cast; linarith only [b1, he])
    (by push_cast; linarith only [b2, he])]

theorem spec_bucket_count_nine_tenths :
    (1 : ℝ) / 5 ≤ spec_bucket_count 1 (((9 : Int) : ℝ) / ((10 : Int) : ℝ)) ∧
    spec_bucket_count 1 (((9 : Int) : ℝ) / ((10 : Int) : ℝ)) ≤ 6 / 25 := by
  obtain ⟨hL0, hL1⟩ := log_two_bounds
  have hLpos : (0 : ℝ) < Real.log 2 := lt_trans (by norm_num) hL0
  have hQ0 := log_two_sq_bounds
  have hQ1 : Real.log 2 * Real.log 2 ≤ 49 / 100 := by
    have k := mul_le_mul hL1.le hL1.le hLpos.le (by norm_num)
    linarith only [k]
  have hsqpos : (0 : ℝ) < (Real.log 2) ^ 2 := by positivity
  have h9a : (1 : ℝ) - ((9 : ℝ) / 10)⁻¹ ≤ Real.log (9 / 10) :=
    Real.one_sub_inv_le_log_of_pos (by norm_num)
  have h9b : Real.log (9 / 10) ≤ 9 / 10 - 1 := Real.log_le_sub_one_of_pos (by norm_num)
  have hx : spec_bucket_count 1 (((9 : Int) : ℝ) / ((10 : Int) : ℝ)) =
      (-Real.log (9 / 10)) / (Real.log 2) ^ 2 := by
    unfold spec_bucket_count
    push_cast
    ring
  rw [hx, pow_two]
  rw [pow_two] at hsqpos
  norm_num at h9a h9b
  constructor
  · rw [le_div_iff₀ hsqpos]
    linarith only [h9b, hQ1]
  · rw [div_le_iff₀ hsqpos]
    linarith only [h9a, hQ0]

/-- Expected cardinality 1 with p = 9/10 in double arithmetic: the static check passes and
the derived bucket count is 0. -/
theorem num_buckets_double_nine_tenths (hF : F.Standard u) (hu : u ≤ 1 / 1024) :
    accepted F 9 10 ∧ num_buckets F 1 9 10 = some 0 := by
  have hu0 := std_u_pos hF
  have hacc : accepted F 9 10 :=
    accepted_double_of_ratio hF hu 9 10 (by norm_num) (by norm_num) (by norm_num)
  refine ⟨hacc, ?_⟩
  obtain ⟨b1, b2⟩ := spec_bucket_count_nine_tenths
  have he : u * (14 * spec_bucket_count 1 (((9 : Int) : ℝ) / ((10 : Int) : ℝ)) +
      28 * ((1 : Nat) : ℝ)) ≤ 1 / 20 := by
    push_cast
    have k := mul_le_mul hu (show 14 * spec_bucket_count 1 (9 / 10) + 28 ≤ 32
      by push_cast at b2; linarith only [b2]) (by push_cast at b1; linarith only [b1])
      (by norm_num)
    linarith only [k]
  have he0 : 0 ≤ u * (14 * spec_bucket_count 1 (((9 : Int) : ℝ) / ((10 : Int) : ℝ)) +
      28 * ((1 : Nat) : ℝ)) := by
    push_cast
    apply mul_nonneg hu0.le
    push_cast at b1
    linarith only [b1]
  obtain ⟨m, hm, -, -, hk⟩ := num_buckets_double_near hF hu 1 9 10 (by norm_num)
    (by norm_num) (by norm_num) hacc (by
      have : (2 : ℝ) ≤ 2 ^ 64 := by norm_num
      linarith only [this, b2, he])
  rw [hm, hk 0 (by push_cast; linarith only [b1, he]) (by push_cast; linarith only [b2, he])]

end DoubleLinks

section SizePolicyDouble4

open f64.bloom_filter_size_policy

variable {F : FloatOps} {u : ℝ}

/-- The static check of the capacity-driven policy, evaluated in double arithmetic, rejects
one bucket and rejects expected cardinality zero. -/
theorem size_policy_double_only_if (hF : F.Standard u) (hu : u ≤ 1 / 2) (N M K : Nat)
    (hM : 1 ≤ M) (hK1 : 1 ≤ K) (hK2 : K < 2 ^ 64) (hN2 : N < 2 ^ 64)
    (hacc : accepted F N M K) : 2 ≤ M ∧ 1 ≤ N := by
  obtain ⟨h0, h1⟩ := hacc
  have hN : 1 ≤ N := by
    by_contra h
    have hN0 : N = 0 := by omega
    rw [hN0, size_policy_double_zero_expected hF (by linarith) M K hK1 hK2] at h0
    exact lt_irrefl _ h0
  refine ⟨?_, hN⟩
  by_contra h
  have hM1 : M = 1 := by omega
  rw [hM1, size_policy_double_one_bucket hF hu N K hN hN2 hK1 hK2] at h1
  exact lt_irrefl _ h1

end SizePolicyDouble4

section EstimateRange

theorem log_pow_two_50 : Real.log (2 ^ 50) ≤ 35 := by
  rw [Real.log_pow]
  have := Real.log_two_lt_d9
  norm_num at this ⊢
  linarith only [this]

theorem estimate_range_arith (u m k x R : ℝ) (hu0 : 0 < u) (hu : u ≤ 1 / 1024)
    (hm0 : 1 ≤ m) (hk : 1 ≤ k) (hx0 : 0 ≤ x) (hx : x ≤ m / k * 35) (hR0 : 0 ≤ R) (hR : R ≤ m)
    (hum : 8 * u * m ≤ 1) :
    x + u * (5 * x + 3 * (m / k) * R) ≤ 36 * m := by
  have hm : 0 ≤ m := le_trans zero_le_one hm0
  have hk0 : 0 < k := lt_of_lt_of_le one_pos hk
  have hmk0 : 0 ≤ m / k := div_nonneg hm hk0.le
  have hmk : m / k ≤ m := div_le_self hm hk
  have h1 : x ≤ 35 * m := by linarith only [hx, hmk]
  have h2 : u * x ≤ 1 / 1024 * x := mul_le_mul_of_nonneg_right hu hx0
  have h3 : m / k * R ≤ m * m := mul_le_mul hmk hR hR0 hm
  have h4 : u * (m / k * R) ≤ u * (m * m) := mul_le_mul_of_nonneg_left h3 hu0.le
  have h5 : u * (m * m) ≤ 1 / 8 * m := by
    have := mul_le_mul_of_nonneg_right hum hm
    linarith only [this]
  have e : u * (5 * x + 3 * (m / k) * R) = 5 * (u * x) + 3 * (u * (m / k * R)) := by ring
  rw [e]
  linarith only [h1, h2, h4, h5, hm]

/-- The exact estimate and its error bound stay far below `2 ^ 64`. -/
theorem estimate_in_range (u : ℝ) (M K s : Nat) (hu53 : (1 / 2 : ℝ) ^ 53 ≤ u)
    (hu : u ≤ 1 / 1024) (hK : 1 ≤ K) (hs : s < M) (hMu : 8 * u * (M : ℝ) ≤ 1) :
    spec_estimate M K s + u * (5 * spec_estimate M K s +
      3 * ((M : ℝ) / (K : ℝ)) * ((M : ℝ) / ((M : ℝ) - (s : ℝ)))) < 2 ^ 64 := by
  have hu0 : 0 < u := lt_of_lt_of_le (by positivity) hu53
  have hM50 := nat_le_of_load u M hu53 hMu
  have hM1 : (1 : ℝ) ≤ (M : ℝ) :=
    Nat.one_le_cast.mpr (Nat.succ_le_of_lt (Nat.lt_of_le_of_lt (Nat.zero_le s) hs))
  have hK1 : (1 : ℝ) ≤ (K : ℝ) := Nat.one_le_cast.mpr hK
  have hsM : (s : ℝ) + 1 ≤ (M : ℝ) := by exact_mod_cast hs
  have hs0 : (0 : ℝ) ≤ (s : ℝ) := Nat.cast_nonneg s
  have hMpos : (0 : ℝ) < (M : ℝ) := lt_of_lt_of_le one_pos hM1
  have hKpos : (0 : ℝ) < (K : ℝ) := lt_of_lt_of_le one_pos hK1
  have hinvpos : (0 : ℝ) < 1 / (M : ℝ) := one_div_pos.mpr hMpos
  have hv0 : 1 / (M : ℝ) ≤ 1 - (s : ℝ) / (M : ℝ) := by
    have e : 1 - (s : ℝ) / (M : ℝ) = ((M : ℝ) - (s : ℝ)) / (M : ℝ) := by
      field_simp
    rw [e]
    exact div_le_div_of_nonneg_right (by linarith only [hsM]) hMpos.le
  have hv1 : 1 - (s : ℝ) / (M : ℝ) ≤ 1 := sub_le_self _ (div_nonneg hs0 hMpos.le)
  have hlog1 : Real.log (1 - (s : ℝ) / (M : ℝ)) ≤ 0 :=
    Real.log_nonpos (le_trans hinvpos.le hv0) hv1
  have hlog2 : -35 ≤ Real.log (1 - (s : ℝ) / (M : ℝ)) := by
    have h1 : Real.log (1 / (M : ℝ)) ≤ Real.log (1 - (s : ℝ) / (M : ℝ)) :=
      Real.log_le_log hinvpos hv0
    have h2 : Real.log (1 / (M : ℝ)) = -Real.log (M : ℝ) := by
      rw [one_div, Real.log_inv]
    have h3 : Real.log (M : ℝ) ≤ Real.log (2 ^ 50) := Real.log_le_log hMpos hM50
    have h4 := log_pow_two_50
    linarith only [h1, h2, h3, h4]
  have hSpos : (0 : ℝ) ≤ (M : ℝ) / (K : ℝ) := div_nonneg hMpos.le hKpos.le
  have hx0 : 0 ≤ spec_estimate M K s := by
    unfold spec_estimate
    exact neg_nonneg.mpr (mul_nonpos_of_nonneg_of_nonpos hSpos hlog1)
  have hx : spec_estimate M K s ≤ (M : ℝ) / (K : ℝ) * 35 := by
    unfold spec_estimate
    have : (M : ℝ) / (K : ℝ) * (-35) ≤
        (M : ℝ) / (K : ℝ) * Real.log (1 - (s : ℝ) / (M : ℝ)) :=
      mul_le_mul_of_nonneg_left hlog2 hSpos
    linarith only [this]
  have hMs : (1 : ℝ) ≤ (M : ℝ) - (s : ℝ) := by linarith only [hsM]
  have hR0 : (0 : ℝ) ≤ (M : ℝ) / ((M : ℝ) - (s : ℝ)) :=
    div_nonneg hMpos.le (le_trans zero_le_one hMs)
  have hR : (M : ℝ) / ((M : ℝ) - (s : ℝ)) ≤ (M : ℝ) := div_le_self hMpos.le hMs
  have h := estimate_range_arith u _ _ _ _ hu0 hu hM1 hK1 hx0 hx hR0 hR hMu
  have e : (36 : ℝ) * 2 ^ 50 < 2 ^ 64 := by norm_num
  generalize (2 : ℝ) ^ 50 = c at hM50 e
  generalize (2 : ℝ) ^ 64 = C at e ⊢
  linarith only [h, hM50, e]

end EstimateRange

/-! ## Lemmas: the bucket count of the test configuration -/

section SizingLemmas2

open detail.bloom_filter_false_positive_policy

/-- The bucket count derived for `expected<1000>` and `std::milli`. -/
theorem num_buckets_test : num_buckets 1000 1 1000 = 14377 := by
  obtain ⟨b1, b2⟩ := spec_bucket_count_test_bounds
  unfold num_buckets false_positive_probability
  have hx : -((((1000 : ℕ) : ℝ) * Real.log (((1 : ℤ) : ℝ) / ((1000 : ℤ) : ℝ))) /
      (Real.log 2) ^ 2) = spec_bucket_count 1000 (((1 : Int) : ℝ) / ((1000 : Int) : ℝ)) := by
    unfold spec_bucket_count
    ring
  rw [hx, Nat.floor_eq_iff (by linarith only [b1])]
  constructor
  · push_cast
    linarith only [b1]
  · push_cast
    linarith only [b2]

end SizingLemmas2

/-! ## C1: no false negatives, bit storage -/

/-- C1: bit storage, any hash adapter, any positive bucket count: for every starting state and
every sequence of inserts that contains `insert(v)` at least once, `contains(v)` is true in
the final state. -/
theorem C1_bit_no_false_negative (P : Policy α) (s : counting_bloom_filter_0.State P)
    (vs : List α) (v : α) (hv : v ∈ vs) :
    counting_bloom_filter_0.contains P (counting_bloom_filter_0.insert_all P s vs) v = true := by
  rw [bit_contains_iff]
  intro idx hidx
  rw [bit_insert_all_apply]
  exact Or.inr ⟨v, hv, idx, hidx, rfl⟩

/-- C1 instantiated: starting from a state with bit 5 set, after inserting 9, 4, 9, 17 the
filter reports 4. -/
theorem C1_bit_no_false_negative_witness :
    (4 : Nat) ∈ [9, 4, 9, 17] ∧
    counting_bloom_filter_0.contains demoPolicy
      (counting_bloom_filter_0.insert_all demoPolicy (fun j => decide (j.val = 5)) [9, 4, 9, 17]) 4
      = true :=
  ⟨by decide, C1_bit_no_false_negative demoPolicy _ [9, 4, 9, 17] 4 (by decide)⟩

/-! ## C2: counter storage, no false negatives only for paired removes and without wrap -/

/-- C2 as stated fails, in two ways, both starting from the empty filter over `demoPolicy`,
where 0 and 8 address the same two slots.  Width 1: 0 is inserted once and never removed, 8 is
inserted afterwards, both counters wrap from 1 to 0 and `contains(0)` is false.  Width 8: 0 is
inserted once and never removed, the other value 8 is removed afterwards, both counters drop
from 1 to 0 and `contains(0)` is false. -/
theorem C2_counter_false_negative :
    (List.count (counting_bloom_filter.Op.remove 0)
        [counting_bloom_filter.Op.insert 0, counting_bloom_filter.Op.insert 8] <
      List.count (counting_bloom_filter.Op.insert 0)
        [counting_bloom_filter.Op.insert 0, counting_bloom_filter.Op.insert 8] ∧
    counting_bloom_filter.contains demoPolicy
      (counting_bloom_filter.run 1 demoPolicy (counting_bloom_filter.empty demoPolicy)
        [counting_bloom_filter.Op.insert 0, counting_bloom_filter.Op.insert 8]) 0 = false) ∧
    (List.count (counting_bloom_filter.Op.remove 0)
        [counting_bloom_filter.Op.insert 0, counting_bloom_filter.Op.remove 8] <
      List.count (counting_bloom_filter.Op.insert 0)
        [counting_bloom_filter.Op.insert 0, counting_bloom_filter.Op.remove 8] ∧
    counting_bloom_filter.contains demoPolicy
      (counting_bloom_filter.run 8 demoPolicy (counting_bloom_filter.empty demoPolicy)
        [counting_bloom_filter.Op.insert 0, counting_bloom_filter.Op.remove 8]) 0 = false) := by
  decide

/-- C2 (amended): counter storage of any width `W`, any hash adapter, starting from the empty
filter: if every remove is paired with an earlier insert of the same value not yet removed, and
at every moment of the sequence the values currently in the filter put fewer than
`2 ^ min W 64` probe hits on each slot (so no counter wraps), then every value inserted more
often than removed is reported by `contains`. -/
theorem C2_counter_no_false_negative_paired [DecidableEq α] (W : Nat) (P : Policy α)
    (ops : List (counting_bloom_filter.Op α)) (v : α)
    (hpaired : counting_bloom_filter.paired [] ops = true)
    (hfit : counting_bloom_filter.no_wrap W P [] ops = true)
    (hv : ops.count (counting_bloom_filter.Op.remove v) <
      ops.count (counting_bloom_filter.Op.insert v)) :
    counting_bloom_filter.contains P
      (counting_bloom_filter.run W P (counting_bloom_filter.empty P) ops) v = true := by
  rw [cnt_contains_iff]
  intro idx hidx
  have htrack := run_tracks_live W P ops (counting_bloom_filter.empty P) []
    (fun j => by simp [counting_bloom_filter.empty, counting_bloom_filter.hits]) hpaired
    hfit (P.slot idx)
  rw [htrack]
  have hc := live_count ops v [] hpaired
  have hmem : v ∈ counting_bloom_filter.live [] ops := by
    apply List.count_pos_iff.mp
    simp at hc
    omega
  exact hits_pos_of_mem P _ v hmem idx hidx

/-- C2 (amended) instantiated: 2-bit counters over `onePolicy`; 5 is inserted twice and
removed once, 1 (same slot as 5) is inserted once, so the shared counter peaks at 3. -/
theorem C2_counter_no_false_negative_paired_witness :
    counting_bloom_filter.paired ([] : List Nat)
      [counting_bloom_filter.Op.insert 5, counting_bloom_filter.Op.insert 1,
       counting_bloom_filter.Op.insert 5, counting_bloom_filter.Op.remove 5] = true ∧
    counting_bloom_filter.no_wrap 2 onePolicy ([] : List Nat)
      [counting_bloom_filter.Op.insert 5, counting_bloom_filter.Op.insert 1,
       counting_bloom_filter.Op.insert 5, counting_bloom_filter.Op.remove 5] = true ∧
    counting_bloom_filter.contains onePolicy
      (counting_bloom_filter.run 2 onePolicy (counting_bloom_filter.empty onePolicy)
        [counting_bloom_filter.Op.insert 5, counting_bloom_filter.Op.insert 1,
         counting_bloom_filter.Op.insert 5, counting_bloom_filter.Op.remove 5]) 5 = true :=
  ⟨by decide, by decide,
    C2_counter_no_false_negative_paired 2 onePolicy _ 5 (by decide) (by decide) (by decide)⟩

/-! ## C3: reset -/

/-- C3: for both storages and every prior state, with at least one probe per value: after
`reset()`, `contains(v)` is false for every `v` and `approx_inserted()` returns 0. -/
theorem C3_reset_clears (P : Policy α) (hK : 1 ≤ P.num_hashes)
    (b : counting_bloom_filter_0.State P) (s : counting_bloom_filter.State P) (v : α) :
    counting_bloom_filter_0.contains P (counting_bloom_filter_0.reset P b) v = false ∧
    counting_bloom_filter_0.approx_inserted P (counting_bloom_filter_0.reset P b) = 0 ∧
    counting_bloom_filter.contains P (counting_bloom_filter.reset P s) v = false ∧
    counting_bloom_filter.approx_inserted P (counting_bloom_filter.reset P s) = 0 := by
  have hne : P.hash v ≠ [] := by
    intro h
    have := P.hash_arity v
    rw [h] at this
    simp at this
    omega
  obtain ⟨i, l, hil⟩ := List.exists_cons_of_ne_nil hne
  refine ⟨?_, ?_, ?_, ?_⟩
  · simp [counting_bloom_filter_0.contains, counting_bloom_filter_0.reset, hil]
  · simp [counting_bloom_filter_0.approx_inserted, counting_bloom_filter_0.count,
      counting_bloom_filter_0.reset, approx_formula]
  · simp [counting_bloom_filter.contains, counting_bloom_filter.reset, hil]
  · simp [counting_bloom_filter.approx_inserted, counting_bloom_filter.buckets_set,
      counting_bloom_filter.reset, approx_formula]

/-- C3 instantiated on `demoPolicy` (two probes), from a bit state with bit 1 set and a
counter state holding 3 everywhere. -/
theorem C3_reset_clears_witness :
    1 ≤ demoPolicy.num_hashes ∧
    counting_bloom_filter_0.contains demoPolicy
      (counting_bloom_filter_0.reset demoPolicy (fun j => decide (j.val = 1))) 7 = false ∧
    counting_bloom_filter_0.approx_inserted demoPolicy
      (counting_bloom_filter_0.reset demoPolicy (fun j => decide (j.val = 1))) = 0 ∧
    counting_bloom_filter.contains demoPolicy
      (counting_bloom_filter.reset demoPolicy (fun _ => 3)) 7 = false ∧
    counting_bloom_filter.approx_inserted demoPolicy
      (counting_bloom_filter.reset demoPolicy (fun _ => 3)) = 0 :=
  ⟨by decide, C3_reset_clears demoPolicy (by decide) _ _ 7⟩

/-! ## C4: bit storage against width-1 counters -/

/-- C4 as stated fails: over `onePolicy` the distinct values 0 and 4 address the same slot;
after inserting both into empty filters the bit filter reports 0, the width-1 counting filter
(whose counter went 0, 1, 0) does not. -/
theorem C4_bit_counter_differ_on_collision :
    ([0, 4] : List Nat).Nodup ∧
    counting_bloom_filter_0.contains onePolicy
      (counting_bloom_filter_0.insert_all onePolicy (counting_bloom_filter_0.empty onePolicy)
        [0, 4]) 0 = true ∧
    counting_bloom_filter.contains onePolicy
      (counting_bloom_filter.insert_all 1 onePolicy (counting_bloom_filter.empty onePolicy)
        [0, 4]) 0 = false := by
  decide

/-- C4 (amended): for the same policy, a bit-storage filter and a width-1 counter filter, both
starting empty and fed the same inserts, answer `contains(x)` alike for every `x`, provided
the slots addressed by the whole insertion sequence are pairwise distinct (no slot is hit
twice, by two values or by two lanes of one value). -/
theorem C4_bit_counter_agree_distinct_slots (P : Policy α) (vs : List α) (x : α)
    (hnodup : (counting_bloom_filter.probes P vs).Nodup) :
    counting_bloom_filter_0.contains P
      (counting_bloom_filter_0.insert_all P (counting_bloom_filter_0.empty P) vs) x =
    counting_bloom_filter.contains P
      (counting_bloom_filter.insert_all 1 P (counting_bloom_filter.empty P) vs) x := by
  unfold counting_bloom_filter_0.contains counting_bloom_filter.contains
  congr 1
  funext idx
  have hcnt := cnt_insert_all_apply 1 P vs (counting_bloom_filter.empty P) (P.slot idx)
    (by simp [counting_bloom_filter.empty])
  have hle : (counting_bloom_filter.probes P vs).count (P.slot idx) ≤ 1 :=
    List.nodup_iff_count_le_one.mp hnodup _
  have hbit := bit_insert_all_apply P vs (counting_bloom_filter_0.empty P) (P.slot idx)
  rw [← mem_probes, ← List.count_pos_iff] at hbit
  rw [hits_eq_count_probes] at hcnt
  have h2 : (2 : Nat) ^ min 1 64 = 2 := by decide
  rw [h2] at hcnt
  simp only [counting_bloom_filter.empty, Nat.zero_add] at hcnt
  simp only [counting_bloom_filter_0.empty] at hbit
  rw [hcnt, Bool.eq_iff_iff, hbit]
  simp only [decide_eq_true_eq, false_or, Bool.false_eq_true]
  omega

/-- C4 (amended) instantiated: over `demoPolicy` the values 0 and 2 address slots 0, 1, 2, 7;
both filters report 2. -/
theorem C4_bit_counter_agree_distinct_slots_witness :
    (counting_bloom_filter.probes demoPolicy [0, 2]).Nodup ∧
    counting_bloom_filter_0.contains demoPolicy
      (counting_bloom_filter_0.insert_all demoPolicy (counting_bloom_filter_0.empty demoPolicy)
        [0, 2]) 2 =
    counting_bloom_filter.contains demoPolicy
      (counting_bloom_filter.insert_all 1 demoPolicy (counting_bloom_filter.empty demoPolicy)
        [0, 2]) 2 :=
  ⟨by decide, C4_bit_counter_agree_distinct_slots demoPolicy [0, 2] 2 (by decide)⟩

/-! ## C5: contains_less_than is monotone in the threshold -/

/-- C5: counter storage, every state, value and thresholds `t1 < t2`:
`contains_less_than(v, t1)` true implies `contains_less_than(v, t2)` true. -/
theorem C5_contains_less_than_mono (P : Policy α) (s : counting_bloom_filter.State P) (v : α)
    (t1 t2 : Nat) (ht : t1 < t2)
    (h1 : counting_bloom_filter.contains_less_than P s v t1 = true) :
    counting_bloom_filter.contains_less_than P s v t2 = true := by
  unfold counting_bloom_filter.contains_less_than at h1 ⊢
  rw [List.all_eq_true] at h1 ⊢
  intro idx hidx
  have := h1 idx hidx
  simp only [decide_eq_true_eq] at this ⊢
  omega

/-- C5 instantiated: every slot holds 2, thresholds 3 and 5, value 6 over `demoPolicy`. -/
theorem C5_contains_less_than_mono_witness :
    (3 : Nat) < 5 ∧
    counting_bloom_filter.contains_less_than demoPolicy (fun _ => 2) 6 3 = true ∧
    counting_bloom_filter.contains_less_than demoPolicy (fun _ => 2) 6 5 = true :=
  ⟨by decide, by decide,
    C5_contains_less_than_mono demoPolicy (fun _ => 2) 6 3 5 (by decide) (by decide)⟩

/-! ## C6: the scenario of `test.cpp` -/

/-- C6: in the configuration of `test.cpp` (`int` values hashed as their four raw bytes by
`murmur3_64bit` with seed 5342357, bit storage, probability-driven policy with expected 1000
and p = 1/1000, which derives 14377 buckets), after `insert(42)` and `insert(0)` on an empty
filter `contains(42)` and `contains(0)` are true and `contains(100)` is false. -/
theorem C6_test_scenario :
    detail.bloom_filter_false_positive_policy.accepted 1 1000 ∧
    detail.bloom_filter_false_positive_policy.num_buckets 1000 1 1000 = 14377 ∧
    testPolicy.num_buckets = 14377 ∧
    counting_bloom_filter_0.contains testPolicy
      (counting_bloom_filter_0.insert testPolicy
        (counting_bloom_filter_0.insert testPolicy
          (counting_bloom_filter_0.empty testPolicy) 42) 0) 42 = true ∧
    counting_bloom_filter_0.contains testPolicy
      (counting_bloom_filter_0.insert testPolicy
        (counting_bloom_filter_0.insert testPolicy
          (counting_bloom_filter_0.empty testPolicy) 42) 0) 0 = true ∧
    counting_bloom_filter_0.contains testPolicy
      (counting_bloom_filter_0.insert testPolicy
        (counting_bloom_filter_0.insert testPolicy
          (counting_bloom_filter_0.empty testPolicy) 42) 0) 100 = false := by
  refine ⟨?_, num_buckets_test, rfl, ?_, ?_, ?_⟩
  · unfold detail.bloom_filter_false_positive_policy.accepted
      detail.bloom_filter_false_positive_policy.false_positive_probability
    norm_num
  · decide
  · decide
  · decide

/-! ## C7: the probability-driven bucket count truncates a double -/

/-- C7 as stated fails: for expected cardinality 1 and p = 1/2 the formula
`ceil(-N ln(p) / (ln 2)^2)` is `ceil(1 / ln 2) = 2`, while in every double arithmetic obeying
the IEEE-754 laws (`refOps` is one) the policy accepts p = 1/2 and `num_buckets()` is 1. -/
theorem C7_num_buckets_not_ceil :
    Nat.ceil (spec_bucket_count 1 (((1 : Int) : ℝ) / ((2 : Int) : ℝ))) = 2 ∧
    refOps.Standard ((1 / 2) ^ 52) ∧
    ∀ (F : FloatOps) (u : ℝ), F.Standard u → u ≤ 1 / 1024 →
      f64.bloom_filter_false_positive_policy.accepted F 1 2 ∧
      f64.bloom_filter_false_positive_policy.num_buckets F 1 1 2 = some 1 :=
  ⟨spec_ceil_one_half, refOps_standard, fun _ _ hF hu => num_buckets_double_one_half hF hu⟩

/-- C7 (amended): in double arithmetic with unit roundoff `u`, for every expected cardinality
`N < 2^64` and every ratio `Num/Denom` of 64-bit integers that passes the policy's static
check, the exact ratio lies in (0,1) and, writing `x = -N ln(p) / (ln 2)^2` for the exact real
value and `e = u (14 x + 28 N)` for the accumulated rounding error, `num_buckets()` is a
natural number `m` with `x - e - 1 < m <= x + e` (provided `x + e < 2^64`, so that the
conversion to `std::size_t` is defined); whenever `k + e <= x < k + 1 - e` for a natural
number `k`, `m = k`, the truncation (floor) of `x`. -/
theorem C7_num_buckets_truncates_double (F : FloatOps) (u : ℝ) (hF : F.Standard u)
    (hu : u ≤ 1 / 1024) (Expected : Nat) (Num Denom : Int) (hN : Expected < 2 ^ 64)
    (hNum : |Num| < 2 ^ 63) (hDen : |Denom| < 2 ^ 63)
    (hacc : f64.bloom_filter_false_positive_policy.accepted F Num Denom)
    (hx : spec_bucket_count Expected ((Num : ℝ) / (Denom : ℝ)) +
      bucket_count_error u Expected ((Num : ℝ) / (Denom : ℝ)) < 2 ^ 64) :
    (0 < (Num : ℝ) / (Denom : ℝ) ∧ (Num : ℝ) / (Denom : ℝ) < 1) ∧
    ∃ m : Nat, f64.bloom_filter_false_positive_policy.num_buckets F Expected Num Denom = some m ∧
      spec_bucket_count Expected ((Num : ℝ) / (Denom : ℝ)) -
        bucket_count_error u Expected ((Num : ℝ) / (Denom : ℝ)) - 1 < (m : ℝ) ∧
      (m : ℝ) ≤ spec_bucket_count Expected ((Num : ℝ) / (Denom : ℝ)) +
        bucket_count_error u Expected ((Num : ℝ) / (Denom : ℝ)) ∧
      ∀ k : Nat,
        (k : ℝ) + bucket_count_error u Expected ((Num : ℝ) / (Denom : ℝ)) ≤
          spec_bucket_count Expected ((Num : ℝ) / (Denom : ℝ)) →
        spec_bucket_count Expected ((Num : ℝ) / (Denom : ℝ)) +
          bucket_count_error u Expected ((Num : ℝ) / (Denom : ℝ)) < (k : ℝ) + 1 →
        m = k := by
  unfold bucket_count_error at hx ⊢
  exact ⟨accepted_double_exact hF Num Denom hacc,
    num_buckets_double_near hF hu Expected Num Denom hN hNum hDen hacc hx⟩

/-- C7 (amended) instantiated in the arithmetic `refOps` at expected cardinality 1000 and
p = 1/1000: the exact value 14377.59.. is far from an integer, the bucket count is 14377. -/
theorem C7_num_buckets_truncates_double_witness :
    refOps.Standard ((1 / 2) ^ 52) ∧
    f64.bloom_filter_false_positive_policy.accepted refOps 1 1000 ∧
    f64.bloom_filter_false_positive_policy.num_buckets refOps 1000 1 1000 = some 14377 := by
  have hu : ((1 : ℝ) / 2) ^ 52 ≤ 1 / 1024 := by norm_num
  have hu9 : ((1 : ℝ) / 2) ^ 52 ≤ 1 / 1000000000 := by norm_num
  have hu0 : (0 : ℝ) < (1 / 2) ^ 52 := by positivity
  have hacc := accepted_double_of_ratio refOps_standard hu 1 1000 (by norm_num) (by norm_num)
    (by norm_num)
  obtain ⟨b1, b2⟩ := spec_bucket_count_test_bounds
  have he : bucket_count_error ((1 / 2) ^ 52) 1000 (((1 : Int) : ℝ) / ((1000 : Int) : ℝ)) ≤
      1 / 1000 := by
    unfold bucket_count_error
    generalize ((1 : ℝ) / 2) ^ 52 = v at hu9 hu0
    have k := mul_le_mul hu9
      (show 14 * spec_bucket_count 1000 (((1 : Int) : ℝ) / ((1000 : Int) : ℝ)) +
        28 * ((1000 : Nat) : ℝ) ≤ 230000 by push_cast; linarith only [b2])
      (by push_cast; linarith only [b1]) (by norm_num)
    linarith only [k]
  have he0 : 0 ≤
      bucket_count_error ((1 / 2) ^ 52) 1000 (((1 : Int) : ℝ) / ((1000 : Int) : ℝ)) := by
    unfold bucket_count_error
    apply mul_nonneg hu0.le
    push_cast
    linarith only [b1]
  obtain ⟨-, m, hm, -, -, hk⟩ := C7_num_buckets_truncates_double refOps ((1 / 2) ^ 52)
    refOps_standard hu 1000 1 1000 (by norm_num) (by norm_num) (by norm_num) hacc (by
      have : (20000 : ℝ) ≤ 2 ^ 64 := by norm_num
      linarith only [this, b2, he])
  refine ⟨refOps_standard, hacc, ?_⟩
  rw [hm, hk 14377 (by push_cast; linarith only [b1, he])
    (by push_cast; linarith only [b2, he])]

/-! ## C8: an accepted configuration with zero buckets -/

/-- C8 fails on the code: expected cardinality 1 with p = 9/10 passes the policy's static
check, and `num_buckets()` is 0 (`-ln(0.9) / (ln 2)^2` is about 0.22 and is truncated). -/
theorem C8_num_buckets_zero_accepted :
    detail.bloom_filter_false_positive_policy.accepted 9 10 ∧
    detail.bloom_filter_false_positive_policy.num_buckets 1 9 10 = 0 := by
  have hL0 := Real.log_two_gt_d9
  have hLpos : (0 : ℝ) < Real.log 2 := by linarith
  have hsqpos : (0 : ℝ) < (Real.log 2) ^ 2 := by positivity
  constructor
  · unfold detail.bloom_filter_false_positive_policy.accepted
      detail.bloom_filter_false_positive_policy.false_positive_probability
    norm_num
  · unfold detail.bloom_filter_false_positive_policy.num_buckets
      detail.bloom_filter_false_positive_policy.false_positive_probability
    rw [Nat.floor_eq_zero]
    have h9 : (1 : ℝ) - ((9 : ℝ) / 10)⁻¹ ≤ Real.log (9 / 10) :=
      Real.one_sub_inv_le_log_of_pos (by norm_num)
    have hx : -((((1 : ℕ) : ℝ) * Real.log (((9 : ℤ) : ℝ) / ((10 : ℤ) : ℝ))) /
        (Real.log 2) ^ 2) = (-Real.log (9 / 10)) / (Real.log 2) ^ 2 := by
      push_cast
      ring
    rw [hx, div_lt_iff₀ hsqpos]
    norm_num at h9 ⊢
    nlinarith

/-! ## C9: the capacity-driven policy -/

/-- C10: `max_bucket_value()` is `2^W - 1` for counter storage of every width `W <= 64` (in
particular `1 <= W <= 64`) and 1 for bit storage; every slot of every state reachable from
the empty filter by insert, remove and reset is at most `2^W - 1`. -/
theorem C10_counter_range (W : Nat) (hW : W ≤ 64) (P : Policy α)
    (s : counting_bloom_filter.State P) (hs : counting_bloom_filter.Reachable W P s)
    (j : Fin P.num_buckets) :
    counting_bloom_filter.max_bucket_value W = some (2 ^ W - 1) ∧
    counting_bloom_filter_0.max_bucket_value = 1 ∧
    s j ≤ 2 ^ W - 1 := by
  have hpow : 2 ^ W ≤ 2 ^ 64 := Nat.pow_le_pow_right (by decide) hW
  have hpos : 0 < 2 ^ W := by positivity
  refine ⟨?_, rfl, ?_⟩
  · unfold counting_bloom_filter.max_bucket_value
    rw [if_pos (by omega)]
  · have := reachable_lt_modulus W P s hs j
    rw [Nat.min_eq_left hW] at this
    omega

/-- C10 instantiated: 2-bit counters over `onePolicy`; after `remove(1)` on the empty filter
(slot 1 wraps from 0 to 3) and `insert(2)`, slot 1 is at most 3. -/
theorem C10_counter_range_witness :
    (2 : Nat) ≤ 64 ∧
    counting_bloom_filter.Reachable 2 onePolicy
      (counting_bloom_filter.insert 2 onePolicy
        (counting_bloom_filter.remove 2 onePolicy (counting_bloom_filter.empty onePolicy) 1)
        2) ∧
    counting_bloom_filter.max_bucket_value 2 = some (2 ^ 2 - 1) ∧
    counting_bloom_filter_0.max_bucket_value = 1 ∧
    counting_bloom_filter.insert 2 onePolicy
        (counting_bloom_filter.remove 2 onePolicy (counting_bloom_filter.empty onePolicy) 1)
        2 ⟨1, by decide⟩ ≤ 2 ^ 2 - 1 :=
  have hr : counting_bloom_filter.Reachable 2 onePolicy
      (counting_bloom_filter.insert 2 onePolicy
        (counting_bloom_filter.remove 2 onePolicy (counting_bloom_filter.empty onePolicy) 1)
        2) :=
    counting_bloom_filter.Reachable.insert _ 2
      (counting_bloom_filter.Reachable.remove _ 1 counting_bloom_filter.Reachable.empty)
  ⟨by decide, hr, C10_counter_range 2 (by decide) onePolicy _ hr ⟨1, by decide⟩⟩

/-! ## Lemmas: the cardinality estimate -/

section ApproxLemmas

theorem bit_count_le (P : Policy α) (b : counting_bloom_filter_0.State P) :
    counting_bloom_filter_0.count P b ≤ P.num_buckets := by
  unfold counting_bloom_filter_0.count
  have h := List.countP_le_length (fun j => b j) (l := List.finRange P.num_buckets)
  rwa [List.length_finRange] at h

theorem buckets_set_congr (P : Policy α) (s t : counting_bloom_filter.State P)
    (h : ∀ j, 0 < s j ↔ 0 < t j) :
    counting_bloom_filter.buckets_set P s = counting_bloom_filter.buckets_set P t := by
  unfold counting_bloom_filter.buckets_set
  apply List.countP_congr
  intro j _
  simpa using h j

theorem count_eq_buckets_set (P : Policy α) (b : counting_bloom_filter_0.State P)
    (s : counting_bloom_filter.State P) (h : ∀ j, b j = true ↔ 0 < s j) :
    counting_bloom_filter_0.count P b = counting_bloom_filter.buckets_set P s := by
  unfold counting_bloom_filter_0.count counting_bloom_filter.buckets_set
  apply List.countP_congr
  intro j _
  simpa using h j

end ApproxLemmas

section EstimatePolicyLemmas

/-- The estimate in double arithmetic against the exact real value of the formula. -/
theorem approx_formula_double_near {F : FloatOps} {u : ℝ} (hF : F.Standard u)
    (hu : u ≤ 1 / 1024) (P : Policy α) (n : Nat) (hK : 1 ≤ P.num_hashes)
    (hK53 : P.num_hashes ≤ 2 ^ 53) (hn : n < P.num_buckets)
    (hMu : 8 * u * (P.num_buckets : ℝ) ≤ 1) :
    ∃ m : Nat, f64.approx_formula F P n = some m ∧
      spec_estimate P.num_buckets P.num_hashes n -
        estimate_error u P.num_buckets P.num_hashes n - 1 < (m : ℝ) ∧
      (m : ℝ) ≤ spec_estimate P.num_buckets P.num_hashes n +
        estimate_error u P.num_buckets P.num_hashes n ∧
      ∀ k : Nat,
        (k : ℝ) + estimate_error u P.num_buckets P.num_hashes n ≤
          spec_estimate P.num_buckets P.num_hashes n →
        spec_estimate P.num_buckets P.num_hashes n +
          estimate_error u P.num_buckets P.num_hashes n < (k : ℝ) + 1 →
        m = k := by
  obtain ⟨hsign, herr⟩ := approx_double_error hF hu P.num_buckets P.num_hashes n hK hK53 hn hMu
  have hx := estimate_in_range u P.num_buckets P.num_hashes n hF.u_ge hu hK hn hMu
  unfold f64.approx_formula estimate_error
  exact to_size_t_near _ _ _ hsign herr hx

theorem sparseBits_apply (j : Fin sparsePolicy.num_buckets) :
    sparseBits j = true ↔ j = sparsePolicy.slot 0 := by
  unfold sparseBits
  rw [bit_insert_apply]
  constructor
  · rintro (h | ⟨idx, hidx, hj⟩)
    · simp [counting_bloom_filter_0.empty] at h
    · have : idx = 0 := by simpa [sparsePolicy] using hidx
      rw [← hj, this]
  · intro h
    exact Or.inr ⟨0, by simp [sparsePolicy], h.symm⟩

theorem sparseBits_count : counting_bloom_filter_0.count sparsePolicy sparseBits = 1 := by
  have h1 : counting_bloom_filter_0.count sparsePolicy sparseBits =
      List.count (sparsePolicy.slot 0) (List.finRange sparsePolicy.num_buckets) := by
    unfold counting_bloom_filter_0.count List.count
    apply List.countP_congr
    intro j _
    rw [sparseBits_apply j]
    simp
  rw [h1]
  exact List.count_eq_one_of_mem (List.nodup_finRange _) (List.mem_finRange _)

theorem spec_estimate_sparse :
    Nat.floor (spec_estimate sparsePolicy.num_buckets sparsePolicy.num_hashes 1) = 1 := by
  have hM : ((sparsePolicy.num_buckets : Nat) : ℝ) = 2 ^ 55 := by
    norm_num [sparsePolicy]
  have hK : ((sparsePolicy.num_hashes : Nat) : ℝ) = 1 := by
    simp [sparsePolicy]
  unfold spec_estimate
  rw [hM, hK, Nat.cast_one, div_one]
  have p : (0 : ℝ) < 2 ^ 55 := by positivity
  have hbig : (2 : ℝ) ≤ 2 ^ 55 := by norm_num
  have ht0 : (0 : ℝ) < 1 / 2 ^ 55 := by positivity
  have ht1 : (1 : ℝ) / 2 ^ 55 ≤ 1 / 2 := by
    rw [div_le_iff₀ p]
    linarith only [hbig]
  have hlo : Real.log (1 - 1 / 2 ^ 55) ≤ 1 - 1 / 2 ^ 55 - 1 :=
    Real.log_le_sub_one_of_pos (by linarith only [ht1])
  have hhi : 1 - (1 - 1 / 2 ^ 55)⁻¹ ≤ Real.log (1 - (1 : ℝ) / 2 ^ 55) :=
    Real.one_sub_inv_le_log_of_pos (by linarith only [ht1])
  have hinv : (1 - (1 : ℝ) / 2 ^ 55)⁻¹ = 2 ^ 55 / (2 ^ 55 - 1) := by
    field_simp
  rw [hinv] at hhi
  have hq : (2 : ℝ) ^ 55 * (2 ^ 55 / (2 ^ 55 - 1) - 1) < 2 := by
    have e : (2 : ℝ) ^ 55 / (2 ^ 55 - 1) - 1 = 1 / (2 ^ 55 - 1) := by
      field_simp
    rw [e, mul_one_div, div_lt_iff₀ (by linarith only [hbig])]
    linarith only [hbig]
  have ht : (2 : ℝ) ^ 55 * (1 / 2 ^ 55) = 1 := by field_simp
  generalize Real.log (1 - (1 : ℝ) / 2 ^ 55) = L at hlo hhi ⊢
  generalize (2 : ℝ) ^ 55 / (2 ^ 55 - 1) = r at hhi hq
  generalize (1 : ℝ) / 2 ^ 55 = t at hlo ht
  generalize (2 : ℝ) ^ 55 = c at p hq ht ⊢
  have k1 : c * L ≤ c * (1 - t - 1) := mul_le_mul_of_nonneg_left hlo p.le
  have k2 : c * (1 - r) ≤ c * L := mul_le_mul_of_nonneg_left hhi p.le
  have h1 : 1 ≤ -(c * L) := by linarith only [k1, ht]
  have h2 : -(c * L) < 2 := by linarith only [k2, hq]
  rw [Nat.floor_eq_iff (le_trans zero_le_one h1)]
  constructor
  · simpa using h1
  · norm_num
    linarith only [h2]

theorem approx_inserted_double_sparse {F : FloatOps} {u : ℝ} (hF : F.Standard u)
    (hu : u ≤ 1 / 1024) :
    f64.counting_bloom_filter_0.approx_inserted F sparsePolicy sparseBits = some 0 := by
  unfold f64.counting_bloom_filter_0.approx_inserted f64.approx_formula
  rw [sparseBits_count]
  exact approx_double_sparse hF hu sparsePolicy.num_buckets sparsePolicy.num_hashes
    (le_refl _) (by simp [sparsePolicy])

/-- After `reset()` the estimate evaluated in double arithmetic is 0 for both storages. -/
theorem approx_inserted_double_reset {F : FloatOps} {u : ℝ} (hF : F.Standard u)
    (P : Policy α) (b : counting_bloom_filter_0.State P) (s : counting_bloom_filter.State P) :
    f64.counting_bloom_filter_0.approx_inserted F P (counting_bloom_filter_0.reset P b) =
      some 0 ∧
    f64.counting_bloom_filter.approx_inserted F P (counting_bloom_filter.reset P s) =
      some 0 := by
  have h1 : counting_bloom_filter_0.count P (counting_bloom_filter_0.reset P b) = 0 := by
    simp [counting_bloom_filter_0.count, counting_bloom_filter_0.reset]
  have h2 : counting_bloom_filter.buckets_set P (counting_bloom_filter.reset P s) = 0 := by
    simp [counting_bloom_filter.buckets_set, counting_bloom_filter.reset]
  unfold f64.counting_bloom_filter_0.approx_inserted f64.counting_bloom_filter.approx_inserted
    f64.approx_formula
  rw [h1, h2]
  exact ⟨approx_double_zero hF _ _, approx_double_zero hF _ _⟩

theorem spec_estimate_demo :
    (1 : ℝ) / 2 ≤ spec_estimate demoPolicy.num_buckets demoPolicy.num_hashes 1 ∧
    spec_estimate demoPolicy.num_buckets demoPolicy.num_hashes 1 ≤ 4 / 7 ∧
    estimate_error ((1 / 2) ^ 52) demoPolicy.num_buckets demoPolicy.num_hashes 1 ≤ 1 / 4 ∧
    0 ≤ estimate_error ((1 / 2) ^ 52) demoPolicy.num_buckets demoPolicy.num_hashes 1 := by
  have hM : ((demoPolicy.num_buckets : Nat) : ℝ) = 8 := by simp [demoPolicy]
  have hK : ((demoPolicy.num_hashes : Nat) : ℝ) = 2 := by simp [demoPolicy]
  have hlo : Real.log (7 / 8) ≤ 7 / 8 - 1 := Real.log_le_sub_one_of_pos (by norm_num)
  have hhi : 1 - ((7 : ℝ) / 8)⁻¹ ≤ Real.log (7 / 8) :=
    Real.one_sub_inv_le_log_of_pos (by norm_num)
  have hx : spec_estimate demoPolicy.num_buckets demoPolicy.num_hashes 1 =
      -(4 * Real.log (7 / 8)) := by
    unfold spec_estimate
    rw [hM, hK]
    norm_num
  unfold estimate_error
  rw [hx, hM, hK]
  norm_num at hlo hhi ⊢
  refine ⟨by linarith only [hlo], by linarith only [hhi], by linarith only [hlo, hhi],
    by linarith only [hlo, hhi]⟩

end EstimatePolicyLemmas

/-! ## C11: the cardinality estimate -/

/-- C11 as stated fails: over `2 ^ 55` buckets with one probe per value, after `insert(0)` on
the empty bit filter exactly one bit is set and `trunc(-(M/K) ln(1 - 1/M)) = 1`, while in
every double arithmetic obeying the IEEE-754 laws (`refOps` is one) `1. - 1/M` rounds to `1.`
and `approx_inserted()` returns 0. -/
theorem C11_estimate_not_exact_trunc :
    counting_bloom_filter_0.count sparsePolicy sparseBits = 1 ∧
    Nat.floor (spec_estimate sparsePolicy.num_buckets sparsePolicy.num_hashes 1) = 1 ∧
    refOps.Standard ((1 / 2) ^ 52) ∧
    ∀ (F : FloatOps) (u : ℝ), F.Standard u → u ≤ 1 / 1024 →
      f64.counting_bloom_filter_0.approx_inserted F sparsePolicy sparseBits = some 0 :=
  ⟨sparseBits_count, spec_estimate_sparse, refOps_standard,
    fun _ _ hF hu => approx_inserted_double_sparse hF hu⟩

/-- C11 (amended): `approx_inserted()` is the truncation of the double evaluation of
`-(M/K) ln(1 - s/M)`, where `s` is the number of set bits (bit storage) or of slots with value
`> 0` (counter storage).  A counter state `t` with the same non-zero slots as `s` gets the
same estimate, and so does a bit state whose set bits are exactly those slots; with no slot
set the estimate is 0.  With `1 <= K <= 2^53` probes, fewer than `M` set slots and
`8 u M <= 1`, writing `x` for the exact real value of the formula and
`e = u (5 x + 3 (M/K) (M/(M - s)))`, the estimate is a natural number `m` with
`x - e - 1 < m <= x + e`, and `m = k` (the truncation of `x`) whenever
`k + e <= x < k + 1 - e` for a natural number `k`. -/
theorem C11_approx_inserted_double (F : FloatOps) (u : ℝ) (hF : F.Standard u)
    (hu : u ≤ 1 / 1024) (P : Policy α) (hK : 1 ≤ P.num_hashes) (hK53 : P.num_hashes ≤ 2 ^ 53)
    (hMu : 8 * u * (P.num_buckets : ℝ) ≤ 1)
    (b : counting_bloom_filter_0.State P) (s t : counting_bloom_filter.State P)
    (hfull : counting_bloom_filter.buckets_set P s < P.num_buckets)
    (hst : ∀ j, 0 < s j ↔ 0 < t j) (hbs : ∀ j, b j = true ↔ 0 < s j) :
    f64.counting_bloom_filter.approx_inserted F P t =
      f64.counting_bloom_filter.approx_inserted F P s ∧
    f64.counting_bloom_filter_0.approx_inserted F P b =
      f64.counting_bloom_filter.approx_inserted F P s ∧
    (counting_bloom_filter.buckets_set P s = 0 →
      f64.counting_bloom_filter.approx_inserted F P s = some 0) ∧
    ∃ m : Nat, f64.counting_bloom_filter.approx_inserted F P s = some m ∧
      spec_estimate P.num_buckets P.num_hashes (counting_bloom_filter.buckets_set P s) -
        estimate_error u P.num_buckets P.num_hashes (counting_bloom_filter.buckets_set P s) - 1
          < (m : ℝ) ∧
      (m : ℝ) ≤
        spec_estimate P.num_buckets P.num_hashes (counting_bloom_filter.buckets_set P s) +
        estimate_error u P.num_buckets P.num_hashes (counting_bloom_filter.buckets_set P s) ∧
      ∀ k : Nat,
        (k : ℝ) +
            estimate_error u P.num_buckets P.num_hashes (counting_bloom_filter.buckets_set P s) ≤
          spec_estimate P.num_buckets P.num_hashes (counting_bloom_filter.buckets_set P s) →
        spec_estimate P.num_buckets P.num_hashes (counting_bloom_filter.buckets_set P s) +
            estimate_error u P.num_buckets P.num_hashes (counting_bloom_filter.buckets_set P s) <
          (k : ℝ) + 1 →
        m = k := by
  refine ⟨?_, ?_, ?_, ?_⟩
  · unfold f64.counting_bloom_filter.approx_inserted
    rw [buckets_set_congr P s t hst]
  · unfold f64.counting_bloom_filter_0.approx_inserted f64.counting_bloom_filter.approx_inserted
    rw [count_eq_buckets_set P b s hbs]
  · intro h0
    unfold f64.counting_bloom_filter.approx_inserted f64.approx_formula
    rw [h0]
    exact approx_double_zero hF _ _
  · exact approx_formula_double_near hF hu P _ hK hK53 hfull hMu

/-- C11 (amended) instantiated in the arithmetic `refOps` over `demoPolicy`: slot 1 holds 3 in
one counter state and 1 in the other, bit 1 is the only set bit; one of eight slots is set,
the exact value `-4 ln(7/8) = 0.53..` is far from an integer and the estimate is 0. -/
theorem C11_approx_inserted_double_witness :
    refOps.Standard ((1 / 2) ^ 52) ∧
    f64.counting_bloom_filter.approx_inserted refOps demoPolicy demoCountersLow =
      f64.counting_bloom_filter.approx_inserted refOps demoPolicy demoCounters ∧
    f64.counting_bloom_filter_0.approx_inserted refOps demoPolicy demoBits =
      f64.counting_bloom_filter.approx_inserted refOps demoPolicy demoCounters ∧
    f64.counting_bloom_filter.approx_inserted refOps demoPolicy demoCounters = some 0 := by
  have hu : ((1 : ℝ) / 2) ^ 52 ≤ 1 / 1024 := by norm_num
  have hset : counting_bloom_filter.buckets_set demoPolicy demoCounters = 1 := by decide
  obtain ⟨b1, b2, b3, b4⟩ := spec_estimate_demo
  obtain ⟨h1, h2, -, m, hm, -, -, hk⟩ := C11_approx_inserted_double refOps ((1 / 2) ^ 52)
    refOps_standard hu demoPolicy (by decide) (by decide)
    (by
      have : ((demoPolicy.num_buckets : Nat) : ℝ) = 8 := by simp [demoPolicy]
      rw [this]
      norm_num)
    demoBits demoCounters demoCountersLow (by decide) (by decide) (by decide)
  rw [hset] at hk
  refine ⟨refOps_standard, h1, h2, ?_⟩
  rw [hm, hk 0 (by push_cast; linarith only [b1, b3])
    (by push_cast; linarith only [b2, b3])]

/-! ## C12: what insert does to each counter -/

/-- C12: counter storage of width `W <= 64` (in particular `1 <= W <= 64`), every state with
slots below `2^W` and every value `v`: `insert` changes slot `j` to `(s j + c) mod 2^W`, where
`c` is the number of probe indices of `v` that reduce to `j`; a slot addressed by no probe
index is unchanged, and a slot at the maximum `2^W - 1` hit once becomes 0. -/
theorem C12_insert_slotwise (W : Nat) (hW : W ≤ 64) (P : Policy α)
    (s : counting_bloom_filter.State P) (hs : ∀ j, s j < 2 ^ W) (v : α)
    (j : Fin P.num_buckets) :
    counting_bloom_filter.insert W P s v j =
      (s j + ((P.hash v).map P.slot).count j) % 2 ^ W ∧
    (((P.hash v).map P.slot).count j = 0 → counting_bloom_filter.insert W P s v j = s j) ∧
    (s j = 2 ^ W - 1 → ((P.hash v).map P.slot).count j = 1 →
      counting_bloom_filter.insert W P s v j = 0) := by
  have hmin : min W 64 = W := Nat.min_eq_left hW
  have hj : s j < 2 ^ min W 64 := by rw [hmin]; exact hs j
  have h := cnt_insert_apply W P s v j hj
  rw [hmin] at h
  have hpos : 0 < 2 ^ W := by positivity
  refine ⟨h, ?_, ?_⟩
  · intro h0
    rw [h, h0, Nat.add_zero, Nat.mod_eq_of_lt (hs j)]
  · intro hmax h1
    rw [h, hmax, h1, Nat.sub_add_cancel hpos, Nat.mod_self]

/-- C12 instantiated: 2-bit counters over `demoPolicy`, slot 1 at the maximum 3; inserting 0
(probe slots 0 and 1) wraps slot 1 to 0, and slot 5 is not addressed. -/
theorem C12_insert_slotwise_witness :
    (2 : Nat) ≤ 64 ∧ (∀ j, demoCounters j < 2 ^ 2) ∧
    counting_bloom_filter.insert 2 demoPolicy demoCounters 0 ⟨1, by decide⟩ =
      (demoCounters ⟨1, by decide⟩ +
        ((demoPolicy.hash 0).map demoPolicy.slot).count ⟨1, by decide⟩) % 2 ^ 2 ∧
    counting_bloom_filter.insert 2 demoPolicy demoCounters 0 ⟨1, by decide⟩ = 0 :=
  have h := C12_insert_slotwise 2 (by decide) demoPolicy demoCounters (by decide) 0
    ⟨1, by decide⟩
  ⟨by decide, by decide, h.1, h.2.2 (by decide) (by decide)⟩

/-! ## C13: fast_mod is the remainder -/

/-- C13: `detail::fast_mod(x, c)` equals `x mod c` for every `x` and every `c > 0` and is
below `c`; every slot index used by insert, remove, contains and contains_less_than is the
remainder of the raw index modulo the bucket count and lies below the bucket count. -/
theorem C13_fast_mod_is_mod (x c : Nat) (hc : 0 < c) (P : Policy α) (idx : Nat) :
    detail.fast_mod x c = x % c ∧ detail.fast_mod x c < c ∧
    (P.slot idx).val = idx % P.num_buckets ∧ (P.slot idx).val < P.num_buckets := by
  have key : ∀ a b : Nat, detail.fast_mod a b = a % b := by
    intro a b
    unfold detail.fast_mod
    split
    · rfl
    · exact (Nat.mod_eq_of_lt (by omega)).symm
  refine ⟨key x c, ?_, key idx P.num_buckets, (P.slot idx).isLt⟩
  rw [key]
  exact Nat.mod_lt _ hc

/-- C13 instantiated: `fast_mod(29, 8) = 5` and the slot of raw index 29 over `demoPolicy`. -/
theorem C13_fast_mod_is_mod_witness :
    (0 : Nat) < 8 ∧
    detail.fast_mod 29 8 = 29 % 8 ∧ detail.fast_mod 29 8 < 8 ∧
    (demoPolicy.slot 29).val = 29 % demoPolicy.num_buckets ∧
    (demoPolicy.slot 29).val < demoPolicy.num_buckets :=
  ⟨by decide, C13_fast_mod_is_mod 29 8 (by decide) demoPolicy 29⟩

/-! ## C14: both lanes of murmur3_64bit are the same word -/

/-- C14: for every byte sequence, length and seed `murmur3_64bit` returns two identical lanes
(the pair is `(h1, h1)`), so the two probe indices of the default adapter coincide and address
the same slot, for every scalar type, value and bucket count. -/
theorem C14_murmur3_lanes_equal (key : List Nat) (len seed : Nat) (repr : α → List Nat)
    (size : Nat) (t : α) (M : Nat) (hM : 0 < M) :
    (∃ h1, murmur3_64bit key len seed = [h1, h1]) ∧
    (∃ h1, default_bloom_filter_hash_of repr size t = [h1, h1]) ∧
    (∃ i, ((defaultPolicy repr size M hM).hash t).map (defaultPolicy repr size M hM).slot =
      [i, i]) := by
  have lanes : ∀ (k : List Nat) (l sd : Nat), ∃ h1, murmur3_64bit k l sd = [h1, h1] := by
    intro k l sd
    unfold murmur3_64bit
    exact ⟨_, rfl⟩
  obtain ⟨h1, hh⟩ := lanes (repr t) size 5342357
  refine ⟨lanes key len seed, ⟨h1, hh⟩, (defaultPolicy repr size M hM).slot h1, ?_⟩
  have : (defaultPolicy repr size M hM).hash t = [h1, h1] := hh
  rw [this]
  rfl

/-- C14 instantiated: the key "abc" with seed 7, and the `int` 42 over 8 buckets. -/
theorem C14_murmur3_lanes_equal_witness :
    (0 : Nat) < 8 ∧
    (∃ h1, murmur3_64bit [97, 98, 99] 3 7 = [h1, h1]) ∧
    (∃ h1, default_bloom_filter_hash_of int_bytes 4 42 = [h1, h1]) ∧
    (∃ i, ((defaultPolicy int_bytes 4 8 (by decide)).hash 42).map
      (defaultPolicy int_bytes 4 8 (by decide)).slot = [i, i]) :=
  ⟨by decide, C14_murmur3_lanes_equal [97, 98, 99] 3 7 int_bytes 4 42 8 (by decide)⟩

/-! ## C15: remove and insert undo each other -/

/-- C15: counter storage of width `W <= 64` (in particular `1 <= W <= 64`), any hash adapter,
every state with slots below `2^W` and every value: `remove(insert(s, v)) = s` and
`insert(remove(s, v)) = s`, wrapping counters included. -/
theorem C15_insert_remove_inverse (W : Nat) (hW : W ≤ 64) (P : Policy α)
    (s : counting_bloom_filter.State P) (hs : ∀ j, s j < 2 ^ W) (v : α) :
    counting_bloom_filter.remove W P (counting_bloom_filter.insert W P s v) v = s ∧
    counting_bloom_filter.insert W P (counting_bloom_filter.remove W P s v) v = s := by
  have hmin : min W 64 = W := Nat.min_eq_left hW
  have hlt : ∀ j, s j < 2 ^ min W 64 := by intro j; rw [hmin]; exact hs j
  obtain ⟨q, hq⟩ := modulus_dvd W
  have hpos := modulus_pos W
  have hone : ∀ c : Nat, c + c * (2 ^ 64 - 1) = 2 ^ min W 64 * (c * q) := by
    intro c
    have h1 : c + c * (2 ^ 64 - 1) = c * 2 ^ 64 := by
      rw [Nat.add_comm, ← Nat.mul_succ]
      congr 1
    rw [h1, hq]
    ring
  constructor
  · funext j
    have hi := cnt_insert_apply W P s v j (hlt j)
    have hilt : counting_bloom_filter.insert W P s v j < 2 ^ min W 64 := by
      rw [hi]; exact Nat.mod_lt _ hpos
    rw [cnt_remove_apply W P _ v j hilt, hi, Nat.add_mod, Nat.mod_mod, ← Nat.add_mod,
      Nat.add_assoc, hone, Nat.add_mul_mod_self_left, Nat.mod_eq_of_lt (hlt j)]
  · funext j
    have hr := cnt_remove_apply W P s v j (hlt j)
    have hrlt : counting_bloom_filter.remove W P s v j < 2 ^ min W 64 := by
      rw [hr]; exact Nat.mod_lt _ hpos
    rw [cnt_insert_apply W P _ v j hrlt, hr, Nat.add_mod, Nat.mod_mod, ← Nat.add_mod,
      Nat.add_assoc, Nat.add_comm (_ * (2 ^ 64 - 1)), hone, Nat.add_mul_mod_self_left,
      Nat.mod_eq_of_lt (hlt j)]

/-- C15 instantiated: 2-bit counters over `demoPolicy` with slot 1 at the maximum; inserting
and removing 0 wraps slot 1 and restores it. -/
theorem C15_insert_remove_inverse_witness :
    (2 : Nat) ≤ 64 ∧ (∀ j, demoCounters j < 2 ^ 2) ∧
    counting_bloom_filter.remove 2 demoPolicy
      (counting_bloom_filter.insert 2 demoPolicy demoCounters 0) 0 = demoCounters ∧
    counting_bloom_filter.insert 2 demoPolicy
      (counting_bloom_filter.remove 2 demoPolicy demoCounters 0) 0 = demoCounters :=
  ⟨by decide, by decide,
    C15_insert_remove_inverse 2 (by decide) demoPolicy demoCounters (by decide) 0⟩

/-! ## Lemmas: the default adapter and commuting inserts -/

section DefaultAdapterLemmas

/-- The adapter on `int` used by `test.cpp` is the scalar adapter at `sizeof(int) = 4`. -/
theorem default_bloom_filter_hash_eq (t : Int) :
    default_bloom_filter_hash t = default_bloom_filter_hash_of int_bytes 4 t := rfl

theorem default_hash_lanes (repr : α → List Nat) (size : Nat) (t : α) :
    ∃ h1, default_bloom_filter_hash_of repr size t = [h1, h1] := by
  unfold default_bloom_filter_hash_of murmur3_64bit
  exact ⟨_, rfl⟩

/-- For every state, `insert` applies the increment to slot `j` once per probe index that
reduces to `j`. -/
theorem cnt_insert_iterate (W : Nat) (P : Policy α) (s : counting_bloom_filter.State P)
    (x : α) (j : Fin P.num_buckets) :
    counting_bloom_filter.insert W P s x j =
      (fun v => bitset_of W (u64 (v + 1)))^[((P.hash x).map P.slot).count j] (s j) :=
  foldl_update_apply P (fun v => bitset_of W (u64 (v + 1))) (P.hash x) s j

theorem bit_insert_comm (P : Policy α) (b : counting_bloom_filter_0.State P) (x y : α) :
    counting_bloom_filter_0.insert P (counting_bloom_filter_0.insert P b x) y =
      counting_bloom_filter_0.insert P (counting_bloom_filter_0.insert P b y) x := by
  funext j
  rw [Bool.eq_iff_iff, bit_insert_apply, bit_insert_apply, bit_insert_apply, bit_insert_apply]
  exact or_right_comm

theorem cnt_insert_comm (W : Nat) (P : Policy α) (s : counting_bloom_filter.State P)
    (x y : α) :
    counting_bloom_filter.insert W P (counting_bloom_filter.insert W P s x) y =
      counting_bloom_filter.insert W P (counting_bloom_filter.insert W P s y) x := by
  funext j
  rw [cnt_insert_iterate, cnt_insert_iterate, cnt_insert_iterate, cnt_insert_iterate,
    ← Function.iterate_add_apply, ← Function.iterate_add_apply, Nat.add_comm]

end DefaultAdapterLemmas

/-! ## C16: the default adapter on width-1 counters -/

/-- C16: with the default adapter (both lanes equal) on any scalar type, any positive bucket
count and counters of width 1, `insert` leaves every state with slots below 2 unchanged (the
one addressed counter is incremented twice and wraps back); after `insert(v)` on the empty
filter `contains(v)` is false. -/
theorem C16_default_width1_insert_noop (repr : α → List Nat) (size : Nat) (M : Nat)
    (hM : 0 < M) (s : counting_bloom_filter.State (defaultPolicy repr size M hM))
    (hs : ∀ j, s j < 2) (t : α) :
    counting_bloom_filter.insert 1 (defaultPolicy repr size M hM) s t = s ∧
    counting_bloom_filter.contains (defaultPolicy repr size M hM)
      (counting_bloom_filter.insert 1 (defaultPolicy repr size M hM)
        (counting_bloom_filter.empty (defaultPolicy repr size M hM)) t) t = false := by
  obtain ⟨h1, hh⟩ := default_hash_lanes repr size t
  have hhash : (defaultPolicy repr size M hM).hash t = [h1, h1] := hh
  have h2 : (2 : Nat) ^ min 1 64 = 2 := by decide
  have noop : ∀ s' : counting_bloom_filter.State (defaultPolicy repr size M hM),
      (∀ j, s' j < 2) →
      counting_bloom_filter.insert 1 (defaultPolicy repr size M hM) s' t = s' := by
    intro s' hs'
    funext j
    rw [cnt_insert_apply 1 _ s' t j (by rw [h2]; exact hs' j), h2, hhash]
    have := hs' j
    rw [List.map_cons, List.map_cons, List.map_nil]
    by_cases hj : (defaultPolicy repr size M hM).slot h1 = j
    · subst hj
      rw [List.count_cons_self, List.count_cons_self, List.count_nil]
      omega
    · have hne : j ≠ (defaultPolicy repr size M hM).slot h1 := fun e => hj e.symm
      rw [List.count_cons_of_ne hne, List.count_cons_of_ne hne, List.count_nil]
      omega
  refine ⟨noop s hs, ?_⟩
  rw [noop _ (by intro j; simp [counting_bloom_filter.empty])]
  simp [counting_bloom_filter.contains, counting_bloom_filter.empty, hhash]

/-- C16 instantiated: `int` values, eight buckets, the state with slot 3 at 1, the value 42. -/
theorem C16_default_width1_insert_noop_witness :
    (0 : Nat) < 8 ∧
    (∀ j : Fin 8, (fun i : Fin 8 => if i.val = 3 then 1 else 0) j < 2) ∧
    counting_bloom_filter.insert 1 (defaultPolicy int_bytes 4 8 (by decide))
      (fun i => if i.val = 3 then 1 else 0) 42 = (fun i => if i.val = 3 then 1 else 0) ∧
    counting_bloom_filter.contains (defaultPolicy int_bytes 4 8 (by decide))
      (counting_bloom_filter.insert 1 (defaultPolicy int_bytes 4 8 (by decide))
        (counting_bloom_filter.empty (defaultPolicy int_bytes 4 8 (by decide))) 42) 42
      = false :=
  ⟨by decide, by decide,
    C16_default_width1_insert_noop int_bytes 4 8 (by decide)
      (fun i => if i.val = 3 then 1 else 0) (by decide) 42⟩

/-! ## C17: inserts commute -/

/-- C17: for both storages, any hash adapter and every state, `insert(insert(s, a), b) =
insert(insert(s, b), a)`; hence two insertion sequences that are permutations of each other
(the same multiset of values) end in the same state. -/
theorem C17_insert_commutes (W : Nat) (P : Policy α) (b : counting_bloom_filter_0.State P)
    (s : counting_bloom_filter.State P) (x y : α) (vs ws : List α) (hperm : vs.Perm ws) :
    counting_bloom_filter_0.insert P (counting_bloom_filter_0.insert P b x) y =
      counting_bloom_filter_0.insert P (counting_bloom_filter_0.insert P b y) x ∧
    counting_bloom_filter.insert W P (counting_bloom_filter.insert W P s x) y =
      counting_bloom_filter.insert W P (counting_bloom_filter.insert W P s y) x ∧
    counting_bloom_filter_0.insert_all P b vs = counting_bloom_filter_0.insert_all P b ws ∧
    counting_bloom_filter.insert_all W P s vs = counting_bloom_filter.insert_all W P s ws := by
  refine ⟨bit_insert_comm P b x y, cnt_insert_comm W P s x y, ?_, ?_⟩
  · exact hperm.foldl_eq' (fun u _ v _ z => bit_insert_comm P z u v) b
  · exact hperm.foldl_eq' (fun u _ v _ z => cnt_insert_comm W P z u v) s

/-- C17 instantiated: 2-bit counters and bits over `demoPolicy`, the sequences 0, 8, 3 and
3, 0, 8. -/
theorem C17_insert_commutes_witness :
    ([0, 8, 3] : List Nat).Perm [3, 0, 8] ∧
    counting_bloom_filter_0.insert demoPolicy
        (counting_bloom_filter_0.insert demoPolicy demoBits 0) 8 =
      counting_bloom_filter_0.insert demoPolicy
        (counting_bloom_filter_0.insert demoPolicy demoBits 8) 0 ∧
    counting_bloom_filter.insert 2 demoPolicy
        (counting_bloom_filter.insert 2 demoPolicy demoCounters 0) 8 =
      counting_bloom_filter.insert 2 demoPolicy
        (counting_bloom_filter.insert 2 demoPolicy demoCounters 8) 0 ∧
    counting_bloom_filter_0.insert_all demoPolicy demoBits [0, 8, 3] =
      counting_bloom_filter_0.insert_all demoPolicy demoBits [3, 0, 8] ∧
    counting_bloom_filter.insert_all 2 demoPolicy demoCounters [0, 8, 3] =
      counting_bloom_filter.insert_all 2 demoPolicy demoCounters [3, 0, 8] :=
  ⟨by decide, C17_insert_commutes 2 demoPolicy demoBits demoCounters 0 8 [0, 8, 3] [3, 0, 8]
    (by decide)⟩

/-! ## C18: bit insert is idempotent and monotone -/

/-- C18: bit storage, every state `s` and values `v`, `w`: `insert(insert(s, v), v) =
insert(s, v)`; every bit set in `s` is still set in `insert(s, v)`; and `contains(w)` true
before the insert stays true after it. -/
theorem C18_bit_insert_idempotent_monotone (P : Policy α)
    (s : counting_bloom_filter_0.State P) (v w : α) :
    counting_bloom_filter_0.insert P (counting_bloom_filter_0.insert P s v) v =
      counting_bloom_filter_0.insert P s v ∧
    (∀ j, s j = true → counting_bloom_filter_0.insert P s v j = true) ∧
    (counting_bloom_filter_0.contains P s w = true →
      counting_bloom_filter_0.contains P (counting_bloom_filter_0.insert P s v) w = true) := by
  refine ⟨?_, ?_, ?_⟩
  · funext j
    rw [Bool.eq_iff_iff, bit_insert_apply, bit_insert_apply, or_assoc, or_self]
  · intro j hj
    rw [bit_insert_apply]
    exact Or.inl hj
  · intro hw
    rw [bit_contains_iff] at hw ⊢
    intro idx hidx
    rw [bit_insert_apply]
    exact Or.inl (hw idx hidx)

/-! ## Lemmas: the capacity-driven probability -/

section SizePolicyLemmas

theorem size_policy_closed_form (Expected NumBuckets K : Nat) :
    detail.bloom_filter_size_policy.false_positive_probability Expected NumBuckets K =
      (1 - (1 - 1 / (NumBuckets : ℝ)) ^ (K * Expected)) ^ K := by
  unfold detail.bloom_filter_size_policy.false_positive_probability
    detail.bloom_filter_size_policy.num_hashes
  simp only [Real.rpow_eq_pow]
  rw [Real.rpow_natCast, ← Nat.cast_mul, Real.rpow_natCast]

end SizePolicyLemmas

section SizePolicyExact

/-- The exact real probability of the capacity-driven policy lies strictly between 0 and 1
exactly when there are at least two buckets and a positive expected cardinality. -/
theorem size_policy_exact_iff (Expected NumBuckets K : Nat) (hM : 1 ≤ NumBuckets)
    (hK : 1 ≤ K) :
    (0 < detail.bloom_filter_size_policy.false_positive_probability Expected NumBuckets K ∧
      detail.bloom_filter_size_policy.false_positive_probability Expected NumBuckets K < 1) ↔
      (2 ≤ NumBuckets ∧ 1 ≤ Expected) := by
  rw [size_policy_closed_form]
  have hK0 : K ≠ 0 := by omega
  constructor
  · rintro ⟨hpos, hlt⟩
    have hN : 1 ≤ Expected := by
      by_contra hN
      have h0 : Expected = 0 := by omega
      rw [h0, Nat.mul_zero, pow_zero, sub_self, zero_pow hK0] at hpos
      exact lt_irrefl _ hpos
    refine ⟨?_, hN⟩
    by_contra hM2
    have h1 : NumBuckets = 1 := by omega
    have hKN : K * Expected ≠ 0 := Nat.mul_ne_zero hK0 (by omega)
    rw [h1] at hlt
    norm_num [zero_pow hKN] at hlt
  · rintro ⟨hM2, hN⟩
    have hMr : (2 : ℝ) ≤ (NumBuckets : ℝ) := by exact_mod_cast hM2
    have hMpos : (0 : ℝ) < (NumBuckets : ℝ) := lt_of_lt_of_le (by norm_num) hMr
    have hinv0 : (0 : ℝ) < 1 / (NumBuckets : ℝ) := one_div_pos.mpr hMpos
    have hinv1 : 1 / (NumBuckets : ℝ) ≤ 1 / 2 := by
      apply one_div_le_one_div_of_le (by norm_num)
      exact hMr
    have hb0 : (0 : ℝ) < 1 - 1 / (NumBuckets : ℝ) := by linarith only [hinv1]
    have hb1 : 1 - 1 / (NumBuckets : ℝ) < 1 := by linarith only [hinv0]
    have hKN : K * Expected ≠ 0 := Nat.mul_ne_zero hK0 (by omega)
    have hp0 : (0 : ℝ) < (1 - 1 / (NumBuckets : ℝ)) ^ (K * Expected) := pow_pos hb0 _
    have hp1 : (1 - 1 / (NumBuckets : ℝ)) ^ (K * Expected) < 1 :=
      pow_lt_one₀ hb0.le hb1 hKN
    have hy0 : (0 : ℝ) < 1 - (1 - 1 / (NumBuckets : ℝ)) ^ (K * Expected) := by
      linarith only [hp1]
    have hy1 : 1 - (1 - 1 / (NumBuckets : ℝ)) ^ (K * Expected) < 1 := by
      linarith only [hp0]
    exact ⟨pow_pos hy0 _, pow_lt_one₀ hy0.le hy1 hK0⟩

/-- A filter within the stated load passes the static check in double arithmetic. -/
theorem size_policy_double_accepted_of_load {F : FloatOps} {u : ℝ} (hF : F.Standard u)
    (hu : u ≤ 1 / 1024) (N M K : Nat) (hM2 : 2 ≤ M) (hN : 1 ≤ N) (hK1 : 1 ≤ K)
    (hK16 : K ≤ 16) (hKN : K * N ≤ 2 ^ 53) (hMu : 8 * u * (M : ℝ) ≤ 1)
    (hKNu : 6 * u * ((K * N : ℕ) : ℝ) ≤ 1)
    (hload : 8 * u ≤ (1 - 1 / (M : ℝ)) ^ (K * N)) :
    f64.bloom_filter_size_policy.accepted F N M K := by
  have hM50 := nat_le_of_load u M hF.u_ge hMu
  have hM53 : M ≤ 2 ^ 53 := by
    have : (M : ℝ) ≤ 2 ^ 53 := le_trans hM50 (pow_le_pow_right₀ (by norm_num) (by norm_num))
    exact_mod_cast this
  exact size_policy_double_accepted hF hu N M K hM2 hN hK1 hK16 hM53 hKN hMu hKNu hload

end SizePolicyExact

/-! ## C19: which capacity-driven configurations pass the static check -/

/-- C19 as stated fails: with 1000 expected values over 8 buckets and two probes the exact
real probability lies strictly between 0 and 1 (`M >= 2`, `N >= 1`), but in every double
arithmetic obeying the IEEE-754 laws (`refOps` is one) the computed probability is exactly 1
and the static check rejects the configuration. -/
theorem C19_overloaded_rejected :
    (0 < detail.bloom_filter_size_policy.false_positive_probability 1000 8 2 ∧
      detail.bloom_filter_size_policy.false_positive_probability 1000 8 2 < 1) ∧
    refOps.Standard ((1 / 2) ^ 52) ∧
    ∀ (F : FloatOps) (u : ℝ), F.Standard u → u ≤ 1 / 1024 →
      f64.bloom_filter_size_policy.false_positive_probability F 1000 8 2 = 1 ∧
      ¬ f64.bloom_filter_size_policy.accepted F 1000 8 2 := by
  refine ⟨(size_policy_exact_iff 1000 8 2 (by decide) (by decide)).mpr
    ⟨by decide, by decide⟩, refOps_standard, ?_⟩
  intro F u hF hu
  have h := size_policy_double_overloaded hF hu
  refine ⟨h, ?_⟩
  rintro ⟨-, h1⟩
  rw [h] at h1
  exact lt_irrefl _ h1

/-- C19 (amended): capacity-driven policy with bucket count `M >= 1`, expected cardinality
`N < 2^64` and probe count `1 <= K < 2^64`.  The exact real probability lies strictly between
0 and 1 if and only if `M >= 2` and `N >= 1`.  The static check, which compares the double,
accepts only if `M >= 2` and `N >= 1` (`M = 1` with `N >= 1` gives exactly 1, `N = 0` gives
exactly 0); it does accept such a configuration when furthermore `K <= 16`,
`K N <= 2^53`, `8 u M <= 1`, `6 u K N <= 1` and the filter is not overloaded:
`(1 - 1/M)^(K N) >= 8 u`. -/
theorem C19_size_policy_static_check (F : FloatOps) (u : ℝ) (hF : F.Standard u)
    (hu : u ≤ 1 / 1024) (Expected NumBuckets K : Nat) (hM : 1 ≤ NumBuckets) (hK : 1 ≤ K)
    (hK64 : K < 2 ^ 64) (hN64 : Expected < 2 ^ 64) :
    ((0 < detail.bloom_filter_size_policy.false_positive_probability Expected NumBuckets K ∧
      detail.bloom_filter_size_policy.false_positive_probability Expected NumBuckets K < 1) ↔
      (2 ≤ NumBuckets ∧ 1 ≤ Expected)) ∧
    (f64.bloom_filter_size_policy.accepted F Expected NumBuckets K →
      2 ≤ NumBuckets ∧ 1 ≤ Expected) ∧
    (NumBuckets = 1 → 1 ≤ Expected →
      f64.bloom_filter_size_policy.false_positive_probability F Expected NumBuckets K = 1) ∧
    (Expected = 0 →
      f64.bloom_filter_size_policy.false_positive_probability F Expected NumBuckets K = 0) ∧
    (2 ≤ NumBuckets → 1 ≤ Expected → K ≤ 16 → K * Expected ≤ 2 ^ 53 →
      8 * u * (NumBuckets : ℝ) ≤ 1 → 6 * u * ((K * Expected : ℕ) : ℝ) ≤ 1 →
      8 * u ≤ (1 - 1 / (NumBuckets : ℝ)) ^ (K * Expected) →
      f64.bloom_filter_size_policy.accepted F Expected NumBuckets K) := by
  have hu2 : u ≤ 1 / 2 := le_trans hu (by norm_num)
  refine ⟨size_policy_exact_iff Expected NumBuckets K hM hK,
    size_policy_double_only_if hF hu2 Expected NumBuckets K hM hK hK64 hN64, ?_, ?_, ?_⟩
  · intro h1 hN
    rw [h1]
    exact size_policy_double_one_bucket hF hu2 Expected K hN hN64 hK hK64
  · intro h0
    rw [h0]
    exact size_policy_double_zero_expected hF (lt_of_le_of_lt hu (by norm_num)) NumBuckets K
      hK hK64
  · intro hM2 hN hK16 hKN hMu hKNu hload
    exact size_policy_double_accepted_of_load hF hu Expected NumBuckets K hM2 hN hK hK16 hKN
      hMu hKNu hload

/-- C19 (amended) instantiated in the arithmetic `refOps`: eight buckets, expected
cardinality 3, two probes pass the static check. -/
theorem C19_size_policy_static_check_witness :
    refOps.Standard ((1 / 2) ^ 52) ∧
    f64.bloom_filter_size_policy.accepted refOps 3 8 2 := by
  have hu : ((1 : ℝ) / 2) ^ 52 ≤ 1 / 1024 := by norm_num
  have h := C19_size_policy_static_check refOps ((1 / 2) ^ 52) refOps_standard hu 3 8 2
    (by decide) (by decide) (by norm_num) (by norm_num)
  exact ⟨refOps_standard, h.2.2.2.2 (by decide) (by decide) (by decide) (by norm_num)
    (by norm_num) (by norm_num) (by norm_num)⟩

/-! ## Lemmas: fmix64 is invertible -/

section FmixLemmas

theorem xorshift33_lt (k : Nat) (hk : k < 2 ^ 64) : xorshift33 k < 2 ^ 64 := by
  unfold xorshift33
  apply Nat.xor_lt_two_pow hk
  rw [Nat.shiftRight_eq_div_pow]
  exact lt_of_le_of_lt (Nat.div_le_self _ _) hk

/-- On a 64-bit word, shifting right by 33 twice leaves nothing, so the xor-shift undoes
itself. -/
theorem xorshift33_invol (k : Nat) (hk : k < 2 ^ 64) : xorshift33 (xorshift33 k) = k := by
  apply Nat.eq_of_testBit_eq
  intro i
  have hhigh : k.testBit (33 + (33 + i)) = false := by
    apply Nat.testBit_lt_two_pow
    exact lt_of_lt_of_le hk (Nat.pow_le_pow_right (by decide) (by omega))
  simp only [xorshift33, Nat.testBit_xor, Nat.testBit_shiftRight, hhigh]
  cases k.testBit i <;> cases k.testBit (33 + i) <;> rfl

/-- Multiplying by `c` modulo `2 ^ 64` is undone by multiplying by an inverse of `c`. -/
theorem mul_inv_u64 (c d : Nat) (hcd : c * d % 2 ^ 64 = 1) (k : Nat) (hk : k < 2 ^ 64) :
    u64 (u64 (k * c) * d) = k := by
  unfold u64
  rw [Nat.mod_mul_mod, Nat.mul_assoc, Nat.mul_mod, hcd, Nat.mul_one, Nat.mod_mod,
    Nat.mod_eq_of_lt hk]

theorem u64_lt (n : Nat) : u64 n < 2 ^ 64 := Nat.mod_lt _ (by positivity)

theorem fmix64_eq (k : Nat) :
    fmix64 k = xorshift33 (u64 (xorshift33 (u64 (xorshift33 k * 0xff51afd7ed558ccd)) *
      0xc4ceb9fe1a85ec53)) := rfl

theorem fmix64_inv_fmix64 (k : Nat) (hk : k < 2 ^ 64) : fmix64_inv (fmix64 k) = k := by
  rw [fmix64_eq]
  unfold fmix64_inv
  simp only
  rw [xorshift33_invol _ (u64_lt _),
    mul_inv_u64 0xc4ceb9fe1a85ec53 0x9cb4b2f8129337db (by decide) _
      (xorshift33_lt _ (u64_lt _)),
    xorshift33_invol _ (u64_lt _),
    mul_inv_u64 0xff51afd7ed558ccd 0x4f74430c22a54005 (by decide) _ (xorshift33_lt _ hk),
    xorshift33_invol _ hk]

end FmixLemmas

/-! ## C20: fmix64 is a bijection on 64-bit words -/

/-- C20: for all 64-bit words `a`, `b`, `fmix64(a) = fmix64(b)` implies `a = b`; `fmix64` maps
64-bit words to 64-bit words and is onto them (it has a two-sided inverse built from the same
xor-shifts and the inverses of the two odd constants modulo `2^64`); and `fmix64(0) = 0`. -/
theorem C20_fmix64_bijective (a b : Nat) (ha : a < 2 ^ 64) (hb : b < 2 ^ 64) :
    (fmix64 a = fmix64 b → a = b) ∧ fmix64 a < 2 ^ 64 ∧
    (∃ c, c < 2 ^ 64 ∧ fmix64 c = a) ∧ fmix64 0 = 0 := by
  refine ⟨?_, ?_, ?_, by decide⟩
  · intro h
    rw [← fmix64_inv_fmix64 a ha, ← fmix64_inv_fmix64 b hb, h]
  · rw [fmix64_eq]
    exact xorshift33_lt _ (u64_lt _)
  · refine ⟨fmix64_inv a, ?_, ?_⟩
    · unfold fmix64_inv
      exact xorshift33_lt _ (u64_lt _)
    · rw [fmix64_eq]
      unfold fmix64_inv
      simp only
      rw [xorshift33_invol _ (u64_lt _),
        mul_inv_u64 0x4f74430c22a54005 0xff51afd7ed558ccd (by decide) _
          (xorshift33_lt _ (u64_lt _)),
        xorshift33_invol _ (u64_lt _),
        mul_inv_u64 0x9cb4b2f8129337db 0xc4ceb9fe1a85ec53 (by decide) _
          (xorshift33_lt _ ha),
        xorshift33_invol _ ha]

/-- C20 instantiated at the words 42 and 100. -/
theorem C20_fmix64_bijective_witness :
    (42 : Nat) < 2 ^ 64 ∧ (100 : Nat) < 2 ^ 64 ∧
    (fmix64 42 = fmix64 100 → (42 : Nat) = 100) ∧ fmix64 42 < 2 ^ 64 ∧
    (∃ c, c < 2 ^ 64 ∧ fmix64 c = 42) ∧ fmix64 0 = 0 :=
  ⟨by decide, by decide, C20_fmix64_bijective 42 100 (by decide) (by decide)⟩
